import Mathlib

/-!
# goParams: URL sanitizer, source adapters and aggregator

A shallow embedding of `internal/utils/url_cleaner.go` and `internal/api/*.go` of
goParams.  Go strings are byte sequences (`GoString`).  The standard-library routines
the program calls (`net/url`, `path`, `strings`, `bufio`) are transcribed from the Go
standard library, `net/url` as in Go 1.19 to 1.24: a host may hold colons outside
brackets, and what stands between brackets is not checked to be an IPv6 address.  The
Unicode case tables behind `strings.ToLower`, `json.Unmarshal` and the network are
parameters (`uni`, `decode`, `net`).

Go maps used as sets (`map[string]struct{}`) are modelled as duplicate-free lists in
insertion order; Go leaves the iteration order of a map unspecified, and every
statement below is about membership and multiplicity only.
-/

namespace GoParams

/-! ## Go strings -/

/-- A Go `byte`. -/
abbrev Byte := Fin 256

/-- A Go `string`: a finite sequence of bytes. -/
abbrev GoString := List Byte

/-- UTF-8 encoding of one code point. -/
def utf8Encode (c : Nat) : List Nat :=
  if c < 0x80 then [c]
  else if c < 0x800 then [0xC0 + c / 0x40, 0x80 + c % 0x40]
  else if c < 0x10000 then [0xE0 + c / 0x1000, 0x80 + (c / 0x40) % 0x40, 0x80 + c % 0x40]
  else [0xF0 + c / 0x40000, 0x80 + (c / 0x1000) % 0x40, 0x80 + (c / 0x40) % 0x40,
        0x80 + c % 0x40]

/-- The bytes of a string literal (Go source files are UTF-8). -/
def str (s : String) : GoString :=
  (s.toList.flatMap (fun c => utf8Encode c.toNat)).map (Fin.ofNat)

/-- Membership of a byte in a character class written as a literal. -/
def isIn (c : Byte) (cls : String) : Bool := cls.toList.any (fun d => d.toNat == c.val)

def isLower (c : Byte) : Bool := decide (97 ≤ c) && decide (c ≤ 122)
def isUpper (c : Byte) : Bool := decide (65 ≤ c) && decide (c ≤ 90)
def isDigit (c : Byte) : Bool := decide (48 ≤ c) && decide (c ≤ 57)

/-! ## package strings -/

/-- The Go `strings.HasPrefix`. -/
def HasPrefix (s pre : GoString) : Bool := decide (pre <+: s)

/-- The Go `strings.HasSuffix`. -/
def HasSuffix (s suf : GoString) : Bool := decide (suf <:+ s)

/-- First position `≥ i` (counted from `i`) at which `sep` occurs. -/
def indexFrom (sep : GoString) : GoString → Nat → Option Nat
  | [], i => if sep = [] then some i else none
  | c :: s, i => if HasPrefix (c :: s) sep then some i else indexFrom sep s (i + 1)

/-- The Go `strings.Index`, with `none` for `-1`. -/
def Index (s sep : GoString) : Option Nat := indexFrom sep s 0

/-- Last position at which `sep` occurs, scanning with the best match so far. -/
def lastIndexFrom (sep : GoString) : GoString → Nat → Option Nat → Option Nat
  | [], i, best => if sep = [] then some i else best
  | c :: s, i, best =>
      lastIndexFrom sep s (i + 1) (if HasPrefix (c :: s) sep then some i else best)

/-- The Go `strings.LastIndex`, with `none` for `-1`. -/
def LastIndex (s sep : GoString) : Option Nat := lastIndexFrom sep s 0 none

/-- The Go `strings.Contains`. -/
def Contains (s sub : GoString) : Bool := (Index s sub).isSome

/-- The Go `strings.Cut`. -/
def Cut (s sep : GoString) : GoString × GoString × Bool :=
  match Index s sep with
  | some i => (s.take i, s.drop (i + sep.length), true)
  | none => (s, [], false)

/-- The Go `strings.Count` for a one-byte separator. -/
def CountByte (s : GoString) (c : Byte) : Nat := s.count c

/-- ASCII lower-casing of one byte. -/
def lowerByte (c : Byte) : Byte := if isUpper c then c + 32 else c

/-- The Go `strings.ToLower`.  On an all-ASCII string it lower-cases byte by byte; otherwise
Go maps `unicode.ToLower` over the decoded runes, which needs the Unicode case tables: that
part is the parameter `uni`. -/
def ToLower (uni : GoString → GoString) (s : GoString) : GoString :=
  if s.all (fun c => decide (c < 0x80)) then s.map lowerByte else uni s

/-! ## package path -/

/-- Scan of `path.Ext`: `rev` is the path read from its end, `acc` what was read. -/
def extScan : GoString → GoString → GoString
  | [], _ => []
  | c :: rev, acc =>
      if c = 47 then [] else if c = 46 then c :: acc else extScan rev (c :: acc)

/-- The Go `path.Ext`: the suffix beginning at the final dot in the final slash-separated
element of the path, empty if there is no dot. -/
def Ext (path : GoString) : GoString := extScan path.reverse []

/-! ## package net/url -/

inductive Encoding
  | encodePath | encodePathSegment | encodeHost | encodeZone
  | encodeUserPassword | encodeQueryComponent | encodeFragment
  deriving DecidableEq, Repr

open Encoding

def ishex (c : Byte) : Bool :=
  isDigit c || (decide (97 ≤ c) && decide (c ≤ 102)) || (decide (65 ≤ c) && decide (c ≤ 70))

def unhex (c : Byte) : Byte :=
  if isDigit c then c - 48
  else if decide (97 ≤ c) && decide (c ≤ 102) then c - 97 + 10
  else if decide (65 ≤ c) && decide (c ≤ 70) then c - 65 + 10
  else 0

/-- The byte `"0123456789ABCDEF"[n]`, for `n < 16`. -/
def upperhex (n : Byte) : Byte := if n < 10 then 48 + n else 55 + n

/-- The Go expression `unhex(a)<<4 | unhex(b)`. -/
def unhex2 (a b : Byte) : Byte := unhex a * 16 + unhex b

/-- The Go `shouldEscape`. -/
def shouldEscape (c : Byte) (mode : Encoding) : Bool :=
  if isLower c || isUpper c || isDigit c then false
  else if (mode = encodeHost || mode = encodeZone) && isIn c "!$&'()*+,;=:[]<>\"" then false
  else if isIn c "-_.~" then false
  else if isIn c "$&+,/:;=?@" &&
      (mode = encodePath || mode = encodePathSegment || mode = encodeUserPassword ||
        mode = encodeQueryComponent || mode = encodeFragment) then
    match mode with
    | encodePath => c == 63
    | encodePathSegment => c == 47 || c == 59 || c == 44 || c == 63
    | encodeUserPassword => c == 64 || c == 47 || c == 63 || c == 58
    | encodeQueryComponent => true
    | _ => false
  else if mode = encodeFragment && isIn c "!()*" then false
  else true

/-- The writing loop of the Go `escape`. -/
def escape (s : GoString) (mode : Encoding) : GoString :=
  s.flatMap (fun c =>
    if c = 32 ∧ mode = encodeQueryComponent then [43]
    else if shouldEscape c mode then [37, upperhex (c / 16), upperhex (c % 16)]
    else [c])

/-- The checking loop of the Go `unescape`: `true` when the string is accepted. -/
def unescapeOk (mode : Encoding) : GoString → Bool
  | [] => true
  | 37 :: a :: b :: s =>
      if !ishex a || !ishex b then false
      else if mode = encodeHost && decide (unhex a < 8) && !(a == 50 && b == 53) then false
      else if mode = encodeZone && !(a == 50 && b == 53) && unhex2 a b != 32
          && shouldEscape (unhex2 a b) encodeHost then false
      else unescapeOk mode s
  | [37] => false
  | [37, _] => false
  | c :: s =>
      if c != 43 && (mode = encodeHost || mode = encodeZone) && decide (c < 0x80)
          && shouldEscape c encodeHost then false
      else unescapeOk mode s

/-- The writing loop of the Go `unescape`. -/
def unescapeRaw (mode : Encoding) : GoString → GoString
  | [] => []
  | 37 :: a :: b :: s => unhex2 a b :: unescapeRaw mode s
  | c :: s => (if c = 43 ∧ mode = encodeQueryComponent then 32 else c) :: unescapeRaw mode s

/-- The Go `unescape`. -/
def unescape (s : GoString) (mode : Encoding) : Except String GoString :=
  if unescapeOk mode s then .ok (unescapeRaw mode s) else .error "invalid URL escape"

/-- The Go `QueryEscape`. -/
def QueryEscape (s : GoString) : GoString := escape s encodeQueryComponent

/-- The Go `QueryUnescape`. -/
def QueryUnescape (s : GoString) : Except String GoString := unescape s encodeQueryComponent

/-- The Go `validEncoded`. -/
def validEncoded (s : GoString) (mode : Encoding) : Bool :=
  s.all (fun c => isIn c "!$&'()*+,;=:@" || isIn c "[]" || c == 37 || !shouldEscape c mode)

/-- The Go `url.Userinfo`. -/
structure Userinfo where
  username : GoString
  password : GoString
  passwordSet : Bool
  deriving DecidableEq, Repr

/-- The Go `url.URL`. -/
structure URL where
  Scheme : GoString := []
  Opaque : GoString := []
  User : Option Userinfo := none
  Host : GoString := []
  Path : GoString := []
  RawPath : GoString := []
  OmitHost : Bool := false
  ForceQuery : Bool := false
  RawQuery : GoString := []
  Fragment : GoString := []
  RawFragment : GoString := []
  deriving DecidableEq, Repr

/-- The Go `stringContainsCTLByte`. -/
def stringContainsCTLByte (s : GoString) : Bool := s.any (fun b => decide (b < 32) || b == 0x7f)

/-- The loop of the Go `getScheme`; `i` is the index of the head of the remaining input and
`pre` the bytes before it, reversed. -/
def getSchemeLoop (rawURL : GoString) : GoString → GoString → Except String (GoString × GoString)
  | [], _ => .ok ([], rawURL)
  | c :: s, pre =>
      if isLower c || isUpper c then getSchemeLoop rawURL s (c :: pre)
      else if isDigit c || c == 43 || c == 45 || c == 46 then
        if pre = [] then .ok ([], rawURL) else getSchemeLoop rawURL s (c :: pre)
      else if c == 58 then
        if pre = [] then .error "missing protocol scheme" else .ok (pre.reverse, s)
      else .ok ([], rawURL)

/-- The Go `getScheme`. -/
def getScheme (rawURL : GoString) : Except String (GoString × GoString) :=
  getSchemeLoop rawURL rawURL []

/-- The Go `validOptionalPort`. -/
def validOptionalPort (port : GoString) : Bool :=
  match port with
  | [] => true
  | c :: ds => c == 58 && ds.all isDigit

/-- The Go `parseHost`. -/
def parseHost (host : GoString) : Except String GoString :=
  if HasPrefix host (str "[") then
    match LastIndex host (str "]") with
    | none => .error "missing ']' in host"
    | some i =>
        if !validOptionalPort (host.drop (i + 1)) then .error "invalid port after host"
        else
          match Index (host.take i) (str "%25") with
          | some zone => do
              let host1 ← unescape (host.take zone) encodeHost
              let host2 ← unescape ((host.take i).drop zone) encodeZone
              let host3 ← unescape (host.drop i) encodeHost
              pure (host1 ++ host2 ++ host3)
          | none => unescape host encodeHost
  else
    match LastIndex host (str ":") with
    | some i =>
        if !validOptionalPort (host.drop i) then .error "invalid port after host"
        else unescape host encodeHost
    | none => unescape host encodeHost

/-- The Go `validUserinfo`. -/
def validUserinfo (s : GoString) : Bool :=
  s.all (fun r => isUpper r || isLower r || isDigit r || isIn r "-._:~!$&'()*+,;=%@")

/-- The Go `parseAuthority`. -/
def parseAuthority (authority : GoString) : Except String (Option Userinfo × GoString) :=
  match LastIndex authority (str "@") with
  | none => do
      let host ← parseHost authority
      pure (none, host)
  | some i => do
      let host ← parseHost (authority.drop (i + 1))
      let userinfo := authority.take i
      if !validUserinfo userinfo then .error "net/url: invalid userinfo"
      else if !Contains userinfo (str ":") then do
        let userinfo ← unescape userinfo encodeUserPassword
        pure (some ⟨userinfo, [], false⟩, host)
      else do
        let username ← unescape (Cut userinfo (str ":")).1 encodeUserPassword
        let password ← unescape (Cut userinfo (str ":")).2.1 encodeUserPassword
        pure (some ⟨username, password, true⟩, host)

/-- The Go `(*URL).setPath`. -/
def setPath (u : URL) (p : GoString) : Except String URL := do
  let path ← unescape p encodePath
  if p = escape path encodePath then pure { u with Path := path, RawPath := [] }
  else pure { u with Path := path, RawPath := p }

/-- The Go `(*URL).setFragment`. -/
def setFragment (u : URL) (f : GoString) : Except String URL := do
  let frag ← unescape f encodeFragment
  if f = escape frag encodeFragment then pure { u with Fragment := frag, RawFragment := [] }
  else pure { u with Fragment := frag, RawFragment := f }

/-- The Go `parse` with `viaRequest = false`. -/
def parse (rawURL : GoString) : Except String URL :=
  if stringContainsCTLByte rawURL then .error "net/url: invalid control character in URL"
  else if rawURL = str "*" then .ok { Path := str "*" }
  else do
    let (scheme, rest0) ← getScheme rawURL
    let scheme := scheme.map lowerByte
    let force := HasSuffix rest0 (str "?") && CountByte rest0 63 == 1
    let rest := if force then rest0.take (rest0.length - 1) else (Cut rest0 (str "?")).1
    let rawQuery := if force then [] else (Cut rest0 (str "?")).2.1
    let url : URL := { Scheme := scheme, ForceQuery := force, RawQuery := rawQuery }
    if !HasPrefix rest (str "/") && scheme ≠ [] then
      .ok { url with Opaque := rest }
    else if !HasPrefix rest (str "/") && Contains (Cut rest (str "/")).1 (str ":") then
      .error "first path segment in URL cannot contain colon"
    else if (scheme ≠ [] || !HasPrefix rest (str "///")) && HasPrefix rest (str "//") then do
      let auth0 := rest.drop 2
      let authority := match Index auth0 (str "/") with
        | some i => auth0.take i
        | none => auth0
      let rest := match Index auth0 (str "/") with
        | some i => auth0.drop i
        | none => []
      let (user, host) ← parseAuthority authority
      setPath { url with User := user, Host := host } rest
    else if scheme ≠ [] && HasPrefix rest (str "/") then
      setPath { url with OmitHost := true } rest
    else setPath url rest

/-- The Go `url.Parse`. -/
def Parse (rawURL : GoString) : Except String URL := do
  let url ← parse (Cut rawURL (str "#")).1
  if (Cut rawURL (str "#")).2.1 = [] then pure url
  else setFragment url (Cut rawURL (str "#")).2.1

/-- The Go `(*URL).EscapedPath`. -/
def URL.EscapedPath (u : URL) : GoString :=
  if u.RawPath ≠ [] ∧ validEncoded u.RawPath encodePath = true
      ∧ unescapeOk encodePath u.RawPath = true ∧ unescapeRaw encodePath u.RawPath = u.Path then
    u.RawPath
  else if u.Path = str "*" then str "*"
  else escape u.Path encodePath

/-- The Go `(*URL).EscapedFragment`. -/
def URL.EscapedFragment (u : URL) : GoString :=
  if u.RawFragment ≠ [] ∧ validEncoded u.RawFragment encodeFragment = true
      ∧ unescapeOk encodeFragment u.RawFragment = true
      ∧ unescapeRaw encodeFragment u.RawFragment = u.Fragment then
    u.RawFragment
  else escape u.Fragment encodeFragment

/-- The Go `(*Userinfo).String`. -/
def Userinfo.String (ui : Userinfo) : GoString :=
  escape ui.username encodeUserPassword ++
    (if ui.passwordSet then str ":" ++ escape ui.password encodeUserPassword else [])

/-- The Go `(*URL).String`; `buf` is the builder, threaded through the branches. -/
def URL.String (u : URL) : GoString :=
  let buf0 : GoString := if u.Scheme ≠ [] then u.Scheme ++ str ":" else []
  let buf1 : GoString :=
    if u.Opaque ≠ [] then buf0 ++ u.Opaque
    else
      let buf : GoString :=
        if u.Scheme ≠ [] ∨ u.Host ≠ [] ∨ u.User ≠ none then
          if u.OmitHost = true ∧ u.Host = [] ∧ u.User = none then buf0
          else
            buf0 ++ (if u.Host ≠ [] ∨ u.Path ≠ [] ∨ u.User ≠ none then str "//" else [])
              ++ (match u.User with
                  | some ui => ui.String ++ str "@"
                  | none => [])
              ++ (if u.Host ≠ [] then escape u.Host encodeHost else [])
        else buf0
      let path := u.EscapedPath
      let buf : GoString :=
        if path ≠ [] ∧ path.head? ≠ some 47 ∧ u.Host ≠ [] then buf ++ str "/" else buf
      let buf : GoString :=
        if buf = [] ∧ Contains (Cut path (str "/")).1 (str ":") = true then buf ++ str "./"
        else buf
      buf ++ path
  let buf2 : GoString :=
    if u.ForceQuery = true ∨ u.RawQuery ≠ [] then buf1 ++ str "?" ++ u.RawQuery else buf1
  if u.Fragment ≠ [] then buf2 ++ str "#" ++ u.EscapedFragment else buf2

/-- The Go `splitHostPort`. -/
def splitHostPort (hostPort : GoString) : GoString × GoString :=
  let hp : GoString × GoString :=
    match LastIndex hostPort (str ":") with
    | some colon =>
        if validOptionalPort (hostPort.drop colon) then
          (hostPort.take colon, hostPort.drop (colon + 1))
        else (hostPort, [])
    | none => (hostPort, [])
  if HasPrefix hp.1 (str "[") && HasSuffix hp.1 (str "]") then
    ((hp.1.drop 1).take (hp.1.length - 2), hp.2)
  else hp

/-- The Go `(*URL).Hostname`. -/
def URL.Hostname (u : URL) : GoString := (splitHostPort u.Host).1

/-- The Go `(*URL).Port`. -/
def URL.Port (u : URL) : GoString := (splitHostPort u.Host).2

/-- The Go `url.Values` (`map[string][]string`): the keys of the entries are distinct. -/
abbrev Values := List (GoString × List GoString)

/-- The Go statement `m[key] = append(m[key], value)`. -/
def Values.append : Values → GoString → GoString → Values
  | [], key, value => [(key, [value])]
  | (k, vs) :: m, key, value =>
      if k = key then (k, vs ++ [value]) :: m else (k, vs) :: Values.append m key value

/-- The loop of the Go `parseQuery` (the returned error is dropped, as `Query` does); the
loop runs while `query != ""` and `fuel` bounds its iterations. -/
def parseQueryLoop : Nat → Values → GoString → Values
  | 0, m, _ => m
  | fuel + 1, m, query =>
      if query = [] then m
      else
        let key := (Cut query (str "&")).1
        let query := (Cut query (str "&")).2.1
        if Contains key (str ";") then parseQueryLoop fuel m query
        else if key = [] then parseQueryLoop fuel m query
        else
          match QueryUnescape (Cut key (str "=")).1, QueryUnescape (Cut key (str "=")).2.1 with
          | .ok k, .ok v => parseQueryLoop fuel (m.append k v) query
          | _, _ => parseQueryLoop fuel m query

/-- The Go `(*URL).Query`: `ParseQuery(u.RawQuery)` with the error ignored.  Every iteration
of the loop removes at least one byte, so `length + 1` iterations exhaust the query. -/
def URL.Query (u : URL) : Values := parseQueryLoop (u.RawQuery.length + 1) [] u.RawQuery

/-- Byte-wise lexicographic `<` on Go strings. -/
def strLt : GoString → GoString → Bool
  | [], [] => false
  | [], _ :: _ => true
  | _ :: _, [] => false
  | a :: s, b :: t => if a < b then true else if b < a then false else strLt s t

/-- Insertion of a key into a sorted list of keys. -/
def insertKey (k : GoString) : List GoString → List GoString
  | [] => [k]
  | x :: xs => if strLt x k then x :: insertKey k xs else k :: x :: xs

/-- The Go `slices.Sort(keys)`. -/
def sortKeys (keys : List GoString) : List GoString := keys.foldr insertKey []

/-- The Go `v[k]`. -/
def Values.get (m : Values) (k : GoString) : List GoString :=
  match m.find? (fun e => e.1 = k) with
  | some e => e.2
  | none => []

/-- The Go `(Values).Encode`: keys in sorted order, `buf` the builder. -/
def Values.Encode (v : Values) : GoString :=
  (sortKeys (v.map Prod.fst)).foldl
    (fun buf k =>
      (v.get k).foldl
        (fun buf val =>
          (if buf ≠ [] then buf ++ str "&" else buf) ++ QueryEscape k ++ str "=" ++ QueryEscape val)
        buf)
    []

/-- The Go loop `for key := range q { q.Set(key, placeholder) }`. -/
def Values.setAll (q : Values) (placeholder : GoString) : Values :=
  q.map (fun e => (e.1, [placeholder]))

/-! ## internal/utils/url_cleaner.go -/

/-- `HasExtension` of `url_cleaner.go`. -/
def HasExtension (uni : GoString → GoString) (rawURL : GoString) (extensions : List GoString) :
    Bool :=
  match Parse rawURL with
  | .error _ => false
  | .ok u => extensions.any (fun e => decide (ToLower uni (Ext u.Path) = e))

/-- `CleanURL` of `url_cleaner.go`. -/
def CleanURL (rawURL : GoString) : GoString :=
  match Parse rawURL with
  | .error _ => rawURL
  | .ok u =>
      let host := u.Hostname
      let port := u.Port
      if (u.Scheme = str "http" ∧ port = str "80") ∨ (u.Scheme = str "https" ∧ port = str "443")
      then ({ u with Host := host } : URL).String
      else u.String

/-- The Go statement `set[s] = struct{}{}` on a `map[string]struct{}`. -/
def setInsert (set : List GoString) (s : GoString) : List GoString :=
  if s ∈ set then set else set ++ [s]

/-- One iteration of the loop of `CleanURLs`. -/
def cleanStep (uni : GoString → GoString) (extensions : List GoString) (placeholder : GoString)
    (cleanedSet : List GoString) (rawURL : GoString) : List GoString :=
  let cleanedURL := CleanURL rawURL
  if HasExtension uni cleanedURL extensions then cleanedSet
  else
    match Parse cleanedURL with
    | .error _ => setInsert cleanedSet cleanedURL
    | .ok u =>
        let q := u.Query.setAll placeholder
        setInsert cleanedSet ({ u with RawQuery := q.Encode } : URL).String

/-- `CleanURLs` of `url_cleaner.go`; the result lists the set in insertion order. -/
def CleanURLs (uni : GoString → GoString) (urls : List GoString) (extensions : List GoString)
    (placeholder : GoString) : List GoString :=
  urls.foldl (cleanStep uni extensions placeholder) []

/-! ## package strings, continued: white space, lines, splitting -/

/-- Width in bytes of the white-space rune (`unicode.IsSpace`) encoded at the head of `s`,
`0` when the head is not one. -/
def spaceWidth : GoString → Nat
  | 0xC2 :: 0x85 :: _ => 2
  | 0xC2 :: 0xA0 :: _ => 2
  | 0xE1 :: 0x9A :: 0x80 :: _ => 3
  | 0xE2 :: 0x80 :: c :: _ =>
      if (decide (0x80 ≤ c) && decide (c ≤ 0x8A)) || c == 0xA8 || c == 0xA9 || c == 0xAF then 3
      else 0
  | 0xE2 :: 0x81 :: 0x9F :: _ => 3
  | 0xE3 :: 0x80 :: 0x80 :: _ => 3
  | c :: _ => if (decide (9 ≤ c) && decide (c ≤ 13)) || c == 32 then 1 else 0
  | [] => 0

/-- Width in bytes of the white-space rune that ends the string whose reversal is `r`. -/
def spaceWidthRev : GoString → Nat
  | 0x85 :: 0xC2 :: _ => 2
  | 0xA0 :: 0xC2 :: _ => 2
  | 0x80 :: 0x9A :: 0xE1 :: _ => 3
  | 0x9F :: 0x81 :: 0xE2 :: _ => 3
  | 0x80 :: 0x80 :: 0xE3 :: _ => 3
  | c :: 0x80 :: 0xE2 :: _ =>
      if (decide (0x80 ≤ c) && decide (c ≤ 0x8A)) || c == 0xA8 || c == 0xA9 || c == 0xAF then 3
      else if (decide (9 ≤ c) && decide (c ≤ 13)) || c == 32 then 1 else 0
  | c :: _ => if (decide (9 ≤ c) && decide (c ≤ 13)) || c == 32 then 1 else 0
  | [] => 0

/-- Removal of leading white space; `skip` counts the bytes still to drop of the rune being
removed. -/
def trimLeftLoop : GoString → Nat → GoString
  | [], _ => []
  | _ :: s, skip + 1 => trimLeftLoop s skip
  | c :: s, 0 =>
      if 0 < spaceWidth (c :: s) then trimLeftLoop s (spaceWidth (c :: s) - 1) else c :: s

/-- Removal of trailing white space, on the reversed string. -/
def trimRightLoop : GoString → Nat → GoString
  | [], _ => []
  | _ :: r, skip + 1 => trimRightLoop r skip
  | c :: r, 0 =>
      if 0 < spaceWidthRev (c :: r) then trimRightLoop r (spaceWidthRev (c :: r) - 1)
      else c :: r

/-- The Go `strings.TrimSpace`. -/
def TrimSpace (s : GoString) : GoString :=
  (trimRightLoop (trimLeftLoop s 0).reverse 0).reverse

/-- The loop of `strings.Fields`; `cur` is the field being read, reversed. -/
def fieldsLoop : GoString → Nat → GoString → List GoString
  | [], _, cur => if cur = [] then [] else [cur.reverse]
  | _ :: s, skip + 1, cur => fieldsLoop s skip cur
  | c :: s, 0, cur =>
      if 0 < spaceWidth (c :: s) then
        (if cur = [] then [] else [cur.reverse]) ++ fieldsLoop s (spaceWidth (c :: s) - 1) []
      else fieldsLoop s 0 (c :: cur)

/-- The Go `strings.Fields`. -/
def Fields (s : GoString) : List GoString := fieldsLoop s 0 []

/-- Pieces of `s` between occurrences of the byte `sep`; `cur` is the piece being read,
reversed. -/
def splitByte (sep : Byte) : GoString → GoString → List GoString
  | [], cur => [cur.reverse]
  | c :: s, cur => if c = sep then cur.reverse :: splitByte sep s [] else splitByte sep s (c :: cur)

/-- The Go `strings.Split(s, sep)` for a one-byte separator. -/
def Split (s : GoString) (sep : Byte) : List GoString := splitByte sep s []

/-- The Go `strings.Replace(s, old, new, 1)`. -/
def Replace1 (s old new : GoString) : GoString :=
  match Index s old with
  | some i => s.take i ++ new ++ s.drop (i + old.length)
  | none => s

/-- The Go `bufio.MaxScanTokenSize`. -/
def MaxScanTokenSize : Nat := 64 * 1024

/-- The Go `dropCR` of `bufio.ScanLines`. -/
def dropCR (data : GoString) : GoString :=
  if data.getLast? = some 13 then data.dropLast else data

/-- Tokens of a `bufio.Scanner` with `ScanLines` over `data`, up to the first line that does
not fit the scanner's buffer; the flag is `scanner.Err() != nil` (`ErrTooLong`). -/
def scanTokens : List GoString → List GoString × Bool
  | [] => ([], false)
  | [last] =>
      if MaxScanTokenSize ≤ last.length then ([], true)
      else if last = [] then ([], false) else ([dropCR last], false)
  | line :: rest =>
      if MaxScanTokenSize ≤ line.length then ([], true)
      else ((dropCR line) :: (scanTokens rest).1, (scanTokens rest).2)

/-- The lines a `bufio.Scanner` yields for `data`, and whether it stopped on an error. -/
def scanLines (data : GoString) : List GoString × Bool := scanTokens (Split data 10)

/-! ## internal/config/config.go -/

/-- `Config` of `config.go`. -/
structure Config where
  VirusTotalAPIKey : GoString
  AlienVaultAPIKey : GoString
  Concurrency : Int
  UserAgents : List GoString
  RateLimit : Int
  deriving DecidableEq, Repr

/-! ## internal/api -/

/-- An `error` value, by the expression that builds it. -/
inductive GoError
  /-- The value `errors.New(msg)`. -/
  | errorsNew (msg : String)
  /-- The value `fmt.Errorf(format, resp.StatusCode)`, `format` with one `%d`. -/
  | statusf (format : String) (statusCode : Nat)
  /-- The value `fmt.Errorf(format, err)`, `format` with one `%w`. -/
  | wrapf (format : String) (err : String)
  /-- The value `&WayBackException{Message: msg}`. -/
  | wayBackException (msg : String)
  /-- An `err` of a callee returned as it is. -/
  | passed (err : String)
  deriving DecidableEq, Repr

/-- What `GetWithRandomUA` hands back on success: the status code, the bytes the body
delivers and the error, if any, on which reading the body ends instead of at `io.EOF`. -/
structure Response where
  StatusCode : Nat
  Body : GoString
  BodyErr : Option String := none
  deriving DecidableEq, Repr

/-- The network seen through `GetWithRandomUA`: the outcome of the call for each URL. -/
abbrev Network := GoString → Except String Response

/-- The result of an adapter together with the URLs it passed to `GetWithRandomUA`, in
program order. -/
structure Fetched where
  requests : List GoString
  result : Except GoError (List GoString)

/-- The Go `io.ReadAll(resp.Body)`. -/
def ReadAll (resp : Response) : Except String GoString :=
  match resp.BodyErr with
  | some e => .error e
  | none => .ok resp.Body

/-! ### wayback.go -/

/-- `fixArchiveOrgUrl` of `wayback.go`; `none` is the run-time panic of the slice expression
`urlStr[:idx]` when `idx` exceeds the length of `urlStr` (the index is found in the
lower-cased copy, which can be longer than the original). -/
def fixArchiveOrgUrl (uni : GoString → GoString) (urlStr : GoString) : Option GoString :=
  let lower := ToLower uni urlStr
  match Index lower (str "%0a") with
  | some idx =>
      if 0 < idx then (if idx ≤ urlStr.length then some (urlStr.take idx) else none)
      else some urlStr
  | none => some urlStr

/-- One iteration of the scanner loop of `FetchWayback`; `none` when `fixArchiveOrgUrl`
panics. -/
def waybackLine (uni : GoString → GoString) (urlSet : List GoString) (text : GoString) :
    Option (List GoString) :=
  let line := TrimSpace text
  if line = [] then some urlSet
  else
    let fields := Fields line
    if fields.length < 2 then some urlSet
    else
      match fixArchiveOrgUrl uni (fields.getD 1 []) with
      | none => none
      | some originalURL =>
          if Contains originalURL (str "?") then some (setInsert urlSet originalURL)
          else some urlSet

/-- The scanner loop of `FetchWayback` over the lines read; `none` when an iteration
panics. -/
def waybackLoop (uni : GoString → GoString) : List GoString → List GoString →
    Option (List GoString)
  | [], urlSet => some urlSet
  | text :: rest, urlSet =>
      match waybackLine uni urlSet text with
      | none => none
      | some urlSet => waybackLoop uni rest urlSet

/-- The request URL of `FetchWayback`. -/
def waybackURL (domain : GoString) : GoString :=
  str "https://web.archive.org/cdx/search/cdx?url=" ++ domain ++ str "/*"
    ++ str "&fl=timestamp,original,mimetype,statuscode,digest"

/-- What `FetchWayback` returns after its request, `none` when it panics in the scanner
loop. -/
def waybackResult (uni : GoString → GoString) (net : Network) (apiURL : GoString) :
    Option (Except GoError (List GoString)) :=
  match net apiURL with
  | .error e => some (.error (.wrapf "error fetching from Wayback: %w" e))
  | .ok resp =>
      if resp.StatusCode ≠ 200 then
        some (.error (.statusf "Wayback Machine returned status code %d" resp.StatusCode))
      else
        match ReadAll resp with
        | .error e => some (.error (.wrapf "error reading Wayback response: %w" e))
        | .ok bodyStr =>
            let lowerBody := ToLower uni bodyStr
            if Contains lowerBody (str "wayback machine has not archived that url") ||
                Contains lowerBody
                  (str "snapshot cannot be displayed due to an internal error") then
              some (.error (.wayBackException "Wayback Machine returned an error response"))
            else
              match waybackLoop uni (scanLines bodyStr).1 [] with
              | none => none
              | some urlSet =>
                  if (scanLines bodyStr).2 then
                    some (.error (.wrapf "error scanning Wayback response: %w"
                      "bufio.Scanner: token too long"))
                  else some (.ok urlSet)

/-- `FetchWayback` of `wayback.go`; `none` when the call panics (in `fixArchiveOrgUrl`)
instead of returning. -/
def FetchWayback (uni : GoString → GoString) (net : Network) (domain : GoString)
    (_cfg : Config) : Option Fetched :=
  let apiURL := waybackURL domain
  (waybackResult uni net apiURL).map (fun result => { requests := [apiURL], result := result })

/-! ### commoncrawl.go -/

/-- `CommonCrawlEntry` of `commoncrawl.go`. -/
structure CommonCrawlEntry where
  Timestamp : GoString := []
  URL : GoString := []
  Mime : GoString := []
  Status : GoString := []
  Digest : GoString := []
  deriving DecidableEq, Repr

/-- `BaseIndexURL` of `commoncrawl.go`. -/
def BaseIndexURL : GoString := str "http://index.commoncrawl.org/CC-MAIN-2019-51-index"

/-- The request URL of `FetchCommonCrawl`. -/
def commonCrawlURL (domain : GoString) : GoString :=
  BaseIndexURL
    ++ (str "?output=json&fl=timestamp,url,mime,status,digest&url="
          ++ QueryEscape (domain ++ str "/*"))
    ++ str "&filter=!~mime:(warc/revisit)" ++ str "&filter=!~status:(404)" ++ []

/-- The body of the reading loop of `FetchCommonCrawl` after `reader.ReadString` returned
`text` without an error other than `io.EOF`; `atEOF` is `err == io.EOF`.  The result is the
new `urlsFound` and whether the loop goes on (`continue`, or falling off the end of the
body) rather than leaving by `break`.  `decode` is `json.Unmarshal` into a
`CommonCrawlEntry`. -/
def commonCrawlLine (uni : GoString → GoString)
    (decode : GoString → Except String CommonCrawlEntry) (atEOF : Bool)
    (urlsFound : List GoString) (text : GoString) : List GoString × Bool :=
  let line := TrimSpace text
  if line = [] then (urlsFound, !atEOF)
  else if Contains (ToLower uni line) (str "no captures found") then (urlsFound, false)
  else
    match decode line with
    | .error _ => (urlsFound, true)
    | .ok entry =>
        let urlsFound :=
          if Contains entry.URL (str "?") then urlsFound ++ [entry.URL] else urlsFound
        (urlsFound, !atEOF)

/-- The reading loop of `FetchCommonCrawl` over the pieces of the body that
`reader.ReadString` returns: every piece but the last ends with the newline, the last one
comes with `io.EOF`, or with the error `bodyErr` of the body.  After a last piece that was
skipped by `continue`, the next `ReadString` returns the empty string and `io.EOF`, which
leaves the loop. -/
def commonCrawlLoop (uni : GoString → GoString)
    (decode : GoString → Except String CommonCrawlEntry) (bodyErr : Bool) :
    List GoString → List GoString → List GoString
  | [], urlsFound => urlsFound
  | [last], urlsFound =>
      if bodyErr then urlsFound else (commonCrawlLine uni decode true urlsFound last).1
  | piece :: rest, urlsFound =>
      let r := commonCrawlLine uni decode false urlsFound (piece ++ [10])
      if r.2 then commonCrawlLoop uni decode bodyErr rest r.1 else r.1

/-- `FetchCommonCrawl` of `commoncrawl.go`. -/
def FetchCommonCrawl (uni : GoString → GoString)
    (decode : GoString → Except String CommonCrawlEntry) (net : Network) (domain : GoString)
    (_cfg : Config) : Fetched :=
  let fullURL := commonCrawlURL domain
  { requests := [fullURL]
    result :=
      match net fullURL with
      | .error e => .error (.wrapf "error fetching from Common Crawl: %w" e)
      | .ok resp =>
          if resp.StatusCode = 429 then
            .error (.errorsNew "Common Crawl rate limit reached (429)")
          else if resp.StatusCode ≠ 200 then
            .error (.statusf "Common Crawl returned status code: %d" resp.StatusCode)
          else
            .ok (commonCrawlLoop uni decode resp.BodyErr.isSome (Split resp.Body 10) []) }

/-! ### virustotal.go -/

/-- A decoded JSON value held in an `interface{}`: a string, or anything else. -/
inductive JSONValue
  | string (s : GoString)
  | other
  deriving DecidableEq, Repr

/-- `VirusTotalResponse` of `virustotal.go`; `DetectedURLs` lists the `URL` fields. -/
structure VirusTotalResponse where
  DetectedURLs : List GoString := []
  UndetectedURLs : List (List JSONValue) := []
  deriving DecidableEq, Repr

/-- The request URL of `FetchVirusTotal`. -/
def virusTotalURL (domain : GoString) (cfg : Config) : GoString :=
  str "https://www.virustotal.com/vtapi/v2/domain/report?apikey=" ++ cfg.VirusTotalAPIKey
    ++ str "&domain=" ++ domain

/-- The two collecting loops of `FetchVirusTotal`. -/
def virusTotalCollect (vtResp : VirusTotalResponse) : List GoString :=
  let urlSet := vtResp.DetectedURLs.foldl
    (fun urlSet url =>
      if url ≠ [] ∧ Contains url (str "?") = true then setInsert urlSet url else urlSet) []
  vtResp.UndetectedURLs.foldl
    (fun urlSet arr =>
      match arr with
      | JSONValue.string urlStr :: _ =>
          if Contains urlStr (str "?") then setInsert urlSet urlStr else urlSet
      | _ => urlSet) urlSet

/-- `FetchVirusTotal` of `virustotal.go`; `decode` is `json.Unmarshal` into a
`VirusTotalResponse`. -/
def FetchVirusTotal (decode : GoString → Except String VirusTotalResponse) (net : Network)
    (domain : GoString) (cfg : Config) : Fetched :=
  if cfg.VirusTotalAPIKey = [] then { requests := [], result := .ok [] }
  else
    let apiURL := virusTotalURL domain cfg
    { requests := [apiURL]
      result :=
        match net apiURL with
        | .error e => .error (.wrapf "error fetching from VirusTotal: %w" e)
        | .ok resp =>
            if resp.StatusCode ≠ 200 then
              .error (.statusf "VirusTotal returned status code %d" resp.StatusCode)
            else
              match ReadAll resp with
              | .error e => .error (.wrapf "error reading VirusTotal response: %w" e)
              | .ok bodyBytes =>
                  match decode bodyBytes with
                  | .error e => .error (.wrapf "error parsing VirusTotal JSON: %w" e)
                  | .ok vtResp => .ok (virusTotalCollect vtResp) }

/-! ### alienvault.go -/

/-- `AlienVaultResponse` of `alienvault.go`; `UrlList` lists the `URL` fields. -/
structure AlienVaultResponse where
  FullSize : Int := 0
  UrlList : List GoString := []
  deriving DecidableEq, Repr

/-- `BaseAlienVaultURL` of `alienvault.go`. -/
def BaseAlienVaultURL : GoString :=
  str "https://otx.alienvault.com/api/v1/indicators/\x7bTYPE\x7d/\x7bDOMAIN\x7d/url_list?limit=500"

/-- `getIndicatorType` of `alienvault.go`. -/
def getIndicatorType (domain : GoString) : GoString :=
  if 2 < (Split domain 46).length then str "hostname" else str "domain"

/-- Rounding of a rational to the nearest integer, ties to even. -/
def roundHalfEven (x : ℚ) : ℤ :=
  if x - ⌊x⌋ < 1 / 2 then ⌊x⌋
  else if 1 / 2 < x - ⌊x⌋ then ⌊x⌋ + 1
  else if ⌊x⌋ % 2 = 0 then ⌊x⌋ else ⌊x⌋ + 1

/-- Rounding of a real number to the nearest `float64` (53 significant bits, ties to even).
The numbers rounded in `FetchAlienVault` are a 64-bit integer and its quotient by 500, which
lie in the range of normal `float64` numbers. -/
def roundFloat64 (x : ℚ) : ℚ :=
  if x = 0 then 0
  else roundHalfEven (x / (2 : ℚ) ^ (Int.log 2 |x| - 52)) * (2 : ℚ) ^ (Int.log 2 |x| - 52)

/-- The Go expression `int(math.Ceil(float64(totalURLs) / 500.0))`. -/
def totalPagesOf (totalURLs : Int) : Int :=
  ⌈roundFloat64 (roundFloat64 (totalURLs : ℚ) / 500)⌉

/-- The Go `fmt.Sprintf("%d", page)` for a non-negative `page`. -/
def formatNat (page : Nat) : GoString := str (toString page)

/-- The `baseURL` of `FetchAlienVault`. -/
def alienVaultBaseURL (domain : GoString) : GoString :=
  Replace1 (Replace1 BaseAlienVaultURL (str "\x7bTYPE\x7d") (getIndicatorType domain))
    (str "\x7bDOMAIN\x7d") (QueryEscape domain)

/-- `processAlienVaultPage` of `alienvault.go`, given the outcome of its request; `decode` is
`json.Unmarshal` into an `AlienVaultResponse`. -/
def processAlienVaultPage (uni : GoString → GoString)
    (decode : GoString → Except String AlienVaultResponse) (net : Network)
    (pageURL targetDomain : GoString) : Except GoError (List GoString) :=
  match net pageURL with
  | .error e => .error (.wrapf "error requesting Alien Vault page: %w" e)
  | .ok resp =>
      if resp.StatusCode = 429 then .error (.errorsNew "Alien Vault rate limit reached (429)")
      else if resp.StatusCode ≠ 200 then
        .error (.statusf "Alien Vault page returned status code %d" resp.StatusCode)
      else
        match ReadAll resp with
        | .error e => .error (.passed e)
        | .ok bodyBytes =>
            if bodyBytes.length = 0 then .ok []
            else
              match decode bodyBytes with
              | .error e => .error (.wrapf "error parsing Alien Vault page JSON: %w" e)
              | .ok avResp =>
                  .ok (avResp.UrlList.filter (fun foundURL =>
                    decide (foundURL ≠ []) && Contains foundURL (str "?")
                      && Contains (ToLower uni foundURL) (ToLower uni targetDomain)))

/-- The page numbers of the loop `for page := 1; page <= totalPages; page++`. -/
def pageNumbers (totalPages : Int) : List Nat := List.range' 1 totalPages.toNat

/-- The URL requested for a page. -/
def alienVaultPageURL (domain : GoString) (page : Nat) : GoString :=
  alienVaultBaseURL domain ++ str "&page=" ++ formatNat page

/-- `FetchAlienVault` of `alienvault.go`.  The page goroutines are run here in the order of
the page numbers; they share nothing but the set `urlSet`, which they fill under the mutex. -/
def FetchAlienVault (uni : GoString → GoString)
    (decode : GoString → Except String AlienVaultResponse) (net : Network)
    (domain : GoString) (cfg : Config) : Fetched :=
  if cfg.AlienVaultAPIKey = [] then { requests := [], result := .ok [] }
  else
    let baseURL := alienVaultBaseURL domain
    let initialURL := baseURL ++ str "&showNumPages=True"
    match net initialURL with
    | .error e =>
        { requests := [initialURL]
          result := .error (.wrapf "error fetching Alien Vault initial page: %w" e) }
    | .ok resp =>
        if resp.StatusCode = 429 then
          { requests := [initialURL]
            result := .error (.errorsNew "Alien Vault rate limit reached (429)") }
        else if resp.StatusCode ≠ 200 then
          { requests := [initialURL]
            result := .error (.statusf "Alien Vault returned status code %d" resp.StatusCode) }
        else
          match ReadAll resp with
          | .error e => { requests := [initialURL], result := .error (.passed e) }
          | .ok bodyBytes =>
              match decode bodyBytes with
              | .error e =>
                  { requests := [initialURL]
                    result := .error (.wrapf "error parsing Alien Vault initial JSON: %w" e) }
              | .ok initResp =>
                  let totalURLs := initResp.FullSize
                  if totalURLs = 0 then { requests := [initialURL], result := .ok [] }
                  else
                    let pages := pageNumbers (totalPagesOf totalURLs)
                    { requests := initialURL :: pages.map (alienVaultPageURL domain)
                      result := .ok (pages.foldl
                        (fun urlSet page =>
                          match processAlienVaultPage uni decode net
                              (alienVaultPageURL domain page) domain with
                          | .error _ => urlSet
                          | .ok pageURLs => pageURLs.foldl setInsert urlSet) []) }

/-! ### fetch_all.go -/

/-- What one goroutine of `FetchAll` obtains from its adapter. -/
abbrev Outcome := Except GoError (List GoString)

/-- The collecting loop of `FetchAll` over the values received on `urlCh`: `delivered` lists
what the goroutines obtained, in the order in which they hand it over; an error goes to
`errCh` and is only logged. -/
def collectAll (delivered : List Outcome) : List GoString :=
  delivered.foldl
    (fun urlSet o =>
      match o with
      | .ok urls => urls.foldl setInsert urlSet
      | .error _ => urlSet) []

/-- `FetchAll` of `fetch_all.go` for four adapters with the outcomes `apis`, the goroutines
handing over in the order `arrival` (a permutation of the four): the returned list and the
returned error. -/
def FetchAllWith (apis : Fin 4 → Outcome) (arrival : List (Fin 4)) :
    List GoString × Option GoError :=
  (collectAll (arrival.map apis), none)

/-- The JSON decoders of the three adapters that read JSON (`json.Unmarshal`). -/
structure Decoders where
  commonCrawl : GoString → Except String CommonCrawlEntry
  virusTotal : GoString → Except String VirusTotalResponse
  alienVault : GoString → Except String AlienVaultResponse

/-- `FetchAll` of `fetch_all.go`; `none` when the goroutine of `FetchWayback` panics, which
ends the program. -/
def FetchAll (uni : GoString → GoString) (dec : Decoders) (net : Network)
    (arrival : List (Fin 4)) (domain : GoString) (cfg : Config) :
    Option (List GoString × Option GoError) :=
  match FetchWayback uni net domain cfg with
  | none => none
  | some wayback =>
      some (FetchAllWith
        (fun i =>
          match i with
          | 0 => wayback.result
          | 1 => (FetchCommonCrawl uni dec.commonCrawl net domain cfg).result
          | 2 => (FetchVirusTotal dec.virusTotal net domain cfg).result
          | 3 => (FetchAlienVault uni dec.alienVault net domain cfg).result)
        arrival)

/-! ## Auxiliary definitions for the statements -/

/-- One step of the collecting loop of `FetchAll`. -/
def collectStep (urlSet : List GoString) (o : Outcome) : List GoString :=
  match o with
  | .ok urls => urls.foldl setInsert urlSet
  | .error _ => urlSet

/-- Four adapter outcomes: the first returns `a, b`, the second fails, the third
returns `b, c`, the fourth returns nothing. -/
def exampleOutcomes : Fin 4 → Outcome
  | 0 => .ok [str "a", str "b"]
  | 1 => .error (.errorsNew "Common Crawl rate limit reached (429)")
  | 2 => .ok [str "b", str "c"]
  | 3 => .ok []

/-- A configuration without keys. -/
def noKeys : Config :=
  { VirusTotalAPIKey := [], AlienVaultAPIKey := [], Concurrency := 5, UserAgents := [],
    RateLimit := 0 }

/-! ## Auxiliary definitions: reading back what `String` writes -/

/-- The syntax `getScheme` accepts for a scheme: a letter, then letters, digits, `+`, `-`
or `.`. -/
def validScheme : GoString → Bool
  | [] => false
  | c :: cs =>
      (isLower c || isUpper c) &&
        cs.all (fun d => isLower d || isUpper d || isDigit d || d == 43 || d == 45 || d == 46)

/-- The branch `parse` takes after the scheme and the query are split off. -/
inductive Branch
  | rootless | authority | omitHost | plain
  deriving DecidableEq, Repr

/-- The branch `parse` takes, from the scheme and the text between scheme and query. -/
def branchOf (sch rest : GoString) : Branch :=
  if !HasPrefix rest [47] && sch ≠ [] then .rootless
  else if (sch ≠ [] || !HasPrefix rest [47, 47, 47]) && HasPrefix rest [47, 47] then .authority
  else if sch ≠ [] && HasPrefix rest [47] then .omitHost
  else .plain

/-- The text `parse` hands to `setPath`, from the scheme and the text between scheme and
query. -/
def pathTextOfRest (sch rest : GoString) : GoString :=
  match branchOf sch rest with
  | .rootless => []
  | .authority => (rest.drop 2).dropWhile (fun x => x != 47)
  | _ => rest

/-- The part of `parse` after `getScheme`. -/
def parseBody (scheme0 rest0 : GoString) : Except String URL :=
    let scheme := scheme0.map lowerByte
    let force := HasSuffix rest0 (str "?") && CountByte rest0 63 == 1
    let rest := if force then rest0.take (rest0.length - 1) else (Cut rest0 (str "?")).1
    let rawQuery := if force then [] else (Cut rest0 (str "?")).2.1
    let url : URL := { Scheme := scheme, ForceQuery := force, RawQuery := rawQuery }
    if !HasPrefix rest (str "/") && scheme ≠ [] then
      .ok { url with Opaque := rest }
    else if !HasPrefix rest (str "/") && Contains (Cut rest (str "/")).1 (str ":") then
      .error "first path segment in URL cannot contain colon"
    else if (scheme ≠ [] || !HasPrefix rest (str "///")) && HasPrefix rest (str "//") then do
      let auth0 := rest.drop 2
      let authority := match Index auth0 (str "/") with
        | some i => auth0.take i
        | none => auth0
      let rest := match Index auth0 (str "/") with
        | some i => auth0.drop i
        | none => []
      let (user, host) ← parseAuthority authority
      setPath { url with User := user, Host := host } rest
    else if scheme ≠ [] && HasPrefix rest (str "/") then
      setPath { url with OmitHost := true } rest
    else setPath url rest

/-- The bytes allowed in a scheme. -/
def schemeChar (d : Byte) : Bool :=
  isLower d || isUpper d || isDigit d || d == 43 || d == 45 || d == 46

/-- What `setPath p` leaves in a URL; the last alternative is the URL `*`, for which `parse`
sets `Path` without `setPath`. -/
def PathFacts (v : URL) (P : GoString) : Prop :=
  unescapeOk encodePath P = true ∧ v.Path = unescapeRaw encodePath P ∧
    (v.RawPath = P ∨ (v.RawPath = [] ∧ (P = escape v.Path encodePath ∨ v.Path = [42])))

/-- What `url.Parse` leaves in a URL whose text up to the query splits at the scheme into
`sch` and `rest`. -/
def ParsedAs (sch rest : GoString) (v : URL) : Prop :=
  v.Scheme = sch.map lowerByte ∧
    (branchOf sch rest = .rootless →
      v.Opaque = rest ∧ v.Path = [] ∧ v.RawPath = [] ∧ v.Host = [] ∧ v.User = none) ∧
    (branchOf sch rest ≠ .rootless → v.Opaque = [] ∧ PathFacts v (pathTextOfRest sch rest)) ∧
    (branchOf sch rest ≠ .authority → v.Host = [] ∧ v.User = none) ∧
    (v.OmitHost = true ↔ branchOf sch rest = .omitHost) ∧
    (branchOf sch rest = .plain → HasPrefix rest [47] = false →
      58 ∉ rest.takeWhile (fun x => x != 47)) ∧
    (branchOf sch rest = .authority →
      parseAuthority ((rest.drop 2).takeWhile (fun x => x != 47)) = .ok (v.User, v.Host))

/-- What `(*URL).String` writes before the query and the fragment. -/
def URL.head (u : URL) : GoString :=
  let buf0 : GoString := if u.Scheme ≠ [] then u.Scheme ++ str ":" else []
  if u.Opaque ≠ [] then buf0 ++ u.Opaque
  else
    let buf : GoString :=
      if u.Scheme ≠ [] ∨ u.Host ≠ [] ∨ u.User ≠ none then
        if u.OmitHost = true ∧ u.Host = [] ∧ u.User = none then buf0
        else
          buf0 ++ (if u.Host ≠ [] ∨ u.Path ≠ [] ∨ u.User ≠ none then str "//" else [])
            ++ (match u.User with
                | some ui => ui.String ++ str "@"
                | none => [])
            ++ (if u.Host ≠ [] then escape u.Host encodeHost else [])
      else buf0
    let path := u.EscapedPath
    let buf : GoString :=
      if path ≠ [] ∧ path.head? ≠ some 47 ∧ u.Host ≠ [] then buf ++ str "/" else buf
    let buf : GoString :=
      if buf = [] ∧ Contains (Cut path (str "/")).1 (str ":") = true then buf ++ str "./"
      else buf
    buf ++ path

/-- What `(*URL).String` writes from the query on. -/
def URL.tail (u : URL) : GoString :=
  (if u.ForceQuery = true ∨ u.RawQuery ≠ [] then str "?" ++ u.RawQuery else [])
    ++ (if u.Fragment ≠ [] then str "#" ++ u.EscapedFragment else [])

/-- The case in which the escaped path written by `String` is read back as an authority:
nothing is written between the scheme and a path that begins with two slashes. -/
def URL.PathAsAuthority (u : URL) : Prop :=
  u.Host = [] ∧ u.User = none ∧ HasPrefix u.EscapedPath [47, 47] = true ∧
    (u.Scheme = [] → HasPrefix u.EscapedPath [47, 47, 47] = false) ∧
    (u.Scheme ≠ [] → u.OmitHost = true)

/-- The properties of a URL value on which reading back the output of `String` relies; they
hold for what `url.Parse` returns. -/
def URL.WF (u : URL) : Prop :=
  (u.Scheme = [] ∨ validScheme u.Scheme = true) ∧
    (u.Opaque ≠ [] →
      u.Scheme ≠ [] ∧ HasPrefix u.Opaque [47] = false ∧ 63 ∉ u.Opaque ∧ 35 ∉ u.Opaque) ∧
    (u.Opaque = [] → (u.Scheme ≠ [] ∨ u.Host ≠ [] ∨ u.User ≠ none) →
      (u.EscapedPath = [] ∨ u.EscapedPath.head? = some 47))

/-- The bytes `escape` writes for one byte. -/
def escapeByte (mode : Encoding) (c : Byte) : GoString :=
  if c = 32 ∧ mode = encodeQueryComponent then [43]
  else if shouldEscape c mode then [37, upperhex (c / 16), upperhex (c % 16)]
  else [c]

/-- The test of `validEncoded` on one byte. -/
def validByte (mode : Encoding) (c : Byte) : Bool :=
  isIn c "!$&'()*+,;=:@" || isIn c "[]" || c == 37 || !shouldEscape c mode

/-- The text `String` writes for the authority, after the two slashes. -/
def URL.authText (u : URL) : GoString :=
  (match u.User with
    | some ui => ui.String ++ str "@"
    | none => [])
    ++ (if u.Host ≠ [] then escape u.Host encodeHost else [])

/-- The properties of a URL value that `url.Parse` returns for a string written by
`String`. -/
def URL.Normal (u : URL) : Prop :=
  u.WF ∧ unescapeRaw encodePath u.EscapedPath = u.Path ∧ (u.Opaque ≠ [] → u.Path = []) ∧
    ¬ u.PathAsAuthority

/-! ## config.go, and examples for the adapters -/

/-- The default user agents of `Validate`. -/
def defaultUserAgents : List GoString :=
  [str "Mozilla/5.0 (Windows NT 10.0; Win64; x64) AppleWebKit/537.36 (KHTML, like Gecko)",
   str "Mozilla/5.0 (Macintosh; Intel Mac OS X 10_15_7) AppleWebKit/605.1.15 (KHTML, like Gecko)",
   str "Mozilla/5.0 (X11; Linux x86_64) AppleWebKit/537.36 (KHTML, like Gecko)"]

/-- `Validate` of `config.go`: the configuration it leaves behind the pointer and the error
it returns. -/
def Validate (cfg : Config) : Config × Option GoError :=
  if cfg.VirusTotalAPIKey = [] then (cfg, some (.errorsNew "virus total api key is missing"))
  else if cfg.AlienVaultAPIKey = [] then
    (cfg, some (.errorsNew "alien vault api key is missing"))
  else
    let cfg : Config := if cfg.Concurrency ≤ 0 then { cfg with Concurrency := 5 } else cfg
    let cfg : Config :=
      if cfg.UserAgents.length = 0 then { cfg with UserAgents := defaultUserAgents } else cfg
    (cfg, none)

/-- A Common Crawl record for the URL `http://x.com/?a=1`, as a line of the response. -/
def exampleRecord : GoString := str "\x7b\"url\": \"http://x.com/?a=1\"\x7d"

/-- A decoder that knows the line `exampleRecord`. -/
def exampleDecode (line : GoString) : Except String CommonCrawlEntry :=
  if line = exampleRecord then .ok { URL := str "http://x.com/?a=1" }
  else .error "invalid character"

/-- A network that answers every request with the status 200 and the given body. -/
def serve (body : GoString) : Network := fun _ => .ok { StatusCode := 200, Body := body }

/-- A configuration with both keys. -/
def bothKeys : Config :=
  { VirusTotalAPIKey := str "vt", AlienVaultAPIKey := str "av", Concurrency := 0,
    UserAgents := [], RateLimit := 0 }

/-- The text `reader.ReadString` returns for the piece `L` of the body: with the newline,
unless it is the last piece. -/
def readText (L : GoString) (after : List GoString) : GoString :=
  if after = [] then L else L ++ [10]

/-- The first URL `FetchAlienVault` requests, which asks for the number of results. -/
def alienVaultInitialURL (domain : GoString) : GoString :=
  alienVaultBaseURL domain ++ str "&showNumPages=True"

/-- A decoder that knows one body, `body`, which gives the count `n` and no URL. -/
def exampleCount (body : GoString) (n : Int) : GoString → Except String AlienVaultResponse :=
  fun b => if b = body then .ok { FullSize := n } else .error "invalid character"

/-- An AlienVault response body with the count `2 ^ 53 + 9`. -/
def bodyBeyondFloat64 : GoString := str "\x7b\"full_size\": 9007199254741001\x7d"

/-- An AlienVault response body with the count 501. -/
def body501 : GoString := str "\x7b\"full_size\": 501\x7d"

/-! ## Sets as lists -/

theorem mem_setInsert {set : List GoString} {s x : GoString} :
    x ∈ setInsert set s ↔ x ∈ set ∨ x = s := by
  unfold setInsert
  split
  · constructor
    · intro h; exact Or.inl h
    · rintro (h | h)
      · exact h
      · subst h; assumption
  · simp

theorem nodup_setInsert {set : List GoString} (s : GoString) (h : set.Nodup) :
    (setInsert set s).Nodup := by
  unfold setInsert
  split
  · exact h
  · rename_i hs
    rw [List.nodup_append]
    refine ⟨h, List.nodup_singleton s, ?_⟩
    intro a ha hb
    rw [List.mem_singleton] at hb
    exact hs (hb ▸ ha)

theorem mem_foldl_setInsert {xs set : List GoString} {x : GoString} :
    x ∈ xs.foldl setInsert set ↔ x ∈ set ∨ x ∈ xs := by
  induction xs generalizing set with
  | nil => simp
  | cons y ys ih =>
      rw [List.foldl_cons, ih, mem_setInsert, List.mem_cons]
      constructor
      · rintro ((h | h) | h)
        · exact Or.inl h
        · exact Or.inr (Or.inl h)
        · exact Or.inr (Or.inr h)
      · rintro (h | h | h)
        · exact Or.inl (Or.inl h)
        · exact Or.inl (Or.inr h)
        · exact Or.inr h

theorem nodup_foldl_setInsert {xs set : List GoString} (h : set.Nodup) :
    (xs.foldl setInsert set).Nodup := by
  induction xs generalizing set with
  | nil => exact h
  | cons y ys ih => exact ih (nodup_setInsert y h)

/-! ## The sanitizer: structure of the loop -/

theorem nodup_cleanStep (uni : GoString → GoString) (exts : List GoString) (p : GoString)
    {set : List GoString} (raw : GoString) (h : set.Nodup) :
    (cleanStep uni exts p set raw).Nodup := by
  unfold cleanStep
  dsimp only
  split
  · exact h
  · split
    · exact nodup_setInsert _ h
    · exact nodup_setInsert _ h

theorem nodup_foldl_cleanStep (uni : GoString → GoString) (exts : List GoString)
    (p : GoString) (urls : List GoString) {set : List GoString} (h : set.Nodup) :
    (urls.foldl (cleanStep uni exts p) set).Nodup := by
  induction urls generalizing set with
  | nil => exact h
  | cons y ys ih => exact ih (nodup_cleanStep uni exts p y h)

theorem subset_cleanStep (uni : GoString → GoString) (exts : List GoString) (p : GoString)
    (set : List GoString) (raw : GoString) {x : GoString} (h : x ∈ set) :
    x ∈ cleanStep uni exts p set raw := by
  unfold cleanStep
  dsimp only
  split
  · exact h
  · split
    · exact mem_setInsert.2 (Or.inl h)
    · exact mem_setInsert.2 (Or.inl h)

theorem subset_foldl_cleanStep (uni : GoString → GoString) (exts : List GoString)
    (p : GoString) (urls : List GoString) {set : List GoString} {x : GoString} (h : x ∈ set) :
    x ∈ urls.foldl (cleanStep uni exts p) set := by
  induction urls generalizing set with
  | nil => exact h
  | cons y ys ih => exact ih (subset_cleanStep uni exts p set y h)

/-- What one input contributes to the set: nothing, the cleaned URL as it is, or the
cleaned URL with its query rewritten. -/
theorem mem_cleanStep (uni : GoString → GoString) (exts : List GoString) (p : GoString)
    (set : List GoString) (raw x : GoString) (h : x ∈ cleanStep uni exts p set raw) :
    x ∈ set ∨
      (HasExtension uni (CleanURL raw) exts = false ∧
        ((x = CleanURL raw ∧ ∃ e, Parse (CleanURL raw) = .error e) ∨
          ∃ u, Parse (CleanURL raw) = .ok u ∧
            x = ({ u with RawQuery := (u.Query.setAll p).Encode } : URL).String)) := by
  unfold cleanStep at h
  dsimp only at h
  split at h
  · exact Or.inl h
  · rename_i hext
    split at h
    · rename_i e he
      rcases mem_setInsert.1 h with h | h
      · exact Or.inl h
      · exact Or.inr ⟨by simpa using hext, Or.inl ⟨h, e, he⟩⟩
    · rename_i u hu
      rcases mem_setInsert.1 h with h | h
      · exact Or.inl h
      · exact Or.inr ⟨by simpa using hext, Or.inr ⟨u, hu, h⟩⟩

theorem mem_foldl_cleanStep (uni : GoString → GoString) (exts : List GoString) (p : GoString)
    (urls : List GoString) (set : List GoString) (x : GoString)
    (h : x ∈ urls.foldl (cleanStep uni exts p) set) :
    x ∈ set ∨ ∃ raw ∈ urls,
      (HasExtension uni (CleanURL raw) exts = false ∧
        ((x = CleanURL raw ∧ ∃ e, Parse (CleanURL raw) = .error e) ∨
          ∃ u, Parse (CleanURL raw) = .ok u ∧
            x = ({ u with RawQuery := (u.Query.setAll p).Encode } : URL).String)) := by
  induction urls generalizing set with
  | nil => exact Or.inl h
  | cons y ys ih =>
      rw [List.foldl_cons] at h
      rcases ih _ h with h | ⟨raw, hraw, hx⟩
      · rcases mem_cleanStep uni exts p set y x h with h | h
        · exact Or.inl h
        · exact Or.inr ⟨y, List.mem_cons_self _ _, h⟩
      · exact Or.inr ⟨raw, List.mem_cons_of_mem _ hraw, hx⟩

theorem cleanStep_of_parse_error (uni : GoString → GoString) (exts : List GoString)
    (p : GoString) (set : List GoString) (raw : GoString) (e : String)
    (h : Parse raw = .error e) : raw ∈ cleanStep uni exts p set raw := by
  have hc : CleanURL raw = raw := by simp [CleanURL, h]
  have hx : HasExtension uni raw exts = false := by simp [HasExtension, h]
  unfold cleanStep
  simp only [hc, hx, h]
  exact mem_setInsert.2 (Or.inr rfl)

/-! ## The sanitizer: claims -/

/-- The scenario of the specification: `http://x.com:80/p?id=1&name=bob` with `.jpg`
disallowed and the placeholder `FUZZ` is sanitized to `http://x.com/p?id=FUZZ&name=FUZZ`. -/
theorem cleanURLs_scenario (uni : GoString → GoString) :
    CleanURLs uni [str "http://x.com:80/p?id=1&name=bob"] [str ".jpg"] (str "FUZZ")
      = [str "http://x.com/p?id=FUZZ&name=FUZZ"] := by
  rfl

/-- C1, at the input `http://[::a]:80/p?id=1`: the input parses, its path has no disallowed
extension and its query has the one parameter `id`, yet the output of `CleanURLs` is
`http://::a/p?id=1`, with the value `1` left in place, and that output is rejected by
`url.Parse`.  `CleanURL` replaced the host `[::a]:80` by `Hostname()`, which has lost the
brackets. -/
theorem cleanURLs_ipv6_query_kept (uni : GoString → GoString) :
    (Parse (str "http://[::a]:80/p?id=1")).toOption.map URL.Query
        = some [(str "id", [str "1"])]
      ∧ HasExtension uni (str "http://[::a]:80/p?id=1") [str ".jpg"] = false
      ∧ CleanURLs uni [str "http://[::a]:80/p?id=1"] [str ".jpg"] (str "FUZZ")
        = [str "http://::a/p?id=1"]
      ∧ (Parse (str "http://::a/p?id=1")).toOption = none := by
  refine ⟨?_, ?_, ?_, ?_⟩ <;> rfl

/-- C3, at the input `http://[::1]:80/p`: `CleanURL` returns `http://::1/p`, and parsed
again that string has the port `1` (and the host name `:`). -/
theorem cleanURL_ipv6_port (uni : GoString → GoString) :
    CleanURL (str "http://[::1]:80/p") = str "http://::1/p"
      ∧ (Parse (CleanURL (str "http://[::1]:80/p"))).toOption.map URL.Port = some (str "1")
      ∧ (Parse (CleanURL (str "http://[::1]:80/p"))).toOption.map URL.Hostname
        = some (str ":")
      ∧ CleanURLs uni [str "http://[::1]:80/p"] [str ".jpg"] (str "FUZZ")
        = [str "http://::1/p"] := by
  refine ⟨?_, ?_, ?_, ?_⟩ <;> rfl

/-- C4, at the input list `[http://[::80]:80/p?a=1]`: one pass of `CleanURLs` gives
`[http://::80/p?a=FUZZ]`, a second pass gives `[http://:/p?a=FUZZ]`, a different set. -/
theorem cleanURLs_not_idempotent (uni : GoString → GoString) :
    CleanURLs uni [str "http://[::80]:80/p?a=1"] [str ".jpg"] (str "FUZZ")
        = [str "http://::80/p?a=FUZZ"]
      ∧ CleanURLs uni
          (CleanURLs uni [str "http://[::80]:80/p?a=1"] [str ".jpg"] (str "FUZZ"))
          [str ".jpg"] (str "FUZZ")
        = [str "http://:/p?a=FUZZ"]
      ∧ str "http://:/p?a=FUZZ" ∉
          CleanURLs uni [str "http://[::80]:80/p?a=1"] [str ".jpg"] (str "FUZZ") := by
  refine ⟨?_, ?_, ?_⟩
  · rfl
  · rfl
  · have h : CleanURLs uni [str "http://[::80]:80/p?a=1"] [str ".jpg"] (str "FUZZ")
        = [str "http://::80/p?a=FUZZ"] := rfl
    rw [h]
    decide

/-- C5: an input string that `url.Parse` rejects is a member of the output of `CleanURLs`,
unchanged, whatever the other inputs, the extension list and the placeholder are. -/
theorem cleanURLs_keeps_unparseable (uni : GoString → GoString)
    (urls exts : List GoString) (p raw : GoString) (hmem : raw ∈ urls)
    (hparse : ∃ e, Parse raw = .error e) : raw ∈ CleanURLs uni urls exts p := by
  obtain ⟨e, he⟩ := hparse
  unfold CleanURLs
  generalize ([] : List GoString) = set
  induction urls generalizing set with
  | nil => exact absurd hmem (List.not_mem_nil _)
  | cons y ys ih =>
      rw [List.foldl_cons]
      rcases List.mem_cons.1 hmem with h | h
      · subst h
        exact subset_foldl_cleanStep uni exts p ys
          (cleanStep_of_parse_error uni exts p set raw e he)
      · exact ih h _

theorem cleanURLs_keeps_unparseable_witness :
    (str "http://x.com/%zz" ∈ [str "http://x.com/a?b=1", str "http://x.com/%zz"]
        ∧ ∃ e, Parse (str "http://x.com/%zz") = .error e)
      ∧ str "http://x.com/%zz" ∈
          CleanURLs id [str "http://x.com/a?b=1", str "http://x.com/%zz"] [str ".jpg"]
            (str "FUZZ") :=
  ⟨⟨by decide, ⟨_, rfl⟩⟩,
    cleanURLs_keeps_unparseable id _ _ _ _ (by decide) ⟨_, rfl⟩⟩

/-- The list returned by `CleanURLs` has no two equal entries; the two inputs
`http://x.com/p?id=1` and `http://x.com/p?id=2` of the specification give the single entry
`http://x.com/p?id=FUZZ`. -/
theorem cleanURLs_nodup :
    (∀ (uni : GoString → GoString) (urls exts : List GoString) (p : GoString),
        (CleanURLs uni urls exts p).Nodup)
      ∧ ∀ uni : GoString → GoString,
          CleanURLs uni [str "http://x.com/p?id=1", str "http://x.com/p?id=2"] [str ".jpg"]
            (str "FUZZ") = [str "http://x.com/p?id=FUZZ"] :=
  ⟨fun uni urls exts p => nodup_foldl_cleanStep uni exts p urls List.nodup_nil,
    fun _ => rfl⟩

/-! ## The aggregator -/

theorem collectAll_eq (delivered : List Outcome) :
    collectAll delivered = delivered.foldl collectStep [] := by
  rfl

theorem mem_foldl_collectStep {delivered : List Outcome} {set : List GoString}
    {x : GoString} :
    x ∈ delivered.foldl collectStep set ↔
      x ∈ set ∨ ∃ urls, Except.ok urls ∈ delivered ∧ x ∈ urls := by
  induction delivered generalizing set with
  | nil => simp
  | cons o os ih =>
      rw [List.foldl_cons, ih]
      cases o with
      | error e =>
          simp only [collectStep, List.mem_cons]
          constructor
          · rintro (h | ⟨urls, hu, hx⟩)
            · exact Or.inl h
            · exact Or.inr ⟨urls, Or.inr hu, hx⟩
          · rintro (h | ⟨urls, hu | hu, hx⟩)
            · exact Or.inl h
            · cases hu
            · exact Or.inr ⟨urls, hu, hx⟩
      | ok us =>
          simp only [collectStep, List.mem_cons, mem_foldl_setInsert]
          constructor
          · rintro ((h | h) | ⟨urls, hu, hx⟩)
            · exact Or.inl h
            · exact Or.inr ⟨us, Or.inl rfl, h⟩
            · exact Or.inr ⟨urls, Or.inr hu, hx⟩
          · rintro (h | ⟨urls, hu | hu, hx⟩)
            · exact Or.inl (Or.inl h)
            · cases hu
              exact Or.inl (Or.inr hx)
            · exact Or.inr ⟨urls, hu, hx⟩

theorem nodup_foldl_collectStep {delivered : List Outcome} {set : List GoString}
    (h : set.Nodup) : (delivered.foldl collectStep set).Nodup := by
  induction delivered generalizing set with
  | nil => exact h
  | cons o os ih =>
      rw [List.foldl_cons]
      apply ih
      cases o with
      | error e => exact h
      | ok us => exact nodup_foldl_setInsert h

/-- C7: whatever the four adapters return and in whatever order their goroutines hand over,
`FetchAll` returns a nil error and a list without repetitions whose members are exactly the
URLs of the adapters that succeeded. -/
theorem fetchAll_union (apis : Fin 4 → Outcome) (arrival : List (Fin 4))
    (harr : arrival.Perm (List.finRange 4)) :
    (FetchAllWith apis arrival).2 = none
      ∧ (FetchAllWith apis arrival).1.Nodup
      ∧ ∀ u, u ∈ (FetchAllWith apis arrival).1 ↔ ∃ i urls, apis i = .ok urls ∧ u ∈ urls := by
  refine ⟨rfl, ?_, ?_⟩
  · simp only [FetchAllWith, collectAll_eq]
    exact nodup_foldl_collectStep List.nodup_nil
  · intro u
    simp only [FetchAllWith, collectAll_eq, mem_foldl_collectStep, List.mem_map,
      List.not_mem_nil, false_or]
    constructor
    · rintro ⟨urls, ⟨i, _, hi⟩, hu⟩
      exact ⟨i, urls, hi, hu⟩
    · rintro ⟨i, urls, hi, hu⟩
      exact ⟨urls, ⟨i, (harr.mem_iff).2 (List.mem_finRange i), hi⟩, hu⟩

theorem fetchAll_union_witness :
    [2, 0, 3, 1].Perm (List.finRange 4)
      ∧ FetchAllWith exampleOutcomes [2, 0, 3, 1] = ([str "b", str "c", str "a"], none)
      ∧ (FetchAllWith (fun _ => .error (.errorsNew "down")) [2, 0, 3, 1]) = ([], none)
      ∧ ((FetchAllWith exampleOutcomes [2, 0, 3, 1]).2 = none
        ∧ (FetchAllWith exampleOutcomes [2, 0, 3, 1]).1.Nodup
        ∧ ∀ u, u ∈ (FetchAllWith exampleOutcomes [2, 0, 3, 1]).1 ↔
            ∃ i urls, exampleOutcomes i = .ok urls ∧ u ∈ urls) :=
  ⟨by decide, rfl, rfl, fetchAll_union exampleOutcomes [2, 0, 3, 1] (by decide)⟩

/-! ## The adapters -/

/-- C8, for `FetchWayback` and `FetchVirusTotal`: on the status 429 each returns the error
built by the same `fmt.Errorf` call as on any other status that is not 200 (shown next to it
for 503), with the status code as its only variable part; neither has a branch for 429. -/
theorem rateLimit_not_distinguished (uni : GoString → GoString)
    (decode : GoString → Except String VirusTotalResponse) (domain : GoString)
    (cfg : Config) (body : GoString) :
    (FetchWayback uni (fun _ => .ok { StatusCode := 429, Body := body }) domain
          cfg).map Fetched.result
        = some (.error (.statusf "Wayback Machine returned status code %d" 429))
      ∧ (FetchWayback uni (fun _ => .ok { StatusCode := 503, Body := body }) domain
          cfg).map Fetched.result
        = some (.error (.statusf "Wayback Machine returned status code %d" 503))
      ∧ (FetchVirusTotal decode (fun _ => .ok { StatusCode := 429, Body := body }) domain
          { cfg with VirusTotalAPIKey := str "key" }).result
        = .error (.statusf "VirusTotal returned status code %d" 429)
      ∧ (FetchVirusTotal decode (fun _ => .ok { StatusCode := 503, Body := body }) domain
          { cfg with VirusTotalAPIKey := str "key" }).result
        = .error (.statusf "VirusTotal returned status code %d" 503) := by
  refine ⟨?_, ?_, ?_, ?_⟩ <;> rfl

/-- The other two adapters do have the branch: on 429 `FetchCommonCrawl` and
`FetchAlienVault` return an `errors.New` value that names the rate limit. -/
theorem rateLimit_distinguished (uni : GoString → GoString)
    (decCC : GoString → Except String CommonCrawlEntry)
    (decAV : GoString → Except String AlienVaultResponse) (domain : GoString)
    (cfg : Config) (body : GoString) :
    (FetchCommonCrawl uni decCC (fun _ => .ok { StatusCode := 429, Body := body }) domain
          cfg).result
        = .error (.errorsNew "Common Crawl rate limit reached (429)")
      ∧ (FetchAlienVault uni decAV (fun _ => .ok { StatusCode := 429, Body := body }) domain
          { cfg with AlienVaultAPIKey := str "key" }).result
        = .error (.errorsNew "Alien Vault rate limit reached (429)") := by
  refine ⟨?_, ?_⟩ <;> rfl

/-- C9: with an empty `VirusTotalAPIKey`, `FetchVirusTotal` calls `GetWithRandomUA` for no
URL and returns an empty list and a nil error; likewise `FetchAlienVault` with an empty
`AlienVaultAPIKey`. -/
theorem fetch_skips_without_key (uni : GoString → GoString)
    (decVT : GoString → Except String VirusTotalResponse)
    (decAV : GoString → Except String AlienVaultResponse) (net : Network)
    (domain : GoString) (cfg : Config) :
    (cfg.VirusTotalAPIKey = [] →
        (FetchVirusTotal decVT net domain cfg).requests = []
          ∧ (FetchVirusTotal decVT net domain cfg).result = .ok [])
      ∧ (cfg.AlienVaultAPIKey = [] →
        (FetchAlienVault uni decAV net domain cfg).requests = []
          ∧ (FetchAlienVault uni decAV net domain cfg).result = .ok []) := by
  constructor
  · intro h
    simp [FetchVirusTotal, h]
  · intro h
    simp [FetchAlienVault, h]

theorem fetch_skips_without_key_witness :
    (noKeys.VirusTotalAPIKey = [] ∧ noKeys.AlienVaultAPIKey = [])
      ∧ ((FetchVirusTotal (fun _ => .error "no JSON") (fun _ => .error "no network")
            (str "x.com") noKeys).requests = []
          ∧ (FetchVirusTotal (fun _ => .error "no JSON") (fun _ => .error "no network")
            (str "x.com") noKeys).result = .ok [])
      ∧ ((FetchAlienVault id (fun _ => .error "no JSON") (fun _ => .error "no network")
            (str "x.com") noKeys).requests = []
          ∧ (FetchAlienVault id (fun _ => .error "no JSON") (fun _ => .error "no network")
            (str "x.com") noKeys).result = .ok []) :=
  ⟨⟨rfl, rfl⟩,
    (fetch_skips_without_key id (fun _ => .error "no JSON") (fun _ => .error "no JSON")
      (fun _ => .error "no network") (str "x.com") noKeys).1 rfl,
    (fetch_skips_without_key id (fun _ => .error "no JSON") (fun _ => .error "no JSON")
      (fun _ => .error "no network") (str "x.com") noKeys).2 rfl⟩

/-- The scenario of the specification: the Wayback line
`20230101000000 https://x.com/a?id=1%0Aextra 200 text/html abc123` yields the URL
`https://x.com/a?id=1`. -/
theorem fetchWayback_scenario (uni : GoString → GoString) (domain : GoString)
    (cfg : Config) :
    (FetchWayback uni
        (fun _ => .ok
          { StatusCode := 200
            Body := str "20230101000000 https://x.com/a?id=1%0Aextra 200 text/html abc123\n" })
        domain cfg).map Fetched.result = some (.ok [str "https://x.com/a?id=1"]) := by
  rfl

/-- C10, at the inputs `%0a?id=1` and `%0Aextra`: the first occurrence of `%0a` is at index
0, the test `idx > 0` fails and `fixArchiveOrgUrl` returns its argument as it is, with the
`%0a` still in it; cutting at the first occurrence would give the empty string. -/
theorem fixArchiveOrgUrl_leading (uni : GoString → GoString) :
    fixArchiveOrgUrl uni (str "%0a?id=1") = some (str "%0a?id=1")
      ∧ (fixArchiveOrgUrl uni (str "%0a?id=1")).map (fun r => Contains r (str "%0a"))
        = some true
      ∧ fixArchiveOrgUrl uni (str "%0Aextra") = some (str "%0Aextra")
      ∧ (fixArchiveOrgUrl uni (str "%0Aextra")).map (fun r => Contains r (str "%0A"))
        = some true
      ∧ fixArchiveOrgUrl uni (str "https://x.com/a?id=1%0Aextra")
        = some (str "https://x.com/a?id=1") := by
  refine ⟨?_, ?_, ?_, ?_, ?_⟩ <;> rfl

/-- The index found in the lower-cased copy is applied to the original: where
`strings.ToLower` changes the length in bytes of what precedes `%0a` (U+023A, two bytes, has
the three-byte lower case U+2C65), the cut falls elsewhere.  Here it falls after the `%0a`,
which stays in the result. -/
theorem fixArchiveOrgUrl_nonASCII (uni : GoString → GoString)
    (huni : uni (str "ȺȺȺ%0a") = str "ⱥⱥⱥ%0a") :
    fixArchiveOrgUrl uni (str "ȺȺȺ%0a") = some (str "ȺȺȺ%0a") := by
  have h1 : ToLower uni (str "ȺȺȺ%0a") = str "ⱥⱥⱥ%0a" := by
    rw [← huni]
    rfl
  unfold fixArchiveOrgUrl
  simp only [h1]
  rfl

/-- With one more such letter the index found in the lower-cased copy, 12, exceeds the
length of the original, 11: the slice expression panics. -/
theorem fixArchiveOrgUrl_panics (uni : GoString → GoString)
    (huni : uni (str "ȺȺȺȺ%0a") = str "ⱥⱥⱥⱥ%0a") :
    fixArchiveOrgUrl uni (str "ȺȺȺȺ%0a") = none := by
  have h1 : ToLower uni (str "ȺȺȺȺ%0a") = str "ⱥⱥⱥⱥ%0a" := by
    rw [← huni]
    rfl
  unfold fixArchiveOrgUrl
  simp only [h1]
  rfl

/-! ## Reading back what `String` writes -/

theorem str_hash : str "#" = [35] := by decide
theorem str_qm : str "?" = [63] := by decide
theorem str_slash : str "/" = [47] := by decide
theorem str_colon : str ":" = [58] := by decide
theorem str_at : str "@" = [64] := by decide
theorem str_slash2 : str "//" = [47, 47] := by decide
theorem str_slash3 : str "///" = [47, 47, 47] := by decide
theorem str_star : str "*" = [42] := by decide
theorem str_dotslash : str "./" = [46, 47] := by decide

theorem HasPrefix_iff {s pre : GoString} : HasPrefix s pre = true ↔ pre <+: s := by
  simp [HasPrefix]

theorem indexFrom_single (c : Byte) (s : GoString) (i : Nat) :
    indexFrom [c] s i =
      if c ∈ s then some (i + (s.takeWhile (fun x => x != c)).length) else none := by
  induction s generalizing i with
  | nil => simp [indexFrom]
  | cons x xs ih =>
      unfold indexFrom
      by_cases hx : x = c
      · subst hx
        simp [HasPrefix]
      · have h1 : HasPrefix (x :: xs) [c] = false := by
          simp [HasPrefix, hx]
          exact fun h => hx h.symm
        rw [h1]
        simp only [Bool.false_eq_true, if_false, ih, List.mem_cons]
        have h2 : ¬ c = x := fun h => hx h.symm
        simp only [h2, false_or]
        have h3 : (x != c) = true := by simpa using hx
        split
        · rw [List.takeWhile_cons, h3]
          simp only [if_true, List.length_cons]
          congr 1
          omega
        · rfl

theorem Index_single (c : Byte) (s : GoString) :
    Index s [c] = if c ∈ s then some (s.takeWhile (fun x => x != c)).length else none := by
  simp [Index, indexFrom_single]

theorem Contains_single (c : Byte) (s : GoString) : Contains s [c] = decide (c ∈ s) := by
  simp only [Contains, Index_single]
  split <;> simp [*]

theorem takeWhile_ne_of_not_mem {c : Byte} {s : GoString} (h : c ∉ s) :
    s.takeWhile (fun x => x != c) = s := by
  rw [List.takeWhile_eq_self_iff]
  intro x hx
  simp only [bne_iff_ne, ne_eq]
  rintro rfl
  exact h hx

theorem Cut_single_fst (c : Byte) (s : GoString) :
    (Cut s [c]).1 = s.takeWhile (fun x => x != c) := by
  simp only [Cut, Index_single]
  by_cases h : c ∈ s
  · simp only [h, if_true]
    rw [← List.takeWhile_append_dropWhile (fun x => x != c) s, List.take_left']
    · simp
    · simp
  · simp [h, takeWhile_ne_of_not_mem h]

theorem parse_eq (rawURL : GoString) :
    parse rawURL =
      if stringContainsCTLByte rawURL then .error "net/url: invalid control character in URL"
      else if rawURL = str "*" then .ok { Path := str "*" }
      else
        match getScheme rawURL with
        | .error e => .error e
        | .ok (scheme, rest0) => parseBody scheme rest0 := by
  unfold parse
  split
  · rfl
  · split
    · rfl
    · cases h : getScheme rawURL with
      | error e => rfl
      | ok p => rfl

theorem getSchemeLoop_append (raw Q : GoString) (hQ : Q = [] ∨ Q.head? = some 63) :
    ∀ (s pre : GoString), getSchemeLoop (raw ++ Q) (s ++ Q) pre =
      (getSchemeLoop raw s pre).map (fun p => (p.1, p.2 ++ Q)) := by
  intro s
  induction s with
  | nil =>
      intro pre
      rcases hQ with rfl | hQ
      · simp [getSchemeLoop, Except.map]
      · cases Q with
        | nil => simp at hQ
        | cons q qs =>
            simp only [List.head?_cons, Option.some.injEq] at hQ
            subst hQ
            simp only [List.nil_append, getSchemeLoop, Except.map]
            rfl
  | cons c s ih =>
      intro pre
      simp only [List.cons_append, getSchemeLoop]
      split
      · exact ih _
      · split
        · split
          · rfl
          · exact ih _
        · split
          · split <;> rfl
          · rfl

theorem getScheme_append (H Q : GoString) (hQ : Q = [] ∨ Q.head? = some 63) :
    getScheme (H ++ Q) = (getScheme H).map (fun p => (p.1, p.2 ++ Q)) :=
  getSchemeLoop_append H Q hQ H []

theorem getSchemeLoop_spec (raw : GoString) :
    ∀ (s pre sch rest : GoString), getSchemeLoop raw s pre = .ok (sch, rest) →
      (sch = [] ∧ rest = raw) ∨
      (∃ mid, s = mid ++ 58 :: rest ∧ sch = pre.reverse ++ mid ∧ sch ≠ [] ∧
        mid.all schemeChar = true ∧ (pre = [] → ∃ c cs, mid = c :: cs ∧ (isLower c || isUpper c) = true)) := by
  intro s
  induction s with
  | nil =>
      intro pre sch rest h
      simp only [getSchemeLoop, Except.ok.injEq, Prod.mk.injEq] at h
      exact Or.inl ⟨h.1.symm, h.2.symm⟩
  | cons c s ih =>
      intro pre sch rest h
      simp only [getSchemeLoop] at h
      split at h
      · rename_i hc
        rcases ih _ _ _ h with h1 | ⟨mid, h1, h2, h3, h4, h5⟩
        · exact Or.inl h1
        · refine Or.inr ⟨c :: mid, by simp [h1], by simp [h2], h3, ?_, ?_⟩
          · simp only [List.all_cons, h4, Bool.and_true]
            simp only [schemeChar]
            simp only [Bool.or_eq_true] at hc ⊢
            tauto
          · intro _
            exact ⟨c, mid, rfl, hc⟩
      · rename_i hc
        split at h
        · rename_i hd
          split at h
          · simp only [Except.ok.injEq, Prod.mk.injEq] at h
            exact Or.inl ⟨h.1.symm, h.2.symm⟩
          · rename_i hpre
            rcases ih _ _ _ h with h1 | ⟨mid, h1, h2, h3, h4, h5⟩
            · exact Or.inl h1
            · refine Or.inr ⟨c :: mid, by simp [h1], by simp [h2], h3, ?_, ?_⟩
              · simp only [List.all_cons, h4, Bool.and_true]
                simp only [schemeChar]
                simp only [Bool.or_eq_true] at hd ⊢
                tauto
              · intro h0
                exact absurd h0 hpre
        · split at h
          · split at h
            · simp at h
            · rename_i hcol hpre
              simp only [Except.ok.injEq, Prod.mk.injEq] at h
              refine Or.inr ⟨[], ?_, ?_, ?_, rfl, ?_⟩
              · simp only [beq_iff_eq] at hcol
                simp [hcol, h.2]
              · simp [h.1]
              · rw [← h.1]
                simpa using hpre
              · intro h0
                exact absurd h0 hpre
          · simp only [Except.ok.injEq, Prod.mk.injEq] at h
            exact Or.inl ⟨h.1.symm, h.2.symm⟩

theorem getScheme_spec (H sch rest : GoString) (h : getScheme H = .ok (sch, rest)) :
    (sch = [] ∧ rest = H) ∨ (H = sch ++ 58 :: rest ∧ validScheme sch = true) := by
  rcases getSchemeLoop_spec H H [] sch rest h with h1 | ⟨mid, h1, h2, h3, h4, h5⟩
  · exact Or.inl h1
  · right
    simp only [List.reverse_nil, List.nil_append] at h2
    subst h2
    refine ⟨h1, ?_⟩
    obtain ⟨c, cs, hm, hc⟩ := h5 rfl
    subst hm
    simp only [validScheme, hc, Bool.true_and]
    simp only [List.all_cons, Bool.and_eq_true] at h4
    exact h4.2

theorem getSchemeLoop_valid (raw r : GoString) :
    ∀ (mid pre : GoString), mid.all schemeChar = true →
      (pre = [] → ∃ c cs, mid = c :: cs ∧ (isLower c || isUpper c) = true) →
      (pre.reverse ++ mid ≠ []) →
      getSchemeLoop raw (mid ++ 58 :: r) pre = .ok (pre.reverse ++ mid, r) := by
  intro mid
  induction mid with
  | nil =>
      intro pre _ h2 h3
      have hpre : pre ≠ [] := by
        intro h
        obtain ⟨c, cs, hm, _⟩ := h2 h
        simp at hm
      simp only [List.nil_append, getSchemeLoop]
      have : (isLower (58 : Byte) || isUpper 58) = false := by decide
      rw [this]
      have : (isDigit (58 : Byte) || (58 : Byte) == 43 || (58 : Byte) == 45 || (58 : Byte) == 46) = false := by decide
      rw [this]
      simp [hpre]
  | cons c cs ih =>
      intro pre h1 h2 h3
      simp only [List.all_cons, Bool.and_eq_true] at h1
      simp only [List.cons_append, getSchemeLoop]
      have hrec : getSchemeLoop raw (cs ++ 58 :: r) (c :: pre) = .ok (pre.reverse ++ c :: cs, r) := by
        have := ih (c :: pre) h1.2 (by simp) (by simp)
        simpa using this
      split
      · exact hrec
      · rename_i hc
        split
        · split
          · rename_i hpre
            obtain ⟨c', cs', hm, hc'⟩ := h2 hpre
            simp only [List.cons.injEq] at hm
            rw [← hm.1] at hc'
            exact absurd hc' hc
          · exact hrec
        · rename_i hd
          exfalso
          have := h1.1
          simp only [schemeChar, Bool.or_eq_true] at this hc hd
          tauto

theorem getScheme_valid (sch r : GoString) (h : validScheme sch = true) :
    getScheme (sch ++ 58 :: r) = .ok (sch, r) := by
  cases sch with
  | nil => simp [validScheme] at h
  | cons c cs =>
      simp only [validScheme, Bool.and_eq_true] at h
      have := getSchemeLoop_valid (c :: cs ++ 58 :: r) r (c :: cs) []
        (by
          simp only [List.all_cons, Bool.and_eq_true]
          refine ⟨?_, h.2⟩
          simp only [schemeChar, Bool.or_eq_true]
          have := h.1
          simp only [Bool.or_eq_true] at this
          tauto)
        (fun _ => ⟨c, cs, rfl, h.1⟩) (by simp)
      simpa [getScheme] using this

theorem getSchemeLoop_noColon (raw : GoString) :
    ∀ (s pre : GoString), 58 ∉ s.takeWhile (fun x => x != 47) →
      getSchemeLoop raw s pre = .ok ([], raw) := by
  intro s
  induction s with
  | nil => intro pre _; rfl
  | cons c s ih =>
      intro pre h
      simp only [getSchemeLoop]
      by_cases hc : c = 47
      · subst hc
        have h1 : (isLower (47 : Byte) || isUpper 47) = false := by decide
        have h2 : (isDigit (47 : Byte) || (47 : Byte) == 43 || (47 : Byte) == 45 || (47 : Byte) == 46) = false := by decide
        have h3 : ((47 : Byte) == 58) = false := by decide
        simp only [h1, h2, h3, Bool.false_eq_true, if_false]
      · have hne : (c != 47) = true := by simpa using hc
        rw [List.takeWhile_cons, hne] at h
        simp only [if_true, List.mem_cons, not_or] at h
        have hrec := fun pre => ih pre h.2
        split
        · exact hrec _
        · split
          · split
            · rfl
            · exact hrec _
          · split
            · rename_i hcol
              simp only [beq_iff_eq] at hcol
              exact absurd hcol.symm h.1
            · rfl

theorem getScheme_noColon (s : GoString) (h : 58 ∉ s.takeWhile (fun x => x != 47)) :
    getScheme s = .ok ([], s) :=
  getSchemeLoop_noColon s s [] h

theorem rest_of_query (rest Q : GoString) (h63 : 63 ∉ rest) (hQ : Q = [] ∨ Q.head? = some 63) :
    (if (HasSuffix (rest ++ Q) (str "?") && CountByte (rest ++ Q) 63 == 1) = true
      then (rest ++ Q).take ((rest ++ Q).length - 1) else (Cut (rest ++ Q) (str "?")).1) = rest := by
  rw [str_qm]
  have htw : (rest ++ Q).takeWhile (fun x => x != 63) = rest := by
    rw [List.takeWhile_append]
    rw [takeWhile_ne_of_not_mem h63]
    simp only [if_true]
    rcases hQ with rfl | hQ
    · simp
    · cases Q with
      | nil => simp
      | cons q qs =>
          simp only [List.head?_cons, Option.some.injEq] at hQ
          subst hQ
          simp
  split
  · rename_i hf
    simp only [Bool.and_eq_true, beq_iff_eq, HasSuffix, decide_eq_true_eq, CountByte] at hf
    obtain ⟨hs, hc⟩ := hf
    rcases hQ with rfl | hQ
    · exfalso
      simp only [List.append_nil] at hs
      exact h63 (hs.subset (List.mem_singleton_self _))
    · cases Q with
      | nil => simp at hQ
      | cons q qs =>
          simp only [List.head?_cons, Option.some.injEq] at hQ
          subst hQ
          rw [List.count_append, List.count_cons_self, List.count_eq_zero_of_not_mem h63] at hc
          have hqs : 63 ∉ qs := by
            intro hm
            have := List.count_pos_iff.2 hm
            omega
          have : qs = [] := by
            by_contra hne
            obtain ⟨t, ht⟩ := hs
            rw [← List.dropLast_append_getLast hne] at ht
            have ht' : t ++ [63] = (rest ++ 63 :: qs.dropLast) ++ [qs.getLast hne] := by
              simpa using ht
            have := (List.append_inj' ht' rfl).2
            simp only [List.cons.injEq, and_true] at this
            exact hqs (this ▸ List.getLast_mem hne)
          subst this
          simp
  · rw [Cut_single_fst, htw]

theorem setPath_ok (u v : URL) (p : GoString) (h : setPath u p = .ok v) :
    PathFacts v p ∧ v.Scheme = u.Scheme ∧ v.Opaque = u.Opaque ∧ v.User = u.User ∧
      v.Host = u.Host ∧ v.OmitHost = u.OmitHost := by
  unfold setPath unescape at h
  by_cases hok : unescapeOk encodePath p = true
  · simp only [hok, if_true] at h
    by_cases he : p = escape (unescapeRaw encodePath p) encodePath
    · have h' : (Except.ok { u with Path := unescapeRaw encodePath p, RawPath := [] } : Except String URL) = .ok v := by
        rw [← h]
        simp only [bind, Except.bind, pure, Except.pure]
        rw [if_pos he]
      injection h' with h'
      subst h'
      exact ⟨⟨hok, rfl, Or.inr ⟨rfl, Or.inl he⟩⟩, rfl, rfl, rfl, rfl, rfl⟩
    · have h' : (Except.ok { u with Path := unescapeRaw encodePath p, RawPath := p } : Except String URL) = .ok v := by
        rw [← h]
        simp only [bind, Except.bind, pure, Except.pure]
        rw [if_neg he]
      injection h' with h'
      subst h'
      exact ⟨⟨hok, rfl, Or.inl rfl⟩, rfl, rfl, rfl, rfl, rfl⟩
  · simp only [hok] at h
    simp [bind, Except.bind] at h

theorem drop_index_single (c : Byte) (s : GoString) :
    (match Index s [c] with
      | some i => s.drop i
      | none => []) = s.dropWhile (fun x => x != c) := by
  rw [Index_single]
  by_cases h : c ∈ s
  · simp only [h, if_true]
    have := List.takeWhile_append_dropWhile (fun x => x != c) s
    generalize List.takeWhile (fun x => x != c) s = a at this ⊢
    generalize List.dropWhile (fun x => x != c) s = b at this ⊢
    subst this
    simp
  · simp only [h, if_false]
    symm
    rw [List.dropWhile_eq_nil_iff]
    intro x hx
    simp only [bne_iff_ne, ne_eq]
    rintro rfl
    exact h hx

theorem take_index_single (c : Byte) (s : GoString) :
    (match Index s [c] with
      | some i => s.take i
      | none => s) = s.takeWhile (fun x => x != c) := by
  rw [Index_single]
  by_cases h : c ∈ s
  · simp only [h, if_true]
    have := List.takeWhile_append_dropWhile (fun x => x != c) s
    generalize List.takeWhile (fun x => x != c) s = a at this ⊢
    generalize List.dropWhile (fun x => x != c) s = b at this ⊢
    subst this
    simp
  · simp only [h, if_false]
    exact (takeWhile_ne_of_not_mem h).symm

theorem parseBody_view (sch rest Q : GoString) (v : URL) (h63 : 63 ∉ rest)
    (hQ : Q = [] ∨ Q.head? = some 63) (hp : parseBody sch (rest ++ Q) = .ok v) :
    v.Scheme = sch.map lowerByte ∧
      (branchOf sch rest = .rootless →
        v.Opaque = rest ∧ v.Path = [] ∧ v.RawPath = [] ∧ v.Host = [] ∧ v.User = none) ∧
      (branchOf sch rest ≠ .rootless → v.Opaque = [] ∧ PathFacts v (pathTextOfRest sch rest)) ∧
      (branchOf sch rest ≠ .authority → v.Host = [] ∧ v.User = none) ∧
      (v.OmitHost = true ↔ branchOf sch rest = .omitHost) ∧
      (branchOf sch rest = .plain → HasPrefix rest [47] = false →
        58 ∉ rest.takeWhile (fun x => x != 47)) ∧
      (branchOf sch rest = .authority →
        parseAuthority ((rest.drop 2).takeWhile (fun x => x != 47)) = .ok (v.User, v.Host)) := by
  unfold parseBody at hp
  simp only [rest_of_query rest Q h63 hQ] at hp
  rw [str_slash, str_slash2, str_slash3, str_colon] at hp
  have hsch : (sch.map lowerByte ≠ []) ↔ sch ≠ [] := by simp
  by_cases h1 : (!HasPrefix rest [47] && decide (sch ≠ [])) = true
  · have hb : branchOf sch rest = .rootless := by simp only [branchOf, h1, if_true]
    have h1' : (!HasPrefix rest [47] && decide (sch.map lowerByte ≠ [])) = true := by
      simpa using h1
    rw [if_pos h1'] at hp
    injection hp with hp
    subst hp
    simp [hb]
  · have h1' : ¬ (!HasPrefix rest [47] && decide (sch.map lowerByte ≠ [])) = true := by
      simpa using h1
    rw [if_neg h1'] at hp
    split at hp
    · cases hp
    · rename_i hcolon
      by_cases h2 : ((decide (sch ≠ []) || !HasPrefix rest [47, 47, 47]) && HasPrefix rest [47, 47]) = true
      · have hb : branchOf sch rest = .authority := by
          simp only [branchOf, h1, h2, if_true, if_false]
          rfl
        have h2' : ((decide (sch.map lowerByte ≠ []) || !HasPrefix rest [47, 47, 47]) && HasPrefix rest [47, 47]) = true := by
          simpa using h2
        rw [if_pos h2'] at hp
        rw [drop_index_single, take_index_single] at hp
        cases hpa : parseAuthority ((List.drop 2 rest).takeWhile (fun x => x != 47)) with
        | error e => rw [hpa] at hp; cases hp
        | ok uh =>
            rw [hpa] at hp
            obtain ⟨hpf, hs, ho, hu, hh, hom⟩ := setPath_ok _ _ _ hp
            refine ⟨hs, ?_, ?_, ?_, ?_, ?_, ?_⟩
            · simp [hb]
            · intro _
              refine ⟨ho, ?_⟩
              simpa [pathTextOfRest, hb] using hpf
            · simp [hb]
            · simp [hb, hom]
            · simp [hb]
            · intro _
              rw [hu, hh]
      · have h2' : ¬ ((decide (sch.map lowerByte ≠ []) || !HasPrefix rest [47, 47, 47]) && HasPrefix rest [47, 47]) = true := by
          simpa using h2
        rw [if_neg h2'] at hp
        by_cases h3 : (decide (sch ≠ []) && HasPrefix rest [47]) = true
        · have hb : branchOf sch rest = .omitHost := by
            simp only [branchOf, h1, h2, h3, if_true, if_false]
            rfl
          have h3' : (decide (sch.map lowerByte ≠ []) && HasPrefix rest [47]) = true := by
            simpa using h3
          rw [if_pos h3'] at hp
          obtain ⟨hpf, hs, ho, hu, hh, hom⟩ := setPath_ok _ _ _ hp
          refine ⟨hs, ?_, ?_, ?_, ?_, ?_, ?_⟩
          · simp [hb]
          · intro _
            refine ⟨ho, ?_⟩
            simpa [pathTextOfRest, hb] using hpf
          · intro _
            exact ⟨hh, hu⟩
          · simp [hb, hom]
          · simp [hb]
          · simp [hb]
        · have hb : branchOf sch rest = .plain := by
            simp only [branchOf, h1, h2, h3, if_false]
            rfl
          have h3' : ¬ (decide (sch.map lowerByte ≠ []) && HasPrefix rest [47]) = true := by
            simpa using h3
          rw [if_neg h3'] at hp
          obtain ⟨hpf, hs, ho, hu, hh, hom⟩ := setPath_ok _ _ _ hp
          refine ⟨hs, ?_, ?_, ?_, ?_, ?_, ?_⟩
          · simp [hb]
          · intro _
            refine ⟨ho, ?_⟩
            simpa [pathTextOfRest, hb] using hpf
          · intro _
            exact ⟨hh, hu⟩
          · simp [hb, hom]
          · intro _ hpre
            rw [hpre, Cut_single_fst, Contains_single] at hcolon
            simpa using hcolon
          · simp [hb]

theorem setFragment_ok (u v : URL) (f : GoString) (h : setFragment u f = .ok v) :
    v.Scheme = u.Scheme ∧ v.Opaque = u.Opaque ∧ v.User = u.User ∧ v.Host = u.Host ∧
      v.OmitHost = u.OmitHost ∧ v.Path = u.Path ∧ v.RawPath = u.RawPath := by
  unfold setFragment unescape at h
  by_cases hok : unescapeOk encodeFragment f = true
  · simp only [hok, if_true] at h
    by_cases he : f = escape (unescapeRaw encodeFragment f) encodeFragment
    · have h' : (Except.ok { u with Fragment := unescapeRaw encodeFragment f, RawFragment := [] } : Except String URL) = .ok v := by
        rw [← h]
        simp only [bind, Except.bind, pure, Except.pure]
        rw [if_pos he]
      injection h' with h'
      subst h'
      exact ⟨rfl, rfl, rfl, rfl, rfl, rfl, rfl⟩
    · have h' : (Except.ok { u with Fragment := unescapeRaw encodeFragment f, RawFragment := f } : Except String URL) = .ok v := by
        rw [← h]
        simp only [bind, Except.bind, pure, Except.pure]
        rw [if_neg he]
      injection h' with h'
      subst h'
      exact ⟨rfl, rfl, rfl, rfl, rfl, rfl, rfl⟩
  · simp only [hok] at h
    simp [bind, Except.bind] at h

theorem parsedAs_congr {sch rest : GoString} {v v0 : URL} (h : ParsedAs sch rest v0)
    (hs : v.Scheme = v0.Scheme) (ho : v.Opaque = v0.Opaque) (hu : v.User = v0.User)
    (hh : v.Host = v0.Host) (hom : v.OmitHost = v0.OmitHost) (hp : v.Path = v0.Path)
    (hr : v.RawPath = v0.RawPath) : ParsedAs sch rest v := by
  unfold ParsedAs PathFacts at *
  rw [hs, ho, hu, hh, hom, hp, hr]
  exact h

theorem parsedAs_star : ParsedAs [] [42] { Path := str "*" } := by
  have hb : branchOf [] [42] = .plain := by decide
  refine ⟨rfl, ?_, ?_, ?_, ?_, ?_, ?_⟩
  · simp [hb]
  · intro _
    refine ⟨rfl, ?_, ?_, ?_⟩
    · decide
    · decide
    · right
      exact ⟨rfl, Or.inr (by decide)⟩
  · intro _
    exact ⟨rfl, rfl⟩
  · simp [hb]
  · intro _ _
    decide
  · simp [hb]

theorem parse_view (H Q : GoString) (v : URL) (h63 : 63 ∉ H)
    (hQ : Q = [] ∨ Q.head? = some 63) (hp : parse (H ++ Q) = .ok v) :
    ∃ sch rest, getScheme H = .ok (sch, rest) ∧ ParsedAs sch rest v := by
  rw [parse_eq] at hp
  split at hp
  · cases hp
  · split at hp
    · rename_i hstar
      rw [str_star] at hstar
      have hH : H = [42] ∧ Q = [] := by
        rcases hQ with rfl | hQ
        · simpa using hstar
        · cases Q with
          | nil => simp at hQ
          | cons q qs =>
              simp only [List.head?_cons, Option.some.injEq] at hQ
              subst hQ
              cases H with
              | nil => simp at hstar
              | cons a as =>
                  simp only [List.cons_append, List.cons.injEq, List.append_eq_nil, and_false] at hstar
                  exact absurd hstar.2 (by simp)
      injection hp with hp
      subst hp
      rw [hH.1]
      exact ⟨[], [42], rfl, parsedAs_star⟩
    · rw [getScheme_append H Q hQ] at hp
      cases hg : getScheme H with
      | error e => rw [hg] at hp; cases hp
      | ok p =>
          obtain ⟨sch, rest⟩ := p
          rw [hg] at hp
          simp only [Except.map] at hp
          have hrest : 63 ∉ rest := by
            rcases getScheme_spec H sch rest hg with ⟨_, h2⟩ | ⟨h1, _⟩
            · rw [h2]; exact h63
            · intro hm
              apply h63
              rw [h1]
              simp [hm]
          exact ⟨sch, rest, rfl, parseBody_view sch rest Q v hrest hQ hp⟩

theorem Parse_view (H T : GoString) (v : URL) (h63 : 63 ∉ H) (h35 : 35 ∉ H)
    (hT : T = [] ∨ T.head? = some 63 ∨ T.head? = some 35) (hp : Parse (H ++ T) = .ok v) :
    ∃ sch rest, getScheme H = .ok (sch, rest) ∧ ParsedAs sch rest v := by
  unfold Parse at hp
  rw [str_hash, Cut_single_fst] at hp
  have hcut : (H ++ T).takeWhile (fun x => x != 35) = H ++ T.takeWhile (fun x => x != 35) := by
    rw [List.takeWhile_append, takeWhile_ne_of_not_mem h35]
    simp
  rw [hcut] at hp
  have hQ : T.takeWhile (fun x => x != 35) = [] ∨
      (T.takeWhile (fun x => x != 35)).head? = some 63 := by
    rcases hT with rfl | hT | hT
    · left; rfl
    · cases T with
      | nil => simp at hT
      | cons t ts =>
          simp only [List.head?_cons, Option.some.injEq] at hT
          subst hT
          right
          rw [List.takeWhile_cons]
          simp
    · cases T with
      | nil => simp at hT
      | cons t ts =>
          simp only [List.head?_cons, Option.some.injEq] at hT
          subst hT
          left
          rw [List.takeWhile_cons]
          simp
  cases hp0 : parse (H ++ T.takeWhile (fun x => x != 35)) with
  | error e => rw [hp0] at hp; cases hp
  | ok v0 =>
      rw [hp0] at hp
      obtain ⟨sch, rest, hg, hpa⟩ := parse_view H _ v0 h63 hQ hp0
      refine ⟨sch, rest, hg, ?_⟩
      simp only [bind, Except.bind] at hp
      split at hp
      · injection hp with hp
        subst hp
        exact hpa
      · obtain ⟨h1, h2, h3, h4, h5, h6, h7⟩ := setFragment_ok _ _ _ hp
        exact parsedAs_congr hpa h1 h2 h3 h4 h5 h6 h7

theorem String_eq (u : URL) : u.String = u.head ++ u.tail := by
  unfold URL.String URL.head URL.tail
  dsimp only
  by_cases hq : u.ForceQuery = true ∨ u.RawQuery ≠ []
  · by_cases hf : u.Fragment ≠ []
    · rw [if_pos hq, if_pos hf, if_pos hq, if_pos hf]
      simp only [List.append_assoc]
    · rw [if_pos hq, if_neg hf, if_pos hq, if_neg hf]
      simp only [List.append_assoc, List.append_nil]
  · by_cases hf : u.Fragment ≠ []
    · rw [if_neg hq, if_pos hf, if_neg hq, if_pos hf]
      simp only [List.append_assoc, List.nil_append]
    · rw [if_neg hq, if_neg hf, if_neg hq, if_neg hf]
      simp only [List.append_nil]

theorem tail_head (u : URL) :
    u.tail = [] ∨ u.tail.head? = some 63 ∨ u.tail.head? = some 35 := by
  unfold URL.tail
  rw [str_qm, str_hash]
  split
  · right; left; rfl
  · split
    · right; right; rfl
    · left; rfl

theorem escape_eq (s : GoString) (mode : Encoding) : escape s mode = s.flatMap (escapeByte mode) :=
  rfl

theorem validEncoded_eq (s : GoString) (mode : Encoding) :
    validEncoded s mode = s.all (validByte mode) := rfl

set_option maxRecDepth 100000 in
theorem escapeByte_host_no_delim :
    ∀ c : Byte, 47 ∉ escapeByte encodeHost c ∧ 63 ∉ escapeByte encodeHost c ∧
      35 ∉ escapeByte encodeHost c ∧ 64 ∉ escapeByte encodeHost c := by
  decide

set_option maxRecDepth 100000 in
theorem escapeByte_user_no_delim :
    ∀ c : Byte, 47 ∉ escapeByte encodeUserPassword c ∧ 63 ∉ escapeByte encodeUserPassword c ∧
      35 ∉ escapeByte encodeUserPassword c ∧ 64 ∉ escapeByte encodeUserPassword c ∧
      58 ∉ escapeByte encodeUserPassword c := by
  decide

set_option maxRecDepth 100000 in
theorem escapeByte_path_valid :
    ∀ c : Byte, (escapeByte encodePath c).all (validByte encodePath) = true := by
  decide

theorem validByte_path_delim :
    validByte encodePath 63 = false ∧ validByte encodePath 35 = false := by
  decide

theorem mem_escape {x : Byte} {s : GoString} {mode : Encoding} :
    x ∈ escape s mode ↔ ∃ c ∈ s, x ∈ escapeByte mode c := by
  rw [escape_eq, List.mem_flatMap]

theorem escape_host_no_delim (s : GoString) :
    47 ∉ escape s encodeHost ∧ 63 ∉ escape s encodeHost ∧ 35 ∉ escape s encodeHost := by
  refine ⟨?_, ?_, ?_⟩ <;>
  · rw [mem_escape]
    rintro ⟨c, _, hc⟩
    have := escapeByte_host_no_delim c
    tauto

theorem escape_user_no_delim (s : GoString) :
    47 ∉ escape s encodeUserPassword ∧ 63 ∉ escape s encodeUserPassword ∧
      35 ∉ escape s encodeUserPassword := by
  refine ⟨?_, ?_, ?_⟩ <;>
  · rw [mem_escape]
    rintro ⟨c, _, hc⟩
    have := escapeByte_user_no_delim c
    tauto

theorem escapeByte_ne_nil (mode : Encoding) (c : Byte) : escapeByte mode c ≠ [] := by
  unfold escapeByte
  split
  · simp
  · split <;> simp

theorem escape_ne_nil {s : GoString} (mode : Encoding) (h : s ≠ []) : escape s mode ≠ [] := by
  cases s with
  | nil => exact absurd rfl h
  | cons c cs =>
      rw [escape_eq, List.flatMap_cons]
      intro h'
      exact escapeByte_ne_nil mode c (List.append_eq_nil.1 h').1

theorem escape_nil (mode : Encoding) : escape [] mode = [] := rfl

theorem validEncoded_escape_path (s : GoString) :
    validEncoded (escape s encodePath) encodePath = true := by
  rw [validEncoded_eq, List.all_eq_true]
  intro x hx
  obtain ⟨c, _, hc⟩ := mem_escape.1 hx
  exact List.all_eq_true.1 (escapeByte_path_valid c) x hc

theorem validEncoded_no_delim {s : GoString} (h : validEncoded s encodePath = true) :
    63 ∉ s ∧ 35 ∉ s := by
  rw [validEncoded_eq, List.all_eq_true] at h
  constructor
  · intro hm
    have := h _ hm
    rw [validByte_path_delim.1] at this
    cases this
  · intro hm
    have := h _ hm
    rw [validByte_path_delim.2] at this
    cases this

theorem validEncoded_EscapedPath (u : URL) : validEncoded u.EscapedPath encodePath = true := by
  unfold URL.EscapedPath
  split
  · rename_i h
    exact h.2.1
  · split
    · decide
    · exact validEncoded_escape_path _

theorem EscapedPath_no_delim (u : URL) : 63 ∉ u.EscapedPath ∧ 35 ∉ u.EscapedPath :=
  validEncoded_no_delim (validEncoded_EscapedPath u)

theorem unescapeRaw_eq_nil {mode : Encoding} {s : GoString} (h : unescapeRaw mode s = []) :
    s = [] := by
  cases s with
  | nil => rfl
  | cons c cs =>
      exfalso
      unfold unescapeRaw at h
      split at h <;> simp_all

theorem EscapedPath_nil_of_Path_nil {u : URL} (h : u.Path = []) : u.EscapedPath = [] := by
  unfold URL.EscapedPath
  split
  · rename_i hc
    exfalso
    rw [h] at hc
    exact hc.1 (unescapeRaw_eq_nil hc.2.2.2)
  · rw [h]
    rfl

theorem authText_no_slash (u : URL) : 47 ∉ u.authText ∧ 63 ∉ u.authText ∧ 35 ∉ u.authText := by
  unfold URL.authText
  rw [str_at]
  have hh := escape_host_no_delim u.Host
  have key : ∀ x : Byte, x ≠ 64 → x ≠ 58 → (∀ s, x ∉ escape s encodeUserPassword) →
      (x ∉ escape u.Host encodeHost) →
      x ∉ (match u.User with
        | some ui => ui.String ++ [64]
        | none => []) ++ (if u.Host ≠ [] then escape u.Host encodeHost else []) := by
    intro x h64 h58 hu hho
    rw [List.mem_append]
    rintro (hm | hm)
    · cases hU : u.User with
      | none => rw [hU] at hm; simp at hm
      | some ui =>
          rw [hU] at hm
          simp only [List.mem_append, List.mem_singleton] at hm
          rcases hm with hm | hm
          · unfold Userinfo.String at hm
            rw [List.mem_append] at hm
            rcases hm with hm | hm
            · exact hu _ hm
            · split at hm
              · rw [str_colon] at hm
                simp only [List.singleton_append, List.mem_cons] at hm
                rcases hm with hm | hm
                · exact h58 hm
                · exact hu _ hm
              · simp at hm
          · exact h64 hm
    · split at hm
      · exact hho hm
      · simp at hm
  exact ⟨key 47 (by decide) (by decide) (fun s => (escape_user_no_delim s).1) hh.1,
    key 63 (by decide) (by decide) (fun s => (escape_user_no_delim s).2.1) hh.2.1,
    key 35 (by decide) (by decide) (fun s => (escape_user_no_delim s).2.2) hh.2.2⟩

theorem authText_ne_nil {u : URL} (h : ¬ (u.Host = [] ∧ u.User = none)) : u.authText ≠ [] := by
  unfold URL.authText
  intro hnil
  rw [List.append_eq_nil] at hnil
  obtain ⟨h1, h2⟩ := hnil
  apply h
  constructor
  · by_contra hH
    rw [if_pos hH] at h2
    exact escape_ne_nil _ hH h2
  · cases hU : u.User with
    | none => rfl
    | some ui =>
        rw [hU, str_at] at h1
        simp at h1

theorem dropWhile_append_slash {A E : GoString} (hA : 47 ∉ A)
    (hE : E = [] ∨ E.head? = some 47) : (A ++ E).dropWhile (fun x => x != 47) = E := by
  induction A with
  | nil =>
      rcases hE with rfl | hE
      · rfl
      · cases E with
        | nil => rfl
        | cons e es =>
            simp only [List.head?_cons, Option.some.injEq] at hE
            subst hE
            simp [List.dropWhile_cons]
  | cons a as ih =>
      simp only [List.mem_cons, not_or] at hA
      rw [List.cons_append, List.dropWhile_cons]
      have : (a != 47) = true := by
        simp only [bne_iff_ne, ne_eq]
        exact fun h => hA.1 h.symm
      rw [this]
      exact ih hA.2

theorem head_rootless {w : URL} (ho : w.Opaque ≠ []) (hs : w.Scheme ≠ []) :
    w.head = w.Scheme ++ 58 :: w.Opaque := by
  unfold URL.head
  simp only [ho, hs, ne_eq, not_false_eq_true, if_true, str_colon]
  simp

theorem head_plain {w : URL} (ho : w.Opaque = []) (hs : w.Scheme = []) (hh : w.Host = [])
    (hu : w.User = none) :
    w.head = (if Contains (Cut w.EscapedPath [47]).1 [58] = true then [46, 47] else [])
      ++ w.EscapedPath := by
  unfold URL.head
  simp only [ho, hs, hh, hu, ne_eq, not_true_eq_false, if_false, or_self, and_false,
    str_slash, str_colon, str_dotslash, true_and, List.nil_append]

theorem slash_cond_false {w : URL} (hE : w.EscapedPath = [] ∨ w.EscapedPath.head? = some 47) :
    ¬ (w.EscapedPath ≠ [] ∧ w.EscapedPath.head? ≠ some 47 ∧ w.Host ≠ []) := by
  rintro ⟨h1, h2, _⟩
  rcases hE with h | h
  · exact h1 h
  · exact h2 h

theorem head_auth_noscheme {w : URL} (ho : w.Opaque = []) (hs : w.Scheme = [])
    (hhu : ¬ (w.Host = [] ∧ w.User = none))
    (hE : w.EscapedPath = [] ∨ w.EscapedPath.head? = some 47) :
    w.head = 47 :: 47 :: (w.authText ++ w.EscapedPath) := by
  have h1 : w.Host ≠ [] ∨ w.User ≠ none := by
    by_contra hc
    push_neg at hc
    exact hhu hc
  have h2 : w.Scheme ≠ [] ∨ w.Host ≠ [] ∨ w.User ≠ none := Or.inr h1
  have h3 : ¬ (w.OmitHost = true ∧ w.Host = [] ∧ w.User = none) := fun h => hhu h.2
  have h4 : w.Host ≠ [] ∨ w.Path ≠ [] ∨ w.User ≠ none := by tauto
  unfold URL.head URL.authText
  simp only [ho, ne_eq, not_true_eq_false, if_false]
  rw [if_pos h2, if_neg h3, if_pos h4, if_neg (slash_cond_false hE)]
  simp only [hs, str_slash2, str_at, if_false, not_true_eq_false, List.nil_append,
    List.cons_append, ne_eq, List.append_assoc]
  rw [if_neg]
  · simp
  · simp

theorem head_omit {w : URL} (ho : w.Opaque = []) (hs : w.Scheme ≠ [])
    (hom : w.OmitHost = true ∧ w.Host = [] ∧ w.User = none) :
    w.head = w.Scheme ++ 58 :: w.EscapedPath := by
  have h2 : w.Scheme ≠ [] ∨ w.Host ≠ [] ∨ w.User ≠ none := Or.inl hs
  have h5 : ¬ (w.EscapedPath ≠ [] ∧ w.EscapedPath.head? ≠ some 47 ∧ w.Host ≠ []) :=
    fun h => h.2.2 hom.2.1
  unfold URL.head
  simp only [ho, ne_eq, not_true_eq_false, if_false]
  rw [if_pos h2, if_pos hom, if_neg h5, if_pos hs, str_colon]
  rw [if_neg]
  · simp
  · simp [hs]

theorem head_scheme_only {w : URL} (ho : w.Opaque = []) (hs : w.Scheme ≠ [])
    (hom : ¬ (w.OmitHost = true ∧ w.Host = [] ∧ w.User = none))
    (hh : w.Host = []) (hp : w.Path = []) (hu : w.User = none) :
    w.head = w.Scheme ++ [58] := by
  have h2 : w.Scheme ≠ [] ∨ w.Host ≠ [] ∨ w.User ≠ none := Or.inl hs
  have h4 : ¬ (w.Host ≠ [] ∨ w.Path ≠ [] ∨ w.User ≠ none) := by
    simp [hh, hp, hu]
  have hE := EscapedPath_nil_of_Path_nil hp
  unfold URL.head
  simp only [ho, ne_eq, not_true_eq_false, if_false]
  rw [if_pos h2, if_neg hom, if_neg h4, hE]
  simp only [hu, hh, hs, str_colon, ne_eq, not_true_eq_false, not_false_eq_true, if_true,
    if_false, List.append_nil, and_false, false_and]
  rw [if_neg]
  simp [hs]

theorem head_scheme_auth {w : URL} (ho : w.Opaque = []) (hs : w.Scheme ≠ [])
    (hom : ¬ (w.OmitHost = true ∧ w.Host = [] ∧ w.User = none))
    (h4 : w.Host ≠ [] ∨ w.Path ≠ [] ∨ w.User ≠ none)
    (hE : w.EscapedPath = [] ∨ w.EscapedPath.head? = some 47) :
    w.head = w.Scheme ++ 58 :: 47 :: 47 :: (w.authText ++ w.EscapedPath) := by
  have h2 : w.Scheme ≠ [] ∨ w.Host ≠ [] ∨ w.User ≠ none := Or.inl hs
  unfold URL.head URL.authText
  simp only [ho, ne_eq, not_true_eq_false, if_false]
  rw [if_pos h2, if_neg hom, if_pos h4, if_neg (slash_cond_false hE), if_pos hs, str_colon,
    str_slash2, str_at]
  rw [if_neg]
  · simp
  · simp [hs]

theorem not_mem_takeWhile_of_contains_false {E : GoString}
    (h : ¬ Contains (Cut E [47]).1 [58] = true) : 58 ∉ E.takeWhile (fun x => x != 47) := by
  rw [Cut_single_fst, Contains_single] at h
  simpa using h

theorem hasPrefix_head {E : GoString} : HasPrefix E [47] = true ↔ E.head? = some 47 := by
  cases E with
  | nil => simp [HasPrefix]
  | cons e es => simp [HasPrefix, eq_comm]

theorem branchOf_rootless {sch rest : GoString} (h1 : HasPrefix rest [47] = false)
    (h2 : sch ≠ []) : branchOf sch rest = .rootless := by
  simp [branchOf, h1, h2]

theorem head_fwd (w : URL) (hwf : w.WF) :
    ∃ rest, getScheme w.head = .ok (w.Scheme, rest) ∧
      ((branchOf w.Scheme rest = .rootless ∧ (w.Opaque = [] → w.EscapedPath = [])) ∨
        (branchOf w.Scheme rest ≠ .rootless ∧ w.Opaque = [] ∧
          (pathTextOfRest w.Scheme rest = w.EscapedPath ∨
            pathTextOfRest w.Scheme rest = [46, 47] ++ w.EscapedPath ∨
            (w.PathAsAuthority ∧
              pathTextOfRest w.Scheme rest
                = (w.EscapedPath.drop 2).dropWhile (fun x => x != 47))))) := by
  obtain ⟨hS, hO, hA⟩ := hwf
  by_cases ho : w.Opaque = []
  · by_cases hs : w.Scheme = []
    · by_cases hhu : w.Host = [] ∧ w.User = none
      · -- nothing written before the path
        rw [head_plain ho hs hhu.1 hhu.2, hs]
        by_cases hc : Contains (Cut w.EscapedPath [47]).1 [58] = true
        · rw [if_pos hc]
          refine ⟨[46, 47] ++ w.EscapedPath, ?_, Or.inr ⟨?_, ho, Or.inr (Or.inl ?_)⟩⟩
          · apply getScheme_noColon
            simp [List.takeWhile_cons]
          · simp [branchOf, HasPrefix]
          · simp [pathTextOfRest, branchOf, HasPrefix]
        · rw [if_neg hc, List.nil_append]
          refine ⟨w.EscapedPath, getScheme_noColon _ (not_mem_takeWhile_of_contains_false hc), ?_⟩
          by_cases ha : (!HasPrefix w.EscapedPath [47, 47, 47] && HasPrefix w.EscapedPath [47, 47]) = true
          · have hb : branchOf [] w.EscapedPath = .authority := by
              simp only [Bool.and_eq_true, Bool.not_eq_true'] at ha
              simp [branchOf, ha.1, ha.2]
            refine Or.inr ⟨by simp [hb], ho, Or.inr (Or.inr ⟨?_, ?_⟩)⟩
            · simp only [Bool.and_eq_true, Bool.not_eq_true'] at ha
              exact ⟨hhu.1, hhu.2, ha.2, fun _ => ha.1, fun h => absurd hs h⟩
            · simp [pathTextOfRest, hb]
          · have hb : branchOf [] w.EscapedPath = .plain := by
              simp only [Bool.and_eq_true, Bool.not_eq_true', not_and, Bool.not_eq_true] at ha
              unfold branchOf
              simp only [ne_eq, not_true_eq_false, decide_False, Bool.and_false,
                Bool.false_eq_true, if_false, Bool.false_or, Bool.false_and]
              rw [if_neg]
              simp only [Bool.and_eq_true, Bool.not_eq_true', not_and, Bool.not_eq_true]
              exact ha
            refine Or.inr ⟨by simp [hb], ho, Or.inl ?_⟩
            simp [pathTextOfRest, hb]
      · -- authority written, no scheme
        have hE := hA ho (by
          by_contra hc
          push_neg at hc
          exact hhu hc.2)
        rw [head_auth_noscheme ho hs hhu hE, hs]
        have hne := authText_ne_nil hhu
        have hns := (authText_no_slash w).1
        refine ⟨47 :: 47 :: (w.authText ++ w.EscapedPath), ?_, ?_⟩
        · apply getScheme_noColon
          simp [List.takeWhile_cons]
        · have h3 : HasPrefix (47 :: 47 :: (w.authText ++ w.EscapedPath)) [47, 47, 47] = false := by
            cases hat : w.authText with
            | nil => exact absurd hat hne
            | cons a as =>
                have : a ≠ 47 := by
                  rintro rfl
                  apply hns
                  rw [hat]
                  exact List.mem_cons_self _ _
                simp [HasPrefix, this, eq_comm]
          have hb : branchOf [] (47 :: 47 :: (w.authText ++ w.EscapedPath)) = .authority := by
            unfold branchOf
            rw [h3]
            simp [HasPrefix]
          refine Or.inr ⟨by simp [hb], ho, Or.inl ?_⟩
          simp only [pathTextOfRest, hb, List.drop_succ_cons, List.drop_zero]
          exact dropWhile_append_slash hns hE
    · -- a scheme is written
      have hvs : validScheme w.Scheme = true := hS.resolve_left hs
      have hE := hA ho (Or.inl hs)
      by_cases hom : w.OmitHost = true ∧ w.Host = [] ∧ w.User = none
      · rw [head_omit ho hs hom]
        refine ⟨w.EscapedPath, getScheme_valid _ _ hvs, ?_⟩
        by_cases hp : HasPrefix w.EscapedPath [47] = true
        · by_cases hp2 : HasPrefix w.EscapedPath [47, 47] = true
          · have hb : branchOf w.Scheme w.EscapedPath = .authority := by
              simp [branchOf, hp, hp2, hs]
            refine Or.inr ⟨by simp [hb], ho, Or.inr (Or.inr ⟨?_, ?_⟩)⟩
            · exact ⟨hom.2.1, hom.2.2, hp2, fun h => absurd h hs, fun _ => hom.1⟩
            · simp [pathTextOfRest, hb]
          · have hb : branchOf w.Scheme w.EscapedPath = .omitHost := by
              simp [branchOf, hp, hp2, hs]
            refine Or.inr ⟨by simp [hb], ho, Or.inl ?_⟩
            simp [pathTextOfRest, hb]
        · have hnil : w.EscapedPath = [] := by
            rcases hE with h | h
            · exact h
            · exact absurd (hasPrefix_head.2 h) hp
          refine Or.inl ⟨branchOf_rootless (by simpa using hp) hs, fun _ => hnil⟩
      · by_cases h4 : w.Host ≠ [] ∨ w.Path ≠ [] ∨ w.User ≠ none
        · rw [head_scheme_auth ho hs hom h4 hE]
          refine ⟨47 :: 47 :: (w.authText ++ w.EscapedPath), getScheme_valid _ _ hvs, ?_⟩
          have hb : branchOf w.Scheme (47 :: 47 :: (w.authText ++ w.EscapedPath)) = .authority := by
            simp [branchOf, HasPrefix, hs]
          refine Or.inr ⟨by simp [hb], ho, Or.inl ?_⟩
          simp only [pathTextOfRest, hb, List.drop_succ_cons, List.drop_zero]
          exact dropWhile_append_slash (authText_no_slash w).1 hE
        · push_neg at h4
          rw [head_scheme_only ho hs hom h4.1 h4.2.1 h4.2.2]
          refine ⟨[], getScheme_valid _ _ hvs, Or.inl ⟨branchOf_rootless (by decide) hs, fun _ => ?_⟩⟩
          exact EscapedPath_nil_of_Path_nil h4.2.1
  · obtain ⟨hs, hp, _, _⟩ := hO ho
    have hvs : validScheme w.Scheme = true := hS.resolve_left hs
    rw [head_rootless ho hs]
    exact ⟨w.Opaque, getScheme_valid _ _ hvs, Or.inl ⟨branchOf_rootless hp hs, fun h => absurd h ho⟩⟩

theorem branchOf_rootless_inv {sch rest : GoString} (h : branchOf sch rest = .rootless) :
    HasPrefix rest [47] = false ∧ sch ≠ [] := by
  unfold branchOf at h
  split at h
  · rename_i hc
    simpa using hc
  · split at h
    · cases h
    · split at h <;> cases h

theorem branchOf_authority_inv {sch rest : GoString} (h : branchOf sch rest = .authority) :
    HasPrefix rest [47, 47] = true ∧ (sch ≠ [] ∨ HasPrefix rest [47, 47, 47] = false) := by
  unfold branchOf at h
  split at h
  · cases h
  · split at h
    · rename_i hc
      simp only [Bool.and_eq_true, Bool.or_eq_true, decide_eq_true_eq, Bool.not_eq_true'] at hc
      exact ⟨hc.2, hc.1⟩
    · split at h <;> cases h

theorem hasPrefix_two_one {rest : GoString} (h : HasPrefix rest [47, 47] = true) :
    HasPrefix rest [47] = true := by
  rw [HasPrefix_iff] at h ⊢
  exact (List.prefix_append [47] [47]).trans h

theorem hasPrefix_three_two {rest : GoString} (h : HasPrefix rest [47, 47, 47] = true) :
    HasPrefix rest [47, 47] = true := by
  rw [HasPrefix_iff] at h ⊢
  exact (List.prefix_append [47, 47] [47]).trans h

theorem branchOf_omitHost_inv {sch rest : GoString} (h : branchOf sch rest = .omitHost) :
    sch ≠ [] ∧ HasPrefix rest [47] = true ∧ HasPrefix rest [47, 47] = false := by
  unfold branchOf at h
  split at h
  · cases h
  · split at h
    · cases h
    · rename_i h2
      split at h
      · rename_i hc
        simp only [Bool.and_eq_true, decide_eq_true_eq] at hc
        refine ⟨hc.1, hc.2, ?_⟩
        simp only [Bool.and_eq_true, Bool.or_eq_true, decide_eq_true_eq, Bool.not_eq_true',
          not_and, Bool.not_eq_true] at h2
        exact h2 (Or.inl hc.1)
      · cases h

theorem branchOf_plain_inv {sch rest : GoString} (h : branchOf sch rest = .plain) :
    sch = [] ∧ (HasPrefix rest [47, 47] = true → HasPrefix rest [47, 47, 47] = true) := by
  unfold branchOf at h
  split at h
  · cases h
  · rename_i h1
    split at h
    · cases h
    · rename_i h2
      split at h
      · cases h
      · rename_i h3
        simp only [Bool.and_eq_true, Bool.not_eq_true', decide_eq_true_eq, not_and,
          Bool.or_eq_true, Bool.not_eq_true] at h1 h2 h3
        by_cases hs : sch = []
        · refine ⟨hs, fun hp => ?_⟩
          by_contra hc
          have := h2 (Or.inr (by simpa using hc))
          rw [hp] at this
          cases this
        · exfalso
          by_cases hp : HasPrefix rest [47] = true
          · have := h3 hs
            rw [hp] at this
            cases this
          · exact hs (by
              by_contra hs'
              exact h1 (by simpa using hp) hs')

set_option maxRecDepth 100000 in
theorem lowerByte_class (c : Byte) :
    (isLower (lowerByte c) || isUpper (lowerByte c)) = (isLower c || isUpper c) ∧
      ((isLower (lowerByte c) || isUpper (lowerByte c) || isDigit (lowerByte c) ||
          lowerByte c == 43 || lowerByte c == 45 || lowerByte c == 46)
        = (isLower c || isUpper c || isDigit c || c == 43 || c == 45 || c == 46)) := by
  revert c
  decide

theorem validScheme_map_lower {s : GoString} (h : validScheme s = true) :
    validScheme (s.map lowerByte) = true := by
  cases s with
  | nil => simp [validScheme] at h
  | cons c cs =>
      simp only [validScheme, Bool.and_eq_true, List.all_eq_true] at h
      simp only [List.map_cons, validScheme, Bool.and_eq_true, List.all_eq_true, List.mem_map]
      refine ⟨?_, ?_⟩
      · rw [(lowerByte_class c).1]
        exact h.1
      · rintro x ⟨d, hd, rfl⟩
        rw [(lowerByte_class d).2]
        exact h.2 d hd

theorem schemeByte_no_delim (c : Byte)
    (h : (isLower c || isUpper c || isDigit c || c == 43 || c == 45 || c == 46) = true) :
    c ≠ 63 ∧ c ≠ 35 := by
  constructor <;>
  · rintro rfl
    revert h
    decide

theorem validScheme_no_delim {s : GoString} (h : validScheme s = true) : 63 ∉ s ∧ 35 ∉ s := by
  cases s with
  | nil => simp
  | cons c cs =>
      simp only [validScheme, Bool.and_eq_true, List.all_eq_true] at h
      have hc : c ≠ 63 ∧ c ≠ 35 := by
        apply schemeByte_no_delim
        have := h.1
        simp only [Bool.or_eq_true] at this ⊢
        tauto
      constructor
      · intro hm
        rcases List.mem_cons.1 hm with hm | hm
        · exact hc.1 hm.symm
        · exact (schemeByte_no_delim _ (h.2 _ hm)).1 rfl
      · intro hm
        rcases List.mem_cons.1 hm with hm | hm
        · exact hc.2 hm.symm
        · exact (schemeByte_no_delim _ (h.2 _ hm)).2 rfl

theorem extScan_append_slash (a b acc : GoString) :
    extScan (a ++ 47 :: b) acc = extScan a acc := by
  induction a generalizing acc with
  | nil => simp [extScan]
  | cons c cs ih =>
      simp only [List.cons_append, extScan]
      split
      · rfl
      · split
        · rfl
        · exact ih _

theorem Ext_dotslash (p : GoString) : Ext (46 :: 47 :: p) = Ext p := by
  unfold Ext
  have : (46 :: 47 :: p).reverse = p.reverse ++ 47 :: [46] := by simp
  rw [this, extScan_append_slash]

theorem head_no_delim (w : URL) (hwf : w.WF) : 63 ∉ w.head ∧ 35 ∉ w.head := by
  have hwf' := hwf
  obtain ⟨hS, hO, hA⟩ := hwf
  have hE := EscapedPath_no_delim w
  have hat := authText_no_slash w
  have key : ∀ x : Byte, x ≠ 58 → x ≠ 47 → x ≠ 46 → x ∉ w.EscapedPath → x ∉ w.authText →
      (w.Opaque ≠ [] → x ∉ w.Opaque) → (validScheme w.Scheme = true → x ∉ w.Scheme) →
      x ∉ w.head := by
    intro x h58 h47 h46 hxE hxA hxO hxS
    by_cases ho : w.Opaque = []
    · by_cases hs : w.Scheme = []
      · by_cases hhu : w.Host = [] ∧ w.User = none
        · rw [head_plain ho hs hhu.1 hhu.2]
          split <;> simp [hxE, h46, h47]
        · have hEs := hA ho (by
            by_contra hc
            push_neg at hc
            exact hhu hc.2)
          rw [head_auth_noscheme ho hs hhu hEs]
          simp [hxE, hxA, h47]
      · have hvs : validScheme w.Scheme = true := hS.resolve_left hs
        have hEs := hA ho (Or.inl hs)
        by_cases hom : w.OmitHost = true ∧ w.Host = [] ∧ w.User = none
        · rw [head_omit ho hs hom]
          simp [hxE, hxS hvs, h58]
        · by_cases h4 : w.Host ≠ [] ∨ w.Path ≠ [] ∨ w.User ≠ none
          · rw [head_scheme_auth ho hs hom h4 hEs]
            simp [hxE, hxA, hxS hvs, h58, h47]
          · push_neg at h4
            rw [head_scheme_only ho hs hom h4.1 h4.2.1 h4.2.2]
            simp [hxS hvs, h58]
    · obtain ⟨hs, _, _, _⟩ := hO ho
      have hvs : validScheme w.Scheme = true := hS.resolve_left hs
      rw [head_rootless ho hs]
      simp [hxS hvs, hxO ho, h58]
  exact ⟨key 63 (by decide) (by decide) (by decide) hE.1 hat.2.1 (fun h => (hO h).2.2.1)
      (fun h => (validScheme_no_delim h).1),
    key 35 (by decide) (by decide) (by decide) hE.2 hat.2.2 (fun h => (hO h).2.2.2)
      (fun h => (validScheme_no_delim h).2)⟩

theorem escape_path_slash (s : GoString) :
    escape (47 :: s) encodePath = 47 :: escape s encodePath := by
  rw [escape_eq, List.flatMap_cons]
  rfl

theorem unescapeRaw_slash (mode : Encoding) (s : GoString) :
    unescapeRaw mode (47 :: s) = 47 :: unescapeRaw mode s := by
  rw [unescapeRaw]
  · simp
  · intro a b s' h
    cases h

theorem unescapeRaw_dot (mode : Encoding) (s : GoString) :
    unescapeRaw mode (46 :: s) = 46 :: unescapeRaw mode s := by
  rw [unescapeRaw]
  · simp
  · intro a b s' h
    cases h

/-- The escaped path begins like the text given to `setPath`, when that is empty or begins
with a slash. -/
theorem EscapedPath_shape {v : URL} {P : GoString} (hpf : PathFacts v P)
    (hP : P = [] ∨ P.head? = some 47) :
    v.EscapedPath = [] ∨ v.EscapedPath.head? = some 47 := by
  obtain ⟨_, hpath, hraw⟩ := hpf
  rcases hP with rfl | hP
  · left
    exact EscapedPath_nil_of_Path_nil (by rw [hpath]; rfl)
  · cases P with
    | nil => simp at hP
    | cons c cs =>
        simp only [List.head?_cons, Option.some.injEq] at hP
        subst hP
        rw [unescapeRaw_slash] at hpath
        right
        unfold URL.EscapedPath
        split
        next hc =>
          rcases hraw with h | ⟨h, _⟩
          · rw [h]; rfl
          · exact absurd h hc.1
        · split
          · rename_i hstar
            rw [hpath, str_star] at hstar
            cases hstar
          · rw [hpath, escape_path_slash]
            rfl

/-- The escaped path is the text given to `setPath`, when that text is validly encoded. -/
theorem EscapedPath_exact {v : URL} {P : GoString} (hpf : PathFacts v P)
    (hv : validEncoded P encodePath = true) :
    (v.EscapedPath = P ∧ unescapeRaw encodePath P = v.Path) ∨
      (v.EscapedPath = [42] ∧ v.Path = [42]) := by
  obtain ⟨hok, hpath, hraw⟩ := hpf
  rcases hraw with h | ⟨h, h2⟩
  · left
    refine ⟨?_, hpath.symm⟩
    by_cases hP : P = []
    · subst hP
      exact EscapedPath_nil_of_Path_nil (by rw [hpath]; rfl)
    · unfold URL.EscapedPath
      rw [if_pos]
      · exact h
      · rw [h]
        exact ⟨hP, hv, hok, hpath.symm⟩
  · by_cases hstar : v.Path = [42]
    · right
      refine ⟨?_, hstar⟩
      unfold URL.EscapedPath
      rw [if_neg (by simp [h]), if_pos (by rw [hstar]; rfl)]
      rfl
    · rcases h2 with h2 | h2
      · left
        refine ⟨?_, hpath.symm⟩
        unfold URL.EscapedPath
        rw [if_neg (by simp [h]), if_neg (by rw [str_star]; exact hstar)]
        exact h2.symm
      · exact absurd h2 hstar

theorem unescapeRaw_EscapedPath {v : URL} {P : GoString} (hpf : PathFacts v P)
    (hv : validEncoded P encodePath = true) :
    unescapeRaw encodePath v.EscapedPath = v.Path := by
  rcases EscapedPath_exact hpf hv with ⟨h1, h2⟩ | ⟨h1, h2⟩
  · rw [h1, h2]
  · rw [h1, h2]
    rfl

theorem dropWhile_shape (s : GoString) :
    s.dropWhile (fun x => x != 47) = [] ∨ (s.dropWhile (fun x => x != 47)).head? = some 47 := by
  induction s with
  | nil => left; rfl
  | cons c cs ih =>
      rw [List.dropWhile_cons]
      by_cases hc : c = 47
      · subst hc
        right
        simp
      · have : (c != 47) = true := by simpa using hc
        rw [this]
        exact ih

theorem WF_of_ParsedAs {H sch rest : GoString} {v : URL} (h63 : 63 ∉ H) (h35 : 35 ∉ H)
    (hg : getScheme H = .ok (sch, rest)) (hpa : ParsedAs sch rest v) : v.WF := by
  obtain ⟨hsch, hop, hnop, hnauth, hom, hpl, hau⟩ := hpa
  have hspec := getScheme_spec H sch rest hg
  have hrest : 63 ∉ rest ∧ 35 ∉ rest := by
    rcases hspec with ⟨_, h2⟩ | ⟨h1, _⟩
    · rw [h2]; exact ⟨h63, h35⟩
    · rw [h1] at h63 h35
      simp only [List.mem_append, List.mem_cons, not_or] at h63 h35
      exact ⟨h63.2.2, h35.2.2⟩
  refine ⟨?_, ?_, ?_⟩
  · rw [hsch]
    rcases hspec with ⟨h1, _⟩ | ⟨_, h2⟩
    · left; rw [h1]; rfl
    · right; exact validScheme_map_lower h2
  · intro ho
    have hb : branchOf sch rest = .rootless := by
      by_contra hb
      exact ho (hnop hb).1
    obtain ⟨h1, h2⟩ := branchOf_rootless_inv hb
    have hO := (hop hb).1
    rw [hsch, hO]
    exact ⟨by simpa using h2, h1, hrest.1, hrest.2⟩
  · intro ho hpre
    cases hb : branchOf sch rest with
    | rootless => exact Or.inl (EscapedPath_nil_of_Path_nil (hop hb).2.1)
    | authority =>
        have hpf := (hnop (by rw [hb]; simp)).2
        apply EscapedPath_shape hpf
        simp only [pathTextOfRest, hb]
        exact dropWhile_shape _
    | omitHost =>
        have hpf := (hnop (by rw [hb]; simp)).2
        apply EscapedPath_shape hpf
        simp only [pathTextOfRest, hb]
        right
        exact hasPrefix_head.1 (branchOf_omitHost_inv hb).2.1
    | plain =>
        exfalso
        have h1 := (branchOf_plain_inv hb).1
        have h2 := hnauth (by rw [hb]; simp)
        rw [hsch, h1, h2.1, h2.2] at hpre
        simp at hpre

theorem unescape_ok {s r : GoString} {m : Encoding} (h : unescape s m = .ok r) :
    r = unescapeRaw m s := by
  unfold unescape at h
  split at h
  · injection h with h
    exact h.symm
  · cases h

theorem unescape_ok_nil {s : GoString} {m : Encoding} (h : unescape s m = .ok []) : s = [] :=
  unescapeRaw_eq_nil (unescape_ok h).symm

theorem parseHost_nil {a : GoString} (h : parseHost a = .ok []) : a = [] := by
  unfold parseHost at h
  split at h
  · split at h
    · cases h
    · rename_i i _
      split at h
      · cases h
      · split at h
        · rename_i zone _
          cases h1 : unescape (List.take zone a) encodeHost with
          | error e => rw [h1] at h; cases h
          | ok r1 =>
            cases h2 : unescape (List.drop zone (List.take i a)) encodeZone with
            | error e => rw [h1, h2] at h; cases h
            | ok r2 =>
              cases h3 : unescape (List.drop i a) encodeHost with
              | error e => rw [h1, h2, h3] at h; cases h
              | ok r3 =>
                rw [h1, h2, h3] at h
                simp only [bind, Except.bind, pure, Except.pure, Except.ok.injEq,
                  List.append_eq_nil] at h
                obtain ⟨⟨e1, e2⟩, e3⟩ := h
                subst e1 e2 e3
                have l1 := congrArg List.length (unescape_ok_nil h1)
                have l2 := congrArg List.length (unescape_ok_nil h2)
                have l3 := congrArg List.length (unescape_ok_nil h3)
                simp only [List.length_take, List.length_drop, List.length_nil] at l1 l2 l3
                apply List.eq_nil_of_length_eq_zero
                omega
        · exact unescape_ok_nil h
  · split at h
    · split at h
      · cases h
      · exact unescape_ok_nil h
    · exact unescape_ok_nil h

theorem parseAuthority_nil {a : GoString} {host : GoString}
    (h : parseAuthority a = .ok (none, host)) (hh : host = []) : a = [] := by
  subst hh
  unfold parseAuthority at h
  split at h
  · cases hp : parseHost a with
    | error e => rw [hp] at h; cases h
    | ok r =>
        rw [hp] at h
        simp only [bind, Except.bind, pure, Except.pure, Except.ok.injEq, Prod.mk.injEq,
          true_and] at h
        subst h
        exact parseHost_nil hp
  · rename_i i _
    exfalso
    cases hp : parseHost (List.drop (i + 1) a) with
    | error e => rw [hp] at h; cases h
    | ok r =>
        rw [hp] at h
        simp only [bind, Except.bind] at h
        split at h
        · cases h
        · split at h
          · cases h1 : unescape (List.take i a) encodeUserPassword with
            | error e => rw [h1] at h; cases h
            | ok r1 =>
                rw [h1] at h
                simp [pure, Except.pure] at h
          · cases h1 : unescape (Cut (List.take i a) (str ":")).1 encodeUserPassword with
            | error e => rw [h1] at h; cases h
            | ok r1 =>
              cases h2 : unescape (Cut (List.take i a) (str ":")).2.1 encodeUserPassword with
              | error e => rw [h1, h2] at h; cases h
              | ok r2 =>
                  rw [h1, h2] at h
                  simp [pure, Except.pure] at h

theorem split_delim (raw : GoString) :
    ∃ H T, raw = H ++ T ∧ 63 ∉ H ∧ 35 ∉ H ∧
      (T = [] ∨ T.head? = some 63 ∨ T.head? = some 35) := by
  refine ⟨raw.takeWhile (fun x => x != 63 && x != 35),
    raw.dropWhile (fun x => x != 63 && x != 35),
    (List.takeWhile_append_dropWhile _ _).symm, ?_, ?_, ?_⟩
  · intro h
    have := List.mem_takeWhile_imp h
    simp at this
  · intro h
    have := List.mem_takeWhile_imp h
    simp at this
  · cases hd : raw.dropWhile (fun x => x != 63 && x != 35) with
    | nil => left; rfl
    | cons t ts =>
        right
        have := List.head_dropWhile_not (fun x => x != 63 && x != 35) raw
          (by rw [hd]; simp)
        simp only [hd, List.head_cons, Bool.and_eq_true, bne_iff_ne, ne_eq, not_and,
          Decidable.not_not, Bool.not_eq_true, Bool.and_eq_false_imp] at this
        simp only [List.head?_cons, Option.some.injEq]
        by_cases h63 : t = 63
        · left; exact h63
        · right
          have := this (by simpa using h63)
          simpa using this

theorem Parse_WF {raw : GoString} {U : URL} (h : Parse raw = .ok U) : U.WF := by
  obtain ⟨H, T, hraw, h63, h35, hT⟩ := split_delim raw
  rw [hraw] at h
  obtain ⟨sch, rest, hg, hpa⟩ := Parse_view H T U h63 h35 hT h
  exact WF_of_ParsedAs h63 h35 hg hpa

theorem WF_setHost {U : URL} (h : U.WF) (hs : U.Scheme ≠ []) (host : GoString) :
    ({ U with Host := host } : URL).WF := by
  obtain ⟨h1, h2, h3⟩ := h
  refine ⟨h1, h2, fun ho _ => ?_⟩
  exact h3 ho (Or.inl hs)

theorem CleanURL_form {raw : GoString} {U0 : URL} (h : Parse raw = .ok U0) :
    ∃ Ux : URL, Ux.WF ∧ CleanURL raw = Ux.String := by
  have hwf := Parse_WF h
  unfold CleanURL
  rw [h]
  dsimp only
  split
  · rename_i hc
    refine ⟨_, WF_setHost hwf ?_ _, rfl⟩
    rcases hc with ⟨hc, _⟩ | ⟨hc, _⟩ <;>
    · rw [hc]
      decide
  · exact ⟨U0, hwf, rfl⟩

theorem validEncoded_append {a b : GoString} {m : Encoding} (ha : validEncoded a m = true)
    (hb : validEncoded b m = true) : validEncoded (a ++ b) m = true := by
  rw [validEncoded_eq] at *
  rw [List.all_append, ha, hb]
  rfl

theorem validEncoded_sublist {a b : GoString} {m : Encoding} (hab : a.Sublist b)
    (hb : validEncoded b m = true) : validEncoded a m = true := by
  rw [validEncoded_eq, List.all_eq_true] at *
  exact fun x hx => hb x (hab.subset hx)

theorem not_hasPrefix_star : HasPrefix [42] [47, 47] = false := by decide

theorem Normal_of_Parse_String {Ux u : URL} (hwf : Ux.WF) (hp : Parse Ux.String = .ok u) :
    u.Normal := by
  rw [String_eq] at hp
  obtain ⟨h63, h35⟩ := head_no_delim Ux hwf
  obtain ⟨sch, rest, hg, hpa⟩ := Parse_view _ _ u h63 h35 (tail_head Ux) hp
  have huwf := WF_of_ParsedAs h63 h35 hg hpa
  obtain ⟨rest', hg', halt⟩ := head_fwd Ux hwf
  rw [hg] at hg'
  injection hg' with hg'
  injection hg' with hs hr
  subst hr
  rw [← hs] at halt
  obtain ⟨hsch, hop, hnop, hnauth, hom, hpl, hau⟩ := hpa
  by_cases hb : branchOf sch rest = .rootless
  · obtain ⟨hO, hP, hR, hH, hU⟩ := hop hb
    have hE := EscapedPath_nil_of_Path_nil hP
    refine ⟨huwf, ?_, fun _ => hP, ?_⟩
    · rw [hE, hP]
      rfl
    · rintro ⟨_, _, h2, _⟩
      rw [hE] at h2
      revert h2
      decide
  · obtain ⟨hO, hpf⟩ := hnop hb
    have hv : validEncoded (pathTextOfRest sch rest) encodePath = true := by
      rcases halt with ⟨hb', _⟩ | ⟨_, _, h | h | ⟨_, h⟩⟩
      · exact absurd hb' hb
      · rw [h]
        exact validEncoded_EscapedPath Ux
      · rw [h]
        exact validEncoded_append (by decide) (validEncoded_EscapedPath Ux)
      · rw [h]
        exact validEncoded_sublist
          ((List.dropWhile_sublist _).trans (List.drop_sublist _ _))
          (validEncoded_EscapedPath Ux)
    have hex := EscapedPath_exact hpf hv
    refine ⟨huwf, unescapeRaw_EscapedPath hpf hv, fun h => absurd hO h, ?_⟩
    rintro ⟨hH, hU, h2, h3, h4⟩
    have hE : u.EscapedPath = pathTextOfRest sch rest := by
      rcases hex with ⟨h, _⟩ | ⟨h, _⟩
      · exact h
      · rw [h] at h2
        rw [not_hasPrefix_star] at h2
        cases h2
    rw [hE] at h2 h3
    cases hbr : branchOf sch rest with
    | rootless => exact hb hbr
    | authority =>
        have hnom : u.OmitHost ≠ true := by
          intro h
          rw [hom.1 h] at hbr
          cases hbr
        by_cases hs : u.Scheme = []
        · have hsch' : sch = [] := by
            rw [hsch] at hs
            simpa using hs
          have hauth := hau hbr
          rw [hU, hH] at hauth
          have hnil := parseAuthority_nil hauth rfl
          have hP : pathTextOfRest sch rest = rest.drop 2 := by
            simp only [pathTextOfRest, hbr]
            have := List.takeWhile_append_dropWhile (fun x => x != 47) (rest.drop 2)
            rw [hnil, List.nil_append] at this
            exact this
          obtain ⟨hp2, hp3⟩ := branchOf_authority_inv hbr
          have hp3' : HasPrefix rest [47, 47, 47] = false := hp3.resolve_left (by simp [hsch'])
          have hshape : pathTextOfRest sch rest = [] ∨ (pathTextOfRest sch rest).head? = some 47 := by
            simp only [pathTextOfRest, hbr]
            exact dropWhile_shape _
          rw [hP] at hshape h2
          rcases hshape with hn | hn
          · rw [hn] at h2
            revert h2
            decide
          · rw [HasPrefix_iff] at hp2
            obtain ⟨t, ht⟩ := hp2
            rw [← ht] at hn hp3'
            simp only [List.cons_append, List.nil_append, List.drop_succ_cons, List.drop_zero] at hn
            cases t with
            | nil => simp at hn
            | cons x xs =>
                simp only [List.head?_cons, Option.some.injEq] at hn
                subst hn
                simp [HasPrefix] at hp3'
        · exact hnom (h4 hs)
    | omitHost =>
        have := (branchOf_omitHost_inv hbr).2.2
        simp only [pathTextOfRest, hbr] at h2
        rw [this] at h2
        cases h2
    | plain =>
        obtain ⟨hs, hpp⟩ := branchOf_plain_inv hbr
        simp only [pathTextOfRest, hbr] at h2 h3
        have hs' : u.Scheme = [] := by rw [hsch, hs]; rfl
        rw [hpp h2] at h3
        exact absurd (h3 hs') (by simp)

theorem Ext_stable_aux {w v : URL} {P : GoString} (hwf : w.WF)
    (hun : unescapeRaw encodePath w.EscapedPath = P) (hop : w.Opaque ≠ [] → P = [])
    (hnpa : ¬ w.PathAsAuthority) (hp : Parse w.String = .ok v) : Ext v.Path = Ext P := by
  rw [String_eq] at hp
  obtain ⟨h63, h35⟩ := head_no_delim _ hwf
  obtain ⟨sch, rest, hg, hpa⟩ := Parse_view _ _ v h63 h35 (tail_head _) hp
  obtain ⟨rest', hg', halt⟩ := head_fwd _ hwf
  rw [hg] at hg'
  injection hg' with hg'
  injection hg' with hs hr
  subst hr
  obtain ⟨hsch, hvop, hvnop, _, _, _, _⟩ := hpa
  rw [← hs] at halt
  rcases halt with ⟨hb, hnil⟩ | ⟨hb, ho, halt⟩
  · have hvP := (hvop hb).2.1
    have huP : P = [] := by
      by_cases ho : w.Opaque = []
      · rw [← hun, hnil ho]
        rfl
      · exact hop ho
    rw [hvP, huP]
  · have hpf := (hvnop hb).2
    obtain ⟨_, hvP, _⟩ := hpf
    rcases halt with h | h | ⟨h, _⟩
    · rw [hvP, h, hun]
    · rw [hvP, h]
      simp only [List.cons_append, List.nil_append]
      rw [unescapeRaw_dot, unescapeRaw_slash, hun, Ext_dotslash]
    · exact absurd h hnpa

theorem Ext_stable {u v : URL} (hn : u.Normal) (q : GoString)
    (hp : Parse ({ u with RawQuery := q } : URL).String = .ok v) :
    Ext v.Path = Ext u.Path :=
  Ext_stable_aux (w := { u with RawQuery := q }) hn.1 hn.2.1 hn.2.2.1 hn.2.2.2 hp

/-- The path that `url.Parse` reads in an output of `CleanURLs` has the extension of the path
of the cleaned input it was written from. -/
theorem Ext_rewritten {raw : GoString} {u v : URL} (q : GoString)
    (hu : Parse (CleanURL raw) = .ok u)
    (hv : Parse ({ u with RawQuery := q } : URL).String = .ok v) :
    Ext v.Path = Ext u.Path := by
  cases hraw : Parse raw with
  | error e =>
      exfalso
      have : CleanURL raw = raw := by simp [CleanURL, hraw]
      rw [this, hraw] at hu
      cases hu
  | ok U0 =>
      obtain ⟨Ux, hwf, hc⟩ := CleanURL_form hraw
      rw [hc] at hu
      exact Ext_stable (Normal_of_Parse_String hwf hu) q hv

/-- For every member of the output of `CleanURLs` the test `HasExtension` is false, for every
URL list, extension list and placeholder; and the input `http://x.com/img.jpg?id=1` of the
specification with `.jpg` disallowed contributes nothing. -/
theorem cleanURLs_no_extension :
    (∀ (uni : GoString → GoString) (urls exts : List GoString) (p o : GoString),
        o ∈ CleanURLs uni urls exts p → HasExtension uni o exts = false)
      ∧ ∀ (uni : GoString → GoString) (p : GoString),
          CleanURLs uni [str "http://x.com/img.jpg?id=1"] [str ".jpg"] p = [] := by
  refine ⟨?_, fun _ _ => rfl⟩
  intro uni urls exts p o hmem
  rcases mem_foldl_cleanStep uni exts p urls [] o hmem with h | ⟨raw, _, hext, h⟩
  · exact absurd h (List.not_mem_nil _)
  · rcases h with ⟨rfl, _⟩ | ⟨u, hu, rfl⟩
    · exact hext
    · unfold HasExtension at hext ⊢
      rw [hu] at hext
      cases hv : Parse ({ u with RawQuery := (u.Query.setAll p).Encode } : URL).String with
      | error e => rfl
      | ok v =>
          dsimp only at hext ⊢
          rw [Ext_rewritten _ hu hv]
          exact hext

theorem cleanURLs_no_extension_witness :
    str "http://x.com/a.b?id=FUZZ" ∈
        CleanURLs id [str "http://x.com:80/a.b?id=1", str "http://x.com/c.JPG?id=2"]
          [str ".jpg"] (str "FUZZ")
      ∧ HasExtension id (str "http://x.com/a.b?id=FUZZ") [str ".jpg"] = false :=
  ⟨by decide, cleanURLs_no_extension.1 id
    [str "http://x.com:80/a.b?id=1", str "http://x.com/c.JPG?id=2"] [str ".jpg"] (str "FUZZ")
    _ (by decide)⟩

/-! ## The sanitizer: bracketed hosts -/

/-- C2, at the input `http://[::a]:80/img.jpg?id=1` with `.jpg` disallowed: the input parses
and its path `/img.jpg` has the extension `.jpg`, yet `CleanURLs` returns
`http://::a/img.jpg?id=1`.  `CleanURL` wrote the host without its brackets; `HasExtension`
cannot parse that string and answers false, so the URL is kept, with its `.jpg`. -/
theorem cleanURLs_ipv6_extension_kept (uni : GoString → GoString) :
    (Parse (str "http://[::a]:80/img.jpg?id=1")).toOption.map (fun u => ToLower uni (Ext u.Path))
        = some (str ".jpg")
      ∧ CleanURL (str "http://[::a]:80/img.jpg?id=1") = str "http://::a/img.jpg?id=1"
      ∧ (Parse (str "http://::a/img.jpg?id=1")).toOption = none
      ∧ HasExtension uni (str "http://::a/img.jpg?id=1") [str ".jpg"] = false
      ∧ CleanURLs uni [str "http://[::a]:80/img.jpg?id=1"] [str ".jpg"] (str "FUZZ")
        = [str "http://::a/img.jpg?id=1"]
      ∧ Ext (Cut (str "http://::a/img.jpg?id=1") (str "?")).1 = str ".jpg" := by
  refine ⟨?_, ?_, ?_, ?_, ?_, ?_⟩ <;> rfl

/-- An output of `CleanURLs` that `url.Parse` accepts has a path whose lower-cased extension
is not in the extension list. -/
theorem cleanURLs_parsed_output_extension (uni : GoString → GoString)
    (urls exts : List GoString) (p o : GoString) (v : URL)
    (hmem : o ∈ CleanURLs uni urls exts p) (hv : Parse o = .ok v) :
    ToLower uni (Ext v.Path) ∉ exts := by
  have h := cleanURLs_no_extension.1 uni urls exts p o hmem
  unfold HasExtension at h
  rw [hv] at h
  dsimp only at h
  intro hin
  rw [List.any_eq_false] at h
  exact h _ hin (by simp)

/-- C6, at the inputs `http://[::a]:80/p?id=1` and `http://[::a]:80/p?id=2`, which differ
only in the value of the parameter `id`: `CleanURLs` returns two entries, `http://::a/p?id=1`
and `http://::a/p?id=2`.  `CleanURL` wrote the host without its brackets, the second
`url.Parse` fails, and each string is stored with its value in place. -/
theorem cleanURLs_ipv6_not_merged (uni : GoString → GoString) :
    CleanURLs uni [str "http://[::a]:80/p?id=1", str "http://[::a]:80/p?id=2"] [str ".jpg"]
        (str "FUZZ") = [str "http://::a/p?id=1", str "http://::a/p?id=2"]
      ∧ (Parse (str "http://[::a]:80/p?id=1")).toOption.map
          (fun u => ({ u with RawQuery := [] } : URL))
        = (Parse (str "http://[::a]:80/p?id=2")).toOption.map
          (fun u => ({ u with RawQuery := [] } : URL))
      ∧ (Parse (str "http://[::a]:80/p?id=1")).toOption.map URL.Query
        = some [(str "id", [str "1"])]
      ∧ (Parse (str "http://[::a]:80/p?id=2")).toOption.map URL.Query
        = some [(str "id", [str "2"])] := by
  refine ⟨?_, ?_, ?_, ?_⟩ <;> rfl

/-- Where the cleaned forms of two inputs parse, to URLs that differ only in the values of
their query parameters, the two inputs give the same entry: `CleanURLs` returns at most one
string for them. -/
theorem cleanURLs_merges (uni : GoString → GoString) (exts : List GoString)
    (p a b : GoString) (u v : URL)
    (ha : Parse (CleanURL a) = .ok u) (hb : Parse (CleanURL b) = .ok v)
    (hsame : ({ v with RawQuery := [] } : URL) = { u with RawQuery := [] })
    (hkeys : v.Query.map Prod.fst = u.Query.map Prod.fst) :
    CleanURLs uni [a, b] exts p
      = if HasExtension uni (CleanURL a) exts then []
        else [({ u with RawQuery := (u.Query.setAll p).Encode } : URL).String] := by
  have hset : v.Query.setAll p = u.Query.setAll p := by
    have key : ∀ q : Values, q.setAll p = (q.map Prod.fst).map (fun k => (k, [p])) := by
      intro q
      simp [Values.setAll, List.map_map, Function.comp_def]
    rw [key, key, hkeys]
  have hstr : ({ v with RawQuery := (v.Query.setAll p).Encode } : URL)
      = { u with RawQuery := (u.Query.setAll p).Encode } := by
    rw [hset]
    have := congrArg (fun w : URL => ({ w with RawQuery := (u.Query.setAll p).Encode } : URL))
      hsame
    exact this
  have hpath : v.Path = u.Path := by
    have := congrArg URL.Path hsame
    exact this
  have hext : HasExtension uni (CleanURL b) exts = HasExtension uni (CleanURL a) exts := by
    unfold HasExtension
    rw [ha, hb]
    dsimp only
    rw [hpath]
  unfold CleanURLs
  simp only [List.foldl_cons, List.foldl_nil]
  unfold cleanStep
  dsimp only
  rw [hext, ha, hb]
  dsimp only
  rw [hstr]
  by_cases he : HasExtension uni (CleanURL a) exts = true
  · simp [he]
  · simp [he, setInsert]

theorem cleanURLs_merges_witness :
    CleanURLs id [str "http://x.com:80/p?id=1", str "http://x.com/p?id=2"] [str ".jpg"]
        (str "FUZZ") = [str "http://x.com/p?id=FUZZ"] :=
  (cleanURLs_merges id [str ".jpg"] (str "FUZZ") (str "http://x.com:80/p?id=1")
    (str "http://x.com/p?id=2") _ _ rfl rfl rfl rfl).trans rfl

/-! ## The adapters: what they return -/

theorem all_setInsert {P : GoString → Prop} {set : List GoString} {s : GoString}
    (hset : ∀ x ∈ set, P x) (hs : P s) : ∀ x ∈ setInsert set s, P x := by
  intro x hx
  rcases mem_setInsert.1 hx with h | h
  · exact hset x h
  · exact h ▸ hs

theorem all_foldl {α : Type} {P : GoString → Prop} (f : List GoString → α → List GoString)
    (hf : ∀ set a, (∀ x ∈ set, P x) → ∀ x ∈ f set a, P x) (xs : List α)
    (set : List GoString) (hset : ∀ x ∈ set, P x) : ∀ x ∈ xs.foldl f set, P x := by
  induction xs generalizing set with
  | nil => exact hset
  | cons a as ih => exact ih _ (hf set a hset)

theorem nodup_foldl {α : Type} (f : List GoString → α → List GoString)
    (hf : ∀ set a, set.Nodup → (f set a).Nodup) (xs : List α)
    (set : List GoString) (hset : set.Nodup) : (xs.foldl f set).Nodup := by
  induction xs generalizing set with
  | nil => exact hset
  | cons a as ih => exact ih _ (hf set a hset)

theorem waybackLine_query (uni : GoString → GoString) (set set2 : List GoString)
    (text : GoString) (hset : ∀ x ∈ set, Contains x (str "?") = true)
    (h : waybackLine uni set text = some set2) :
    ∀ x ∈ set2, Contains x (str "?") = true := by
  unfold waybackLine at h
  dsimp only at h
  split at h
  · injection h with h
    exact h ▸ hset
  · split at h
    · injection h with h
      exact h ▸ hset
    · split at h
      · cases h
      · split at h
        · rename_i hq
          injection h with h
          exact h ▸ all_setInsert hset hq
        · injection h with h
          exact h ▸ hset

theorem waybackLine_nodup (uni : GoString → GoString) (set set2 : List GoString)
    (text : GoString) (hset : set.Nodup) (h : waybackLine uni set text = some set2) :
    set2.Nodup := by
  unfold waybackLine at h
  dsimp only at h
  split at h
  · injection h with h
    exact h ▸ hset
  · split at h
    · injection h with h
      exact h ▸ hset
    · split at h
      · cases h
      · split at h
        · injection h with h
          exact h ▸ nodup_setInsert _ hset
        · injection h with h
          exact h ▸ hset

theorem waybackLoop_query (uni : GoString → GoString) (lines : List GoString) :
    ∀ (set set2 : List GoString), (∀ x ∈ set, Contains x (str "?") = true) →
      waybackLoop uni lines set = some set2 → ∀ x ∈ set2, Contains x (str "?") = true := by
  induction lines with
  | nil =>
      intro set set2 hset h
      simp only [waybackLoop] at h
      injection h with h
      exact h ▸ hset
  | cons text rest ih =>
      intro set set2 hset h
      simp only [waybackLoop] at h
      split at h
      · cases h
      · rename_i set1 h1
        exact ih set1 set2 (waybackLine_query uni set set1 text hset h1) h

theorem waybackLoop_nodup (uni : GoString → GoString) (lines : List GoString) :
    ∀ (set set2 : List GoString), set.Nodup →
      waybackLoop uni lines set = some set2 → set2.Nodup := by
  induction lines with
  | nil =>
      intro set set2 hset h
      simp only [waybackLoop] at h
      injection h with h
      exact h ▸ hset
  | cons text rest ih =>
      intro set set2 hset h
      simp only [waybackLoop] at h
      split at h
      · cases h
      · rename_i set1 h1
        exact ih set1 set2 (waybackLine_nodup uni set set1 text hset h1) h

theorem fetchWayback_ok {uni : GoString → GoString} {net : Network} {domain : GoString}
    {cfg : Config} {urls : List GoString}
    (h : (FetchWayback uni net domain cfg).map Fetched.result = some (.ok urls)) :
    ∃ lines : List GoString, waybackLoop uni lines [] = some urls := by
  unfold FetchWayback at h
  dsimp only at h
  rw [Option.map_map] at h
  have h2 : waybackResult uni net (waybackURL domain) = some (.ok urls) := by
    cases hr : waybackResult uni net (waybackURL domain) with
    | none => rw [hr] at h; cases h
    | some r =>
        rw [hr] at h
        simp only [Option.map_some', Function.comp_apply, Option.some.injEq] at h
        rw [h]
  unfold waybackResult at h2
  split at h2
  · cases h2
  · split at h2
    · cases h2
    · split at h2
      · cases h2
      · dsimp only at h2
        split at h2
        · cases h2
        · split at h2
          · cases h2
          · rename_i urlSet hloop
            split at h2
            · cases h2
            · injection h2 with h2
              injection h2 with h2
              exact ⟨_, h2 ▸ hloop⟩

theorem commonCrawlLine_query (uni : GoString → GoString)
    (decode : GoString → Except String CommonCrawlEntry) (atEOF : Bool)
    (acc : List GoString) (text : GoString)
    (hacc : ∀ x ∈ acc, Contains x (str "?") = true) :
    ∀ x ∈ (commonCrawlLine uni decode atEOF acc text).1, Contains x (str "?") = true := by
  unfold commonCrawlLine
  dsimp only
  split
  · exact hacc
  · split
    · exact hacc
    · split
      · exact hacc
      · dsimp only
        split
        · rename_i h
          intro x hx
          rcases List.mem_append.1 hx with hx | hx
          · exact hacc x hx
          · rw [List.mem_singleton.1 hx]
            exact h
        · exact hacc

theorem commonCrawlLoop_query (uni : GoString → GoString)
    (decode : GoString → Except String CommonCrawlEntry) (bodyErr : Bool) :
    ∀ (pieces : List GoString) (acc : List GoString),
      (∀ x ∈ acc, Contains x (str "?") = true) →
      ∀ x ∈ commonCrawlLoop uni decode bodyErr pieces acc, Contains x (str "?") = true := by
  intro pieces
  induction pieces with
  | nil => intro acc hacc; exact hacc
  | cons p ps ih =>
      intro acc hacc
      cases ps with
      | nil =>
          simp only [commonCrawlLoop]
          split
          · exact hacc
          · exact commonCrawlLine_query uni decode true acc p hacc
      | cons q qs =>
          simp only [commonCrawlLoop]
          split
          · exact ih _ (commonCrawlLine_query uni decode false acc _ hacc)
          · exact commonCrawlLine_query uni decode false acc _ hacc

theorem virusTotalCollect_query (vtResp : VirusTotalResponse) :
    ∀ x ∈ virusTotalCollect vtResp, Contains x (str "?") = true := by
  unfold virusTotalCollect
  dsimp only
  apply all_foldl
  · intro set arr hset
    split
    · split
      · rename_i h
        exact all_setInsert hset h
      · exact hset
    · exact hset
  · apply all_foldl
    · intro set url hset
      split
      · rename_i h
        exact all_setInsert hset h.2
      · exact hset
    · intro x hx
      cases hx

theorem virusTotalCollect_nodup (vtResp : VirusTotalResponse) :
    (virusTotalCollect vtResp).Nodup := by
  unfold virusTotalCollect
  dsimp only
  apply nodup_foldl
  · intro set arr hset
    split
    · split
      · exact nodup_setInsert _ hset
      · exact hset
    · exact hset
  · apply nodup_foldl
    · intro set url hset
      split
      · exact nodup_setInsert _ hset
      · exact hset
    · exact List.nodup_nil

theorem fetchVirusTotal_ok {decode : GoString → Except String VirusTotalResponse}
    {net : Network} {domain : GoString} {cfg : Config} {urls : List GoString}
    (h : (FetchVirusTotal decode net domain cfg).result = .ok urls) :
    urls = [] ∨ ∃ vtResp, urls = virusTotalCollect vtResp := by
  unfold FetchVirusTotal at h
  split at h
  · injection h with h
    exact Or.inl h.symm
  · dsimp only at h
    split at h
    · cases h
    · split at h
      · cases h
      · split at h
        · cases h
        · split at h
          · cases h
          · injection h with h
            exact Or.inr ⟨_, h.symm⟩

theorem processAlienVaultPage_query {uni : GoString → GoString}
    {decode : GoString → Except String AlienVaultResponse} {net : Network}
    {pageURL targetDomain : GoString} {pageURLs : List GoString}
    (h : processAlienVaultPage uni decode net pageURL targetDomain = .ok pageURLs) :
    ∀ x ∈ pageURLs, Contains x (str "?") = true := by
  unfold processAlienVaultPage at h
  split at h
  · cases h
  · split at h
    · cases h
    · split at h
      · cases h
      · split at h
        · cases h
        · split at h
          · injection h with h
            subst h
            intro x hx
            cases hx
          · split at h
            · cases h
            · injection h with h
              subst h
              intro x hx
              have := (List.mem_filter.1 hx).2
              simp only [Bool.and_eq_true] at this
              exact this.1.2

/-- The collecting loop of `FetchAlienVault` over the pages. -/
theorem alienVault_pages_query (uni : GoString → GoString)
    (decode : GoString → Except String AlienVaultResponse) (net : Network)
    (domain : GoString) (pages : List Nat) :
    ∀ x ∈ pages.foldl
        (fun urlSet page =>
          match processAlienVaultPage uni decode net (alienVaultPageURL domain page) domain with
          | .error _ => urlSet
          | .ok pageURLs => pageURLs.foldl setInsert urlSet) [],
      Contains x (str "?") = true := by
  apply all_foldl
  · intro set page hset
    split
    · exact hset
    · rename_i pageURLs h
      have hp := processAlienVaultPage_query h
      intro x hx
      rcases mem_foldl_setInsert.1 hx with hx | hx
      · exact hset x hx
      · exact hp x hx
  · intro x hx
    cases hx

theorem alienVault_pages_nodup (uni : GoString → GoString)
    (decode : GoString → Except String AlienVaultResponse) (net : Network)
    (domain : GoString) (pages : List Nat) :
    (pages.foldl
        (fun urlSet page =>
          match processAlienVaultPage uni decode net (alienVaultPageURL domain page) domain with
          | .error _ => urlSet
          | .ok pageURLs => pageURLs.foldl setInsert urlSet) []).Nodup := by
  apply nodup_foldl
  · intro set page hset
    split
    · exact hset
    · exact nodup_foldl_setInsert hset
  · exact List.nodup_nil

theorem fetchAlienVault_ok {uni : GoString → GoString}
    {decode : GoString → Except String AlienVaultResponse} {net : Network}
    {domain : GoString} {cfg : Config} {urls : List GoString}
    (h : (FetchAlienVault uni decode net domain cfg).result = .ok urls) :
    urls = [] ∨ ∃ pages : List Nat, urls = pages.foldl
        (fun urlSet page =>
          match processAlienVaultPage uni decode net (alienVaultPageURL domain page) domain with
          | .error _ => urlSet
          | .ok pageURLs => pageURLs.foldl setInsert urlSet) [] := by
  unfold FetchAlienVault at h
  split at h
  · injection h with h
    exact Or.inl h.symm
  · dsimp only at h
    split at h
    · cases h
    · split at h
      · cases h
      · split at h
        · cases h
        · split at h
          · cases h
          · split at h
            · cases h
            · split at h
              · injection h with h
                exact Or.inl h.symm
              · injection h with h
                exact Or.inr ⟨_, h.symm⟩

theorem fetchCommonCrawl_ok {uni : GoString → GoString}
    {decode : GoString → Except String CommonCrawlEntry} {net : Network}
    {domain : GoString} {cfg : Config} {urls : List GoString}
    (h : (FetchCommonCrawl uni decode net domain cfg).result = .ok urls) :
    ∃ (bodyErr : Bool) (pieces : List GoString),
      urls = commonCrawlLoop uni decode bodyErr pieces [] := by
  unfold FetchCommonCrawl at h
  dsimp only at h
  split at h
  · cases h
  · split at h
    · cases h
    · split at h
      · cases h
      · injection h with h
        exact ⟨_, _, h.symm⟩

/-! ## Common Crawl: the line `no captures found` -/

set_option maxRecDepth 100000 in
theorem lowerByte_ascii : ∀ c : Byte, lowerByte c < 0x80 → c < 0x80 := by
  decide

theorem ascii_of_map_lowerByte {s t : GoString} (h : s.map lowerByte = t)
    (ht : t.all (fun c => decide (c < 0x80)) = true) :
    s.all (fun c => decide (c < 0x80)) = true := by
  subst h
  rw [List.all_eq_true] at ht ⊢
  intro c hc
  have := ht (lowerByte c) (List.mem_map_of_mem _ hc)
  simp only [decide_eq_true_eq] at this ⊢
  exact lowerByte_ascii c this

/-- A line that equals `no captures found`, ignoring case and surrounding white space, ends
the loop with what was found so far. -/
theorem commonCrawlLine_no_captures (uni : GoString → GoString)
    (decode : GoString → Except String CommonCrawlEntry) (atEOF : Bool)
    (urlsFound : List GoString) (text : GoString)
    (h : (TrimSpace text).map lowerByte = str "no captures found") :
    commonCrawlLine uni decode atEOF urlsFound text = (urlsFound, false) := by
  have hne : TrimSpace text ≠ [] := by
    intro h0
    rw [h0] at h
    exact absurd h (by decide)
  have hlow : ToLower uni (TrimSpace text) = str "no captures found" := by
    unfold ToLower
    rw [if_pos (ascii_of_map_lowerByte h (by decide)), h]
  unfold commonCrawlLine
  dsimp only
  rw [if_neg hne, hlow, if_pos (by decide)]

theorem commonCrawlLoop_cons_cons (uni : GoString → GoString)
    (decode : GoString → Except String CommonCrawlEntry) (bodyErr : Bool)
    (piece next : GoString) (rest urlsFound : List GoString) :
    commonCrawlLoop uni decode bodyErr (piece :: next :: rest) urlsFound
      = if (commonCrawlLine uni decode false urlsFound (piece ++ [10])).2 then
          commonCrawlLoop uni decode bodyErr (next :: rest)
            (commonCrawlLine uni decode false urlsFound (piece ++ [10])).1
        else (commonCrawlLine uni decode false urlsFound (piece ++ [10])).1 := by
  simp only [commonCrawlLoop]

/-- The loop of `FetchCommonCrawl` stops at a line `no captures found`: it returns what the
pieces before that line give, and does not read the pieces after it. -/
theorem commonCrawlLoop_no_captures (uni : GoString → GoString)
    (decode : GoString → Except String CommonCrawlEntry) (bodyErr : Bool)
    (L : GoString) (after : List GoString)
    (h : (TrimSpace (readText L after)).map lowerByte = str "no captures found") :
    ∀ (before urlsFound : List GoString),
      commonCrawlLoop uni decode bodyErr (before ++ L :: after) urlsFound
        = commonCrawlLoop uni decode false (before ++ [[]]) urlsFound := by
  intro before
  induction before with
  | nil =>
      intro urlsFound
      have hr : commonCrawlLoop uni decode false ([] ++ [[]]) urlsFound = urlsFound := by
        simp [commonCrawlLoop, commonCrawlLine, TrimSpace, trimLeftLoop, trimRightLoop]
      rw [hr]
      cases after with
      | nil =>
          simp only [readText, if_true] at h
          simp only [List.nil_append, commonCrawlLoop]
          split
          · rfl
          · rw [commonCrawlLine_no_captures uni decode true urlsFound L h]
      | cons a as =>
          simp only [readText, reduceCtorEq, if_false] at h
          rw [List.nil_append, commonCrawlLoop_cons_cons,
            commonCrawlLine_no_captures uni decode false urlsFound _ h]
          simp
  | cons p ps ih =>
      intro urlsFound
      cases ps with
      | nil =>
          rw [List.cons_append, List.nil_append, commonCrawlLoop_cons_cons,
            List.cons_append, List.nil_append, commonCrawlLoop_cons_cons]
          have := ih (commonCrawlLine uni decode false urlsFound (p ++ [10])).1
          rw [List.nil_append, List.nil_append] at this
          rw [this]
      | cons q qs =>
          rw [List.cons_append, List.cons_append, commonCrawlLoop_cons_cons,
            List.cons_append, List.cons_append, commonCrawlLoop_cons_cons]
          have := ih (commonCrawlLine uni decode false urlsFound (p ++ [10])).1
          rw [List.cons_append, List.cons_append] at this
          rw [this]

/-- C11, at the body `record, No captures found`: the URL of the record that precedes the
line `No captures found` is returned; the result is not empty. -/
theorem fetchCommonCrawl_no_captures_after_record :
    (FetchCommonCrawl (fun s => s) exampleDecode
        (serve (exampleRecord ++ [10] ++ str "No captures found\n")) (str "x.com")
        bothKeys).result = .ok [str "http://x.com/?a=1"]
      ∧ Split (exampleRecord ++ [10] ++ str "No captures found\n") 10
          = [exampleRecord, str "No captures found", []]
      ∧ (TrimSpace (str "No captures found")).map lowerByte = str "no captures found" := by
  refine ⟨rfl, rfl, rfl⟩

/-- C11, amended: a line `no captures found` ends the reading without error, and the result
is what the lines before it gave.  For a response of status 200 whose body splits at the line
feeds into the pieces `before`, a piece `L` that equals `no captures found` ignoring case and
surrounding white space, and the pieces `after`, `FetchCommonCrawl` returns a nil error and
the list that the loop collects from the pieces `before` alone; where no piece precedes `L`
the list is empty. -/
theorem fetchCommonCrawl_no_captures (uni : GoString → GoString)
    (decode : GoString → Except String CommonCrawlEntry) (net : Network)
    (domain : GoString) (cfg : Config) (resp : Response)
    (before : List GoString) (L : GoString) (after : List GoString)
    (hnet : net (commonCrawlURL domain) = .ok resp)
    (hstatus : resp.StatusCode = 200)
    (hbody : Split resp.Body 10 = before ++ L :: after)
    (hline : (TrimSpace (readText L after)).map lowerByte = str "no captures found") :
    (FetchCommonCrawl uni decode net domain cfg).result
        = .ok (commonCrawlLoop uni decode false (before ++ [[]]) [])
      ∧ (before = [] → (FetchCommonCrawl uni decode net domain cfg).result = .ok []) := by
  have hres : (FetchCommonCrawl uni decode net domain cfg).result
      = .ok (commonCrawlLoop uni decode false (before ++ [[]]) []) := by
    unfold FetchCommonCrawl
    dsimp only
    rw [hnet]
    dsimp only
    rw [if_neg (by rw [hstatus]; decide), if_neg (by rw [hstatus]; simp), hbody,
      commonCrawlLoop_no_captures uni decode _ L after hline]
  refine ⟨hres, fun hb => ?_⟩
  rw [hres, hb]
  simp [commonCrawlLoop, commonCrawlLine, TrimSpace, trimLeftLoop, trimRightLoop]

theorem fetchCommonCrawl_no_captures_witness :
    (FetchCommonCrawl (fun s => s) exampleDecode
        (serve (exampleRecord ++ [10] ++ str "NO CAPTURES FOUND \n" ++ exampleRecord))
        (str "x.com") bothKeys).result
      = .ok (commonCrawlLoop (fun s => s) exampleDecode false ([exampleRecord] ++ [[]]) [])
    ∧ commonCrawlLoop (fun s => s) exampleDecode false ([exampleRecord] ++ [[]]) []
      = [str "http://x.com/?a=1"] :=
  ⟨(fetchCommonCrawl_no_captures (fun s => s) exampleDecode
      (serve (exampleRecord ++ [10] ++ str "NO CAPTURES FOUND \n" ++ exampleRecord))
      (str "x.com") bothKeys
      { StatusCode := 200
        Body := exampleRecord ++ [10] ++ str "NO CAPTURES FOUND \n" ++ exampleRecord }
      [exampleRecord] (str "NO CAPTURES FOUND ") [exampleRecord] rfl rfl rfl rfl).1, rfl⟩

/-! ## The adapters: duplicates and the query marker -/

/-- C12: `FetchCommonCrawl` returns a URL as often as the response lists it.  For the body
with the record of `http://x.com/?a=1` on two lines the returned list holds that URL twice:
the adapter appends to a slice, where the other three adapters fill a set. -/
theorem fetchCommonCrawl_duplicates (uni : GoString → GoString) (domain : GoString)
    (cfg : Config) :
    (FetchCommonCrawl uni exampleDecode
        (serve (exampleRecord ++ [10] ++ exampleRecord ++ [10])) domain cfg).result
      = .ok [str "http://x.com/?a=1", str "http://x.com/?a=1"]
    ∧ ¬ [str "http://x.com/?a=1", str "http://x.com/?a=1"].Nodup := by
  refine ⟨rfl, ?_⟩
  simp

/-- The lists returned by `FetchWayback`, `FetchVirusTotal` and `FetchAlienVault` have no
duplicates: these adapters collect into a set. -/
theorem set_adapters_nodup (uni : GoString → GoString) (dec : Decoders)
    (net : Network) (domain : GoString) (cfg : Config) (urls : List GoString)
    (h : (FetchWayback uni net domain cfg).map Fetched.result = some (.ok urls)
      ∨ (FetchVirusTotal dec.virusTotal net domain cfg).result = .ok urls
      ∨ (FetchAlienVault uni dec.alienVault net domain cfg).result = .ok urls) :
    urls.Nodup := by
  rcases h with h | h | h
  · obtain ⟨lines, hl⟩ := fetchWayback_ok h
    exact waybackLoop_nodup uni lines [] urls List.nodup_nil hl
  · rcases fetchVirusTotal_ok h with rfl | ⟨vtResp, rfl⟩
    · exact List.nodup_nil
    · exact virusTotalCollect_nodup vtResp
  · rcases fetchAlienVault_ok h with rfl | ⟨pages, rfl⟩
    · exact List.nodup_nil
    · exact alienVault_pages_nodup uni _ net domain pages

/-- C13: every URL an adapter returns contains `?`.  Whatever the responses and the decoders,
a string in the list returned without error by `FetchWayback`, `FetchCommonCrawl`,
`FetchVirusTotal` or `FetchAlienVault` contains the character `?`. -/
theorem adapters_return_query_urls (uni : GoString → GoString) (dec : Decoders)
    (net : Network) (domain : GoString) (cfg : Config) (urls : List GoString) (u : GoString)
    (h : (FetchWayback uni net domain cfg).map Fetched.result = some (.ok urls)
      ∨ (FetchCommonCrawl uni dec.commonCrawl net domain cfg).result = .ok urls
      ∨ (FetchVirusTotal dec.virusTotal net domain cfg).result = .ok urls
      ∨ (FetchAlienVault uni dec.alienVault net domain cfg).result = .ok urls)
    (hu : u ∈ urls) : Contains u (str "?") = true := by
  rcases h with h | h | h | h
  · obtain ⟨lines, hl⟩ := fetchWayback_ok h
    exact waybackLoop_query uni lines [] urls (fun x hx => by cases hx) hl u hu
  · obtain ⟨bodyErr, pieces, rfl⟩ := fetchCommonCrawl_ok h
    exact commonCrawlLoop_query uni _ bodyErr pieces [] (fun x hx => by cases hx) u hu
  · rcases fetchVirusTotal_ok h with rfl | ⟨vtResp, rfl⟩
    · cases hu
    · exact virusTotalCollect_query vtResp u hu
  · rcases fetchAlienVault_ok h with rfl | ⟨pages, rfl⟩
    · cases hu
    · exact alienVault_pages_query uni _ net domain pages u hu

theorem adapters_return_query_urls_witness :
    (FetchCommonCrawl (fun s => s) exampleDecode (serve (exampleRecord ++ [10])) (str "x.com")
        bothKeys).result = .ok [str "http://x.com/?a=1"]
      ∧ Contains (str "http://x.com/?a=1") (str "?") = true := by
  have h : (FetchCommonCrawl (fun s => s) exampleDecode (serve (exampleRecord ++ [10]))
      (str "x.com") bothKeys).result = .ok [str "http://x.com/?a=1"] := rfl
  exact ⟨h, adapters_return_query_urls (fun s => s)
    ⟨exampleDecode, fun _ => .error "", fun _ => .error ""⟩
    (serve (exampleRecord ++ [10])) (str "x.com") bothKeys [str "http://x.com/?a=1"]
    (str "http://x.com/?a=1") (Or.inr (Or.inl h)) (List.mem_singleton.2 rfl)⟩

/-! ## AlienVault: the number of pages -/

theorem roundHalfEven_le_ceil (y : ℚ) : roundHalfEven y ≤ ⌈y⌉ := by
  unfold roundHalfEven
  have h1 : ⌊y⌋ ≤ ⌈y⌉ := Int.floor_le_ceil y
  have h2 : y - ⌊y⌋ ≠ 0 → ⌊y⌋ + 1 ≤ ⌈y⌉ := by
    intro hne
    rw [Int.add_one_le_iff, Int.lt_ceil]
    have := Int.floor_le y
    rcases lt_or_eq_of_le this with h | h
    · exact h
    · exact absurd (by rw [h]; ring) hne
  have h0 : (0 : ℚ) ≤ y - ⌊y⌋ := sub_nonneg.2 (Int.floor_le y)
  split
  · exact h1
  · split
    · apply h2
      intro h; linarith
    · split
      · exact h1
      · apply h2
        intro h
        rename_i hh _ _
        rw [h] at hh
        norm_num at hh

theorem roundHalfEven_ge (y : ℚ) : y - 1 / 2 ≤ roundHalfEven y := by
  unfold roundHalfEven
  have hlt : y < ⌊y⌋ + 1 := Int.lt_floor_add_one y
  split
  · rename_i h
    linarith
  · split
    · push_cast; linarith
    · split
      · rename_i h1 h2 _
        have : y - ⌊y⌋ = 1 / 2 := le_antisymm (not_lt.1 h2) (not_lt.1 h1)
        linarith
      · push_cast; linarith

theorem roundHalfEven_intCast (z : ℤ) : roundHalfEven (z : ℚ) = z := by
  unfold roundHalfEven
  rw [Int.floor_intCast]
  simp

/-- The exponent of the unit in the last place of a positive number below `2 ^ k`. -/
theorem log_sub_le {x : ℚ} (hx : 0 < x) {k : ℤ} (hk : x < (2 : ℚ) ^ k) :
    Int.log 2 |x| - 52 ≤ k - 53 := by
  rw [abs_of_pos hx]
  have : Int.log 2 x < k := (Int.lt_zpow_iff_log_lt (by norm_num) hx).1 (by exact_mod_cast hk)
  omega

theorem roundFloat64_exact {x : ℚ} (hx : 0 < x) (z : ℤ) {j : ℕ}
    (he : Int.log 2 |x| - 52 = -(j : ℤ)) (hz : x * (2 : ℚ) ^ j = z) :
    roundFloat64 x = x := by
  unfold roundFloat64
  rw [if_neg hx.ne.symm, he, zpow_neg, zpow_natCast, div_inv_eq_mul, hz, roundHalfEven_intCast,
    ← hz]
  field_simp

theorem roundFloat64_intCast {n : ℤ} (h0 : 0 < n) (h : n < 2 ^ 53) :
    roundFloat64 (n : ℚ) = n := by
  have hx : (0 : ℚ) < n := by exact_mod_cast h0
  have hk : (n : ℚ) < (2 : ℚ) ^ (53 : ℤ) := by
    have : (n : ℚ) < ((2 ^ 53 : ℤ) : ℚ) := by exact_mod_cast h
    norm_num at this ⊢
    exact this
  have hle := log_sub_le hx hk
  obtain ⟨j, hj⟩ : ∃ j : ℕ, Int.log 2 |(n : ℚ)| - 52 = -(j : ℤ) :=
    ⟨(-(Int.log 2 |(n : ℚ)| - 52)).toNat, by omega⟩
  exact roundFloat64_exact hx (n * 2 ^ j) hj (by push_cast; ring)

/-- The page count the code computes, for a count below `2 ^ 53`, where the conversion to
`float64` is exact and the division by 500 is off by less than `1 / 500`. -/
theorem totalPagesOf_eq {n : ℤ} (h0 : 0 ≤ n) (h : n < 2 ^ 53) :
    totalPagesOf n = (n + 499) / 500 := by
  unfold totalPagesOf
  rcases eq_or_lt_of_le h0 with h0 | h0
  · subst h0
    simp [roundFloat64]
  rw [roundFloat64_intCast h0 h]
  set m : ℤ := (n + 499) / 500 with hm
  have hm1 : 500 * (m - 1) < n := by omega
  have hm2 : n ≤ 500 * m := by omega
  have hx : (0 : ℚ) < (n : ℚ) / 500 := by
    have : (0 : ℚ) < n := by exact_mod_cast h0
    positivity
  have hk : (n : ℚ) / 500 < (2 : ℚ) ^ (45 : ℤ) := by
    have : (n : ℚ) < ((2 ^ 53 : ℤ) : ℚ) := by exact_mod_cast h
    norm_num at this ⊢
    linarith
  have hle := log_sub_le hx hk
  obtain ⟨j, hj, hj8⟩ : ∃ j : ℕ, Int.log 2 |(n : ℚ) / 500| - 52 = -(j : ℤ) ∧ 8 ≤ j :=
    ⟨(-(Int.log 2 |(n : ℚ) / 500| - 52)).toNat, by omega, by omega⟩
  have hpow : (256 : ℚ) ≤ (2 : ℚ) ^ j := by
    calc (256 : ℚ) = 2 ^ 8 := by norm_num
      _ ≤ 2 ^ j := pow_le_pow_right₀ (by norm_num) hj8
  have hpos : (0 : ℚ) < (2 : ℚ) ^ j := by positivity
  have hr : roundFloat64 ((n : ℚ) / 500)
      = roundHalfEven ((n : ℚ) / 500 * 2 ^ j) / 2 ^ j := by
    unfold roundFloat64
    rw [if_neg hx.ne.symm, hj, zpow_neg, zpow_natCast, div_inv_eq_mul, ← div_eq_mul_inv]
  rw [hr, Int.ceil_eq_iff]
  have hn1 : ((500 : ℚ) * (m - 1) + 1) ≤ n := by exact_mod_cast Int.add_one_le_iff.2 hm1
  have hn2 : (n : ℚ) ≤ 500 * m := by exact_mod_cast hm2
  constructor
  · -- the rounding error is at most half a unit in the last place
    have hge := roundHalfEven_ge ((n : ℚ) / 500 * 2 ^ j)
    rw [lt_div_iff₀ hpos]
    have : ((m : ℚ) - 1) * 2 ^ j + 2 ^ j / 500 ≤ (n : ℚ) / 500 * 2 ^ j := by
      have : ((m : ℚ) - 1) + 1 / 500 ≤ (n : ℚ) / 500 := by linarith
      calc ((m : ℚ) - 1) * 2 ^ j + 2 ^ j / 500 = (((m : ℚ) - 1) + 1 / 500) * 2 ^ j := by ring
        _ ≤ (n : ℚ) / 500 * 2 ^ j := mul_le_mul_of_nonneg_right this hpos.le
    have h256 : (1 : ℚ) / 2 < 2 ^ j / 500 := by linarith
    linarith
  · -- an integer above is a float above
    have hle := roundHalfEven_le_ceil ((n : ℚ) / 500 * 2 ^ j)
    have hc : ⌈(n : ℚ) / 500 * 2 ^ j⌉ ≤ m * 2 ^ j := by
      rw [Int.ceil_le]
      push_cast
      have : (n : ℚ) / 500 ≤ m := by linarith
      exact mul_le_mul_of_nonneg_right this hpos.le
    rw [div_le_iff₀ hpos]
    have : ((roundHalfEven ((n : ℚ) / 500 * 2 ^ j) : ℤ) : ℚ) ≤ ((m * 2 ^ j : ℤ) : ℚ) := by
      exact_mod_cast hle.trans hc
    simpa using this

theorem roundHalfEven_tie_even (z : ℤ) (hz : z % 2 = 0) :
    roundHalfEven ((z : ℚ) + 1 / 2) = z := by
  have hf : ⌊(z : ℚ) + 1 / 2⌋ = z := by
    rw [Int.floor_eq_iff]
    constructor <;> linarith
  unfold roundHalfEven
  rw [hf]
  have h1 : ¬ ((z : ℚ) + 1 / 2 - z < 1 / 2) := by
    intro h; linarith
  have h2 : ¬ ((1 : ℚ) / 2 < (z : ℚ) + 1 / 2 - z) := by
    intro h; linarith
  rw [if_neg h1, if_neg h2, if_pos hz]

theorem log_eq {x : ℚ} (hx : 0 < x) {k : ℤ} (h1 : (2 : ℚ) ^ k ≤ x)
    (h2 : x < (2 : ℚ) ^ (k + 1)) : Int.log 2 |x| = k := by
  rw [abs_of_pos hx]
  have ha : k ≤ Int.log 2 x := (Int.zpow_le_iff_le_log (by norm_num) hx).1 (by exact_mod_cast h1)
  have hb : Int.log 2 x < k + 1 :=
    (Int.lt_zpow_iff_log_lt (by norm_num) hx).1 (by exact_mod_cast h2)
  omega

/-- The count `2 ^ 53 + 9` is not a `float64`: it lies half way between two of them, and
the conversion gives `2 ^ 53 + 8`, a multiple of 500. -/
theorem roundFloat64_tie : roundFloat64 9007199254741001 = 9007199254741000 := by
  have hl : Int.log 2 |(9007199254741001 : ℚ)| = 53 :=
    log_eq (by norm_num) (by norm_num) (by norm_num)
  unfold roundFloat64
  rw [if_neg (by norm_num), hl]
  have : (9007199254741001 : ℚ) / 2 ^ ((53 : ℤ) - 52)
      = ((4503599627370500 : ℤ) : ℚ) + 1 / 2 := by norm_num
  rw [this, roundHalfEven_tie_even _ (by decide)]
  norm_num

theorem totalPagesOf_tie : totalPagesOf 9007199254741001 = 18014398509482 := by
  unfold totalPagesOf
  have h1 : ((9007199254741001 : ℤ) : ℚ) = 9007199254741001 := by norm_num
  have h2 : (9007199254741000 : ℚ) / 500 = ((18014398509482 : ℤ) : ℚ) := by norm_num
  rw [h1, roundFloat64_tie, h2, roundFloat64_intCast (by decide) (by decide), Int.ceil_intCast]

/-- The requests of `FetchAlienVault` when the first response gives a count other than 0. -/
theorem fetchAlienVault_requests (uni : GoString → GoString)
    (decode : GoString → Except String AlienVaultResponse) (net : Network)
    (domain : GoString) (cfg : Config) (resp : Response) (bodyBytes : GoString)
    (initResp : AlienVaultResponse)
    (hkey : cfg.AlienVaultAPIKey ≠ [])
    (hnet : net (alienVaultInitialURL domain) = .ok resp)
    (hstatus : resp.StatusCode = 200)
    (hread : ReadAll resp = .ok bodyBytes)
    (hdecode : decode bodyBytes = .ok initResp) :
    (initResp.FullSize ≠ 0 →
      (FetchAlienVault uni decode net domain cfg).requests
        = alienVaultInitialURL domain
            :: (pageNumbers (totalPagesOf initResp.FullSize)).map (alienVaultPageURL domain))
    ∧ (initResp.FullSize = 0 →
      (FetchAlienVault uni decode net domain cfg).requests = [alienVaultInitialURL domain]
        ∧ (FetchAlienVault uni decode net domain cfg).result = .ok []) := by
  unfold alienVaultInitialURL at hnet
  unfold FetchAlienVault
  rw [if_neg hkey]
  dsimp only
  rw [hnet]
  dsimp only
  rw [if_neg (by rw [hstatus]; decide), if_neg (by rw [hstatus]; simp), hread]
  dsimp only
  rw [hdecode]
  dsimp only
  constructor
  · intro hn
    rw [if_neg hn]
    rfl
  · intro hn
    rw [if_pos hn]
    exact ⟨rfl, rfl⟩

/-- C14, at the count `2 ^ 53 + 9 = 9007199254741001`, which needs 18014398509483 pages of
500: the pages requested are 1 to 18014398509482, the last page is not requested. -/
theorem fetchAlienVault_pages_beyond_float64 :
    (FetchAlienVault (fun s => s) (exampleCount bodyBeyondFloat64 9007199254741001)
        (serve bodyBeyondFloat64) (str "x.com") bothKeys).requests
      = alienVaultInitialURL (str "x.com")
          :: (List.range' 1 18014398509482).map (alienVaultPageURL (str "x.com"))
    ∧ ((9007199254741001 : ℤ) + 499) / 500 = 18014398509483
    ∧ 18014398509483 ∉ List.range' 1 18014398509482 := by
  refine ⟨?_, by decide, by rw [List.mem_range'_1]; omega⟩
  have h := (fetchAlienVault_requests (fun s => s)
    (exampleCount bodyBeyondFloat64 9007199254741001) (serve bodyBeyondFloat64) (str "x.com")
    bothKeys { StatusCode := 200, Body := bodyBeyondFloat64 } bodyBeyondFloat64
    { FullSize := 9007199254741001 } (by decide) rfl rfl rfl rfl).1 (by decide)
  rw [h]
  show _ :: (pageNumbers (totalPagesOf 9007199254741001)).map _ = _
  rw [totalPagesOf_tie]
  rfl

/-- C14, amended: for a count `n` with `0 ≤ n < 2 ^ 53` the pages requested are
`1, ..., (n + 499) / 500`, each once.  After the request for the count, `FetchAlienVault`
requests the pages of these numbers and no other URL; for `n = 0` that is no page, and the
result is the empty list with a nil error. -/
theorem fetchAlienVault_pages (uni : GoString → GoString)
    (decode : GoString → Except String AlienVaultResponse) (net : Network)
    (domain : GoString) (cfg : Config) (resp : Response) (bodyBytes : GoString)
    (initResp : AlienVaultResponse)
    (hkey : cfg.AlienVaultAPIKey ≠ [])
    (hnet : net (alienVaultInitialURL domain) = .ok resp)
    (hstatus : resp.StatusCode = 200)
    (hread : ReadAll resp = .ok bodyBytes)
    (hdecode : decode bodyBytes = .ok initResp)
    (h0 : 0 ≤ initResp.FullSize) (h53 : initResp.FullSize < 2 ^ 53) :
    (FetchAlienVault uni decode net domain cfg).requests
        = alienVaultInitialURL domain
            :: (List.range' 1 ((initResp.FullSize + 499) / 500).toNat).map
                (alienVaultPageURL domain)
      ∧ (initResp.FullSize = 0 →
          (FetchAlienVault uni decode net domain cfg).requests = [alienVaultInitialURL domain]
            ∧ (FetchAlienVault uni decode net domain cfg).result = .ok []) := by
  have h := fetchAlienVault_requests uni decode net domain cfg resp bodyBytes initResp hkey
    hnet hstatus hread hdecode
  refine ⟨?_, h.2⟩
  by_cases hn : initResp.FullSize = 0
  · rw [(h.2 hn).1, hn]
    rfl
  · rw [h.1 hn, pageNumbers, totalPagesOf_eq h0 h53]

theorem fetchAlienVault_pages_witness :
    (FetchAlienVault (fun s => s) (exampleCount body501 501) (serve body501) (str "x.com")
        bothKeys).requests
      = alienVaultInitialURL (str "x.com")
          :: (List.range' 1 (((501 : ℤ) + 499) / 500).toNat).map
              (alienVaultPageURL (str "x.com"))
    ∧ List.range' 1 (((501 : ℤ) + 499) / 500).toNat = [1, 2] :=
  ⟨(fetchAlienVault_pages (fun s => s) (exampleCount body501 501) (serve body501) (str "x.com")
      bothKeys { StatusCode := 200, Body := body501 } body501 { FullSize := 501 }
      (by decide) rfl rfl rfl rfl (by decide) (by decide)).1, by decide⟩

/-! ## config.go -/

/-- C15: `Validate` returns an error exactly when one of the two keys is empty.  When it
returns nil, the concurrency it leaves is at least 1 (5 where the given one was not positive,
the given one otherwise), the list of user agents is not empty (the three defaults where the
given one was empty, the given one otherwise) and the other fields are as given.  When it
returns an error, the configuration is as given. -/
theorem validate_spec (cfg : Config) :
    ((Validate cfg).2 ≠ none ↔ (cfg.VirusTotalAPIKey = [] ∨ cfg.AlienVaultAPIKey = []))
    ∧ ((Validate cfg).2 = none →
        1 ≤ (Validate cfg).1.Concurrency
        ∧ (cfg.Concurrency ≤ 0 → (Validate cfg).1.Concurrency = 5)
        ∧ (0 < cfg.Concurrency → (Validate cfg).1.Concurrency = cfg.Concurrency)
        ∧ (Validate cfg).1.UserAgents ≠ []
        ∧ (cfg.UserAgents = [] → (Validate cfg).1.UserAgents = defaultUserAgents)
        ∧ (cfg.UserAgents ≠ [] → (Validate cfg).1.UserAgents = cfg.UserAgents)
        ∧ (Validate cfg).1.VirusTotalAPIKey = cfg.VirusTotalAPIKey
        ∧ (Validate cfg).1.AlienVaultAPIKey = cfg.AlienVaultAPIKey
        ∧ (Validate cfg).1.RateLimit = cfg.RateLimit)
    ∧ ((Validate cfg).2 ≠ none → (Validate cfg).1 = cfg) := by
  obtain ⟨vt, av, c, ua, rl⟩ := cfg
  unfold Validate
  dsimp only
  by_cases hvt : vt = []
  · simp [hvt]
  · by_cases hav : av = []
    · simp [hvt, hav]
    · simp only [if_neg hvt, if_neg hav]
      refine ⟨by simp [hvt, hav], fun _ => ?_, by simp⟩
      by_cases hc : c ≤ 0 <;> by_cases hu : ua = [] <;>
        simp [hc, hu, defaultUserAgents, List.length_eq_zero] <;> omega

theorem validate_spec_witness :
    (Validate bothKeys).1.Concurrency = 5
      ∧ (Validate bothKeys).1.UserAgents = defaultUserAgents :=
  ⟨((validate_spec bothKeys).2.1 rfl).2.1 (by decide),
    ((validate_spec bothKeys).2.1 rfl).2.2.2.2.1 rfl⟩

end GoParams
